import Mathlib

/-!
# The q2pro software sound mixer (`src/client/sound/mix.c`)

A shallow embedding of the mixer and theorems about it.

Conventions of the embedding.

* C `int` values are Lean `Int`; the arithmetic of the mixer is modelled without wrap-around
  (signed overflow is undefined in C, and the ranges the mixer is designed for stay far below
  `2^31`).  `x >> n` on a signed value is the arithmetic shift `Int.shiftRight`, `x & y` is
  `Int.land`, `x << n` is the shift of `Int`.
* A C array reached through a pointer is a total function from the index to the element
  (`Int → α`): `p[i] = v` is `Function.update`-like, and a pointer into an array is the array
  together with an offset.
* A `while`/`for` loop whose number of rounds is not known before it starts takes a `fuel`
  argument and returns `none` when the fuel runs out; a counted `for (i = 0; i < count; i++)`
  loop is a fold over `List.range`.
* `sound.h` is not part of the sources at hand: the record types below list the fields that
  `mix.c` reads and writes.
-/

namespace Q2Mix

/-- The constant `PAINTBUFFER_SIZE` of `mix.c`. -/
def PAINTBUFFER_SIZE : Int := 2048

/-- The constant `INT16_MIN`. -/
def INT16_MIN : Int := -32768

/-- The constant `INT16_MAX`. -/
def INT16_MAX : Int := 32767

/-- One slot of the paint (accumulation) buffer: `samplepair_t`. -/
structure samplepair_t where
  left : Int
  right : Int
  deriving DecidableEq, Repr

/-- A loaded sound: `sfxcache_t`.  `data` is the sample array as the paint routines index it:
bytes `0 .. 255` when `width = 1`, signed 16-bit values when `width = 2`. -/
structure sfxcache_t where
  length : Int
  loopstart : Int
  width : Int
  channels : Int
  data : Int → Int

/-- A mixing channel: `channel_t`, with the fields the mixer uses.  `sfx` is the pointer to the
sound (`none` is `NULL`), `end_` is the C field `end`, `master_vol` is the C `float` field,
held as a rational. -/
structure channel_t where
  sfx : Option Nat
  leftvol : Int
  rightvol : Int
  end_ : Int
  pos : Int
  master_vol : Rat
  autosound : Bool

/-- A queued sound: `playsound_t`, with the fields the mixer and the activation use. -/
structure playsound_t where
  sfx : Option Nat
  volume : Rat
  begin : Int

/-- The device descriptor `dma`: `dma_t`.  `buffer` is the device buffer indexed in output
samples (16-bit or 8-bit units, according to `samplebits`). -/
structure dma_t where
  channels : Int
  samples : Int
  samplebits : Int
  buffer : Int → Int

/-- What the mixer reads and never writes: the resource lookup `S_LoadSound`, the channel
binding done by `S_IssuePlaysound`, the diagnostic flag `s_testsound->integer`, the value the
sine expression `sin(i * 0.1f) * 20000 * 256` converts to for each `i`, and the statics
`snd_vol` and `snd_scaletable` that `S_InitScaletable` fills. -/
structure env_t where
  S_LoadSound : Nat → Option sfxcache_t
  bind : playsound_t → Int → List channel_t → List channel_t
  s_testsound : Bool
  tone : Int → Int
  snd_vol : Int
  snd_scaletable : Int → Int → Int

/-- The globals the mixer updates: `paintedtime`, `channels` (with `s_numchannels` its
length), the queue `s_pendingplays` (earliest entry first) and `dma`. -/
structure mixer_t where
  paintedtime : Int
  channels : List channel_t
  s_pendingplays : List playsound_t
  dma : dma_t

/-- Modelled from the spec: the macro `clamp(a, b, c)` of the shared headers, which are not
among the sources; the spec says the value is clamped to the range. -/
def clamp (a b c : Int) : Int :=
  if a < b then b else if a > c then c else a

/-- Conversion of a C `float` expression to `int`: the fraction is dropped (towards zero). -/
def truncToInt (q : Rat) : Int :=
  if 0 ≤ q then Rat.floor q else -Rat.floor (-q)

/-- The assignment `p[k] = v` on an array seen as a function. -/
def store {α : Type} (p : Int → α) (k : Int) (v : α) : Int → α :=
  fun j => if j = k then v else p j

/-! ## Transfer to the device buffer -/

/-- The inner loop of `TransferStereo16` (the "linear blast"): `count` frames from
`samp[soff ..]` to `out[ooff ..]`, two output samples per frame. -/
def TransferStereo16_blast (samp : Int → samplepair_t) (soff : Int) (count : Int)
    (out : Int → Int) (ooff : Int) : Int → Int :=
  (List.range count.toNat).foldl (fun out (i : Nat) =>
    let left := (samp (soff + i)).left >>> (8 : Nat)
    let right := (samp (soff + i)).right >>> (8 : Nat)
    let out := store out (ooff + 2 * i) (clamp left INT16_MIN INT16_MAX)
    store out (ooff + 2 * i + 1) (clamp right INT16_MIN INT16_MAX)) out

/-- The outer loop of `TransferStereo16`: `ltime` is the loop variable, `soff` the number of
slots the pointer `samp` has advanced. -/
def TransferStereo16_loop (samples : Int) (samp : Int → samplepair_t) (endtime : Int) :
    Nat → Int → Int → (Int → Int) → Option (Int → Int)
  | 0, _, _, _ => none
  | fuel + 1, ltime, soff, buffer =>
    if ltime < endtime then
      let lpos := Int.land ltime ((samples >>> (1 : Nat)) - 1)
      let count := (samples >>> (1 : Nat)) - lpos
      let count := if ltime + count > endtime then endtime - ltime else count
      let buffer := TransferStereo16_blast samp soff count buffer (lpos <<< (1 : Int))
      TransferStereo16_loop samples samp endtime fuel (ltime + count) (soff + count.toNat) buffer
    else some buffer

/-- The routine `TransferStereo16(samp, endtime)`: returns the new device buffer. -/
def TransferStereo16 (fuel : Nat) (paintedtime : Int) (dma : dma_t)
    (samp : Int → samplepair_t) (endtime : Int) : Option (Int → Int) :=
  TransferStereo16_loop dma.samples samp endtime fuel paintedtime 0 dma.buffer

/-- The `int` at index `k` of the paint buffer seen as an `int` array (`(int *)samp`). -/
def intAt (samp : Int → samplepair_t) (k : Int) : Int :=
  if k % 2 = 0 then (samp (k / 2)).left else (samp (k / 2)).right

/-- The 16-bit `while (count--)` loop of `TransferStereo`: `p` is the index of the pointer
`p` in the `int` array. -/
def TransferStereo_loop16 (samp : Int → samplepair_t) (step out_mask : Int) :
    Nat → Int → Int → Int → (Int → Int) → Option (Int → Int)
  | 0, _, _, _, _ => none
  | fuel + 1, count, p, out_idx, out =>
    if count ≠ 0 then
      let val := intAt samp p >>> (8 : Nat)
      let val := clamp val INT16_MIN INT16_MAX
      TransferStereo_loop16 samp step out_mask fuel (count - 1) (p + step)
        (Int.land (out_idx + 1) out_mask) (store out out_idx val)
    else some out

/-- The 8-bit `while (count--)` loop of `TransferStereo`. -/
def TransferStereo_loop8 (samp : Int → samplepair_t) (step out_mask : Int) :
    Nat → Int → Int → Int → (Int → Int) → Option (Int → Int)
  | 0, _, _, _, _ => none
  | fuel + 1, count, p, out_idx, out =>
    if count ≠ 0 then
      let val := intAt samp p >>> (8 : Nat)
      let val := clamp val INT16_MIN INT16_MAX
      TransferStereo_loop8 samp step out_mask fuel (count - 1) (p + step)
        (Int.land (out_idx + 1) out_mask) (store out out_idx ((val >>> (8 : Nat)) + 128))
    else some out

/-- The routine `TransferStereo(samp, endtime)`, the general case. -/
def TransferStereo (fuel : Nat) (paintedtime : Int) (dma : dma_t)
    (samp : Int → samplepair_t) (endtime : Int) : Option (Int → Int) :=
  let count := (endtime - paintedtime) * dma.channels
  let out_mask := dma.samples - 1
  let out_idx := Int.land (paintedtime * dma.channels) out_mask
  let step := 3 - dma.channels
  if dma.samplebits = 16 then
    TransferStereo_loop16 samp step out_mask fuel count 0 out_idx dma.buffer
  else if dma.samplebits = 8 then
    TransferStereo_loop8 samp step out_mask fuel count 0 out_idx dma.buffer
  else some dma.buffer

/-- The test-tone loop of `TransferPaintBuffer`: `samp[i].left = samp[i].right = tone i` for
`i` from `paintedtime` to `endtime - 1`. -/
def testTone (tone : Int → Int) (paintedtime endtime : Int)
    (samp : Int → samplepair_t) : Int → samplepair_t :=
  (List.range (endtime - paintedtime).toNat).foldl (fun samp (k : Nat) =>
    store samp (paintedtime + k) ⟨tone (paintedtime + k), tone (paintedtime + k)⟩) samp

/-- The routine `TransferPaintBuffer(samp, endtime)`. -/
def TransferPaintBuffer (fuel : Nat) (env : env_t) (paintedtime : Int) (dma : dma_t)
    (samp : Int → samplepair_t) (endtime : Int) : Option (Int → Int) :=
  let samp := if env.s_testsound then testTone env.tone paintedtime endtime samp else samp
  if dma.samplebits = 16 ∧ dma.channels = 2 then
    TransferStereo16 fuel paintedtime dma samp endtime
  else
    TransferStereo fuel paintedtime dma samp endtime

/-! ## Channel mixing -/

/-- The two statements `samp->left += l; samp->right += r` at slot `k`. -/
def addPair (samp : Int → samplepair_t) (k : Int) (l r : Int) : Int → samplepair_t :=
  store samp k ⟨(samp k).left + l, (samp k).right + r⟩

/-- The routine `PaintMono8`; the pointer argument `samp` is the buffer and the offset
`off`. -/
def PaintMono8 (env : env_t) (ch : channel_t) (sc : sfxcache_t) (count : Int)
    (samp : Int → samplepair_t) (off : Int) : Int → samplepair_t :=
  let lscale := env.snd_scaletable (ch.leftvol >>> (3 : Nat))
  let rscale := env.snd_scaletable (ch.rightvol >>> (3 : Nat))
  (List.range count.toNat).foldl (fun samp (i : Nat) =>
    addPair samp (off + i) (lscale (sc.data (ch.pos + i))) (rscale (sc.data (ch.pos + i)))) samp

/-- The routine `PaintStereo8`. -/
def PaintStereo8 (env : env_t) (ch : channel_t) (sc : sfxcache_t) (count : Int)
    (samp : Int → samplepair_t) (off : Int) : Int → samplepair_t :=
  let vol := truncToInt (ch.master_vol * 255)
  let scale := env.snd_scaletable (vol >>> (3 : Nat))
  (List.range count.toNat).foldl (fun samp (i : Nat) =>
    addPair samp (off + i) (scale (sc.data (ch.pos * 2 + 2 * i)))
      (scale (sc.data (ch.pos * 2 + 2 * i + 1)))) samp

/-- The routine `PaintMono16`.  The products are taken in `Int`, where the code takes them
in `int`: the two agree as long as no product leaves the range of a 32-bit `int` (beyond it
the behaviour of the C code is undefined), as is the case for 16-bit samples with the gains
and `snd_vol` in `[0, 256]`. -/
def PaintMono16 (env : env_t) (ch : channel_t) (sc : sfxcache_t) (count : Int)
    (samp : Int → samplepair_t) (off : Int) : Int → samplepair_t :=
  let leftvol := ch.leftvol * env.snd_vol
  let rightvol := ch.rightvol * env.snd_vol
  (List.range count.toNat).foldl (fun samp (i : Nat) =>
    addPair samp (off + i) ((sc.data (ch.pos + i) * leftvol) >>> (8 : Nat))
      ((sc.data (ch.pos + i) * rightvol) >>> (8 : Nat))) samp

/-- The routine `PaintStereo16`; the product `master_vol * 255 * snd_vol` is formed in
`float` and converted once.  The model takes the exact product of the rationals, where the
code rounds to `float` after each multiplication: `vol` can differ by one from the value of
the code when the exact product is closer to an integer than the rounding error.  The
products with the samples are taken in `Int`, as in `PaintMono16`. -/
def PaintStereo16 (env : env_t) (ch : channel_t) (sc : sfxcache_t) (count : Int)
    (samp : Int → samplepair_t) (off : Int) : Int → samplepair_t :=
  let vol := truncToInt (ch.master_vol * 255 * (env.snd_vol : Rat))
  (List.range count.toNat).foldl (fun samp (i : Nat) =>
    addPair samp (off + i) ((sc.data (ch.pos * 2 + 2 * i) * vol) >>> (8 : Nat))
      ((sc.data (ch.pos * 2 + 2 * i + 1) * vol) >>> (8 : Nat))) samp

/-- The table `paintfuncs`, indexed by `func = (sc->width - 1) * 2 + (sc->channels - 1)`.
An index outside `0 .. 3` is outside the table; the model paints nothing then. -/
def paintfuncs (func : Int) (env : env_t) (ch : channel_t) (sc : sfxcache_t) (count : Int)
    (samp : Int → samplepair_t) (off : Int) : Int → samplepair_t :=
  if func = 0 then PaintMono8 env ch sc count samp off
  else if func = 1 then PaintStereo8 env ch sc count samp off
  else if func = 2 then PaintMono16 env ch sc count samp off
  else if func = 3 then PaintStereo16 env ch sc count samp off
  else samp

/-- What happens to the channel at the comment "if at end of loop, restart": executed with
the cursor `ltime` and the resource `sc`. -/
def restart (ch : channel_t) (sc : sfxcache_t) (ltime : Int) : channel_t :=
  if ltime ≥ ch.end_ then
    if ch.autosound then
      { ch with pos := 0, end_ := ltime + sc.length }
    else if sc.loopstart ≥ 0 then
      { ch with pos := sc.loopstart, end_ := ltime + sc.length - sc.loopstart }
    else
      { ch with sfx := none }
  else ch

/-- How one round of a loop ends: the loop is left (`break`, or the loop condition is false)
with a result, or it goes round again with a new state. -/
inductive round_t (α β : Type) where
  | exit : α → round_t α β
  | again : β → round_t α β

/-- One round of the loop `while (ltime < end)` of `S_PaintChannels` for one channel, from the
test of the loop condition to the end of the body.  The state is the channel, the cursor
`ltime` and the paint buffer. -/
def paintChannel_step (env : env_t) (paintedtime end_ : Int) (ch : channel_t) (ltime : Int)
    (paintbuffer : Int → samplepair_t) :
    round_t (channel_t × (Int → samplepair_t)) (channel_t × Int × (Int → samplepair_t)) :=
  if ltime < end_ then
    match ch.sfx with
    | none => .exit (ch, paintbuffer)
    | some sfx =>
      if ch.leftvol = 0 ∧ ch.rightvol = 0 then .exit (ch, paintbuffer)
      else
        let count := end_ - ltime
        let count := if ch.end_ - ltime < count then ch.end_ - ltime else count
        match env.S_LoadSound sfx with
        | none => .exit (ch, paintbuffer)
        | some sc =>
          if count > 0 then
            let func := (sc.width - 1) * 2 + (sc.channels - 1)
            let paintbuffer := paintfuncs func env ch sc count paintbuffer (ltime - paintedtime)
            let ch := { ch with pos := ch.pos + count }
            let ltime := ltime + count
            .again (restart ch sc ltime, ltime, paintbuffer)
          else
            .again (restart ch sc ltime, ltime, paintbuffer)
  else .exit (ch, paintbuffer)

/-- The loop `while (ltime < end)` of `S_PaintChannels` for one channel. -/
def paintChannel (env : env_t) (paintedtime end_ : Int) :
    Nat → channel_t → Int → (Int → samplepair_t) → Option (channel_t × (Int → samplepair_t))
  | 0, _, _, _ => none
  | fuel + 1, ch, ltime, paintbuffer =>
    match paintChannel_step env paintedtime end_ ch ltime paintbuffer with
    | .exit r => some r
    | .again (ch, ltime, paintbuffer) => paintChannel env paintedtime end_ fuel ch ltime paintbuffer

/-- The loop `for (i = 0; i < s_numchannels; i++, ch++)` of `S_PaintChannels`. -/
def paintAll (env : env_t) (paintedtime end_ : Int) (fuel : Nat) :
    List channel_t → (Int → samplepair_t) → Option (List channel_t × (Int → samplepair_t))
  | [], paintbuffer => some ([], paintbuffer)
  | ch :: rest, paintbuffer =>
    match paintChannel env paintedtime end_ fuel ch paintedtime paintbuffer with
    | none => none
    | some (ch, paintbuffer) =>
      match paintAll env paintedtime end_ fuel rest paintbuffer with
      | none => none
      | some (rest, paintbuffer) => some (ch :: rest, paintbuffer)

/-- Modelled from the spec: `S_IssuePlaysound` is defined outside `mix.c`; the spec says it
binds the pending sound to a channel slot and removes it from the queue.  The binding is
`env.bind`, the removal is the step to the rest of the queue here.  This is the loop
"start any playsounds" (`while (1)`), returning the queue, the channels and `end`. -/
def startPlaysounds (env : env_t) (paintedtime : Int) :
    List playsound_t → List channel_t → Int → List playsound_t × List channel_t × Int
  | [], channels, end_ => ([], channels, end_)
  | ps :: rest, channels, end_ =>
    if ps.begin ≤ paintedtime then
      startPlaysounds env paintedtime rest (env.bind ps paintedtime channels) end_
    else
      (ps :: rest, channels, if ps.begin < end_ then ps.begin else end_)

/-- The `memset` that clears the first `n` slots of the paint buffer. -/
def clearBuffer (paintbuffer : Int → samplepair_t) (n : Int) : Int → samplepair_t :=
  fun j => if 0 ≤ j ∧ j < n then ⟨0, 0⟩ else paintbuffer j

/-- One round of the loop `while (paintedtime < endtime)` of `S_PaintChannels`, the
sub-iteration: choose `end`, start the due playsounds, clear the paint buffer, paint the
channels, transfer, and set `paintedtime = end`.  `inner` is the fuel handed to the loops
inside, `paintbuffer` is the local array. -/
def S_PaintChannels_round (env : env_t) (endtime : Int) (inner : Nat)
    (paintbuffer : Int → samplepair_t) (st : mixer_t) :
    Option ((Int → samplepair_t) × mixer_t) :=
  let end_ := endtime
  let end_ := if end_ - st.paintedtime > PAINTBUFFER_SIZE
    then st.paintedtime + PAINTBUFFER_SIZE else end_
  match startPlaysounds env st.paintedtime st.s_pendingplays st.channels end_ with
  | (pending, channels, end_) =>
    let paintbuffer := clearBuffer paintbuffer (end_ - st.paintedtime)
    match paintAll env st.paintedtime end_ inner channels paintbuffer with
    | none => none
    | some (channels, paintbuffer) =>
      match TransferPaintBuffer inner env st.paintedtime st.dma paintbuffer end_ with
      | none => none
      | some buffer =>
        some (paintbuffer,
          { paintedtime := end_, channels := channels, s_pendingplays := pending,
            dma := { st.dma with buffer := buffer } })

/-- The loop `while (paintedtime < endtime)` of `S_PaintChannels`; the first `Nat` argument
bounds the number of rounds. -/
def S_PaintChannels_loop (env : env_t) (endtime : Int) (inner : Nat) :
    Nat → (Int → samplepair_t) → mixer_t → Option mixer_t
  | 0, _, _ => none
  | fuel + 1, paintbuffer, st =>
    if st.paintedtime < endtime then
      match S_PaintChannels_round env endtime inner paintbuffer st with
      | none => none
      | some (paintbuffer, st) => S_PaintChannels_loop env endtime inner fuel paintbuffer st
    else some st

/-- The routine `S_PaintChannels(endtime)`.  `paintbuffer` is the content of the local array
on entry (whatever the stack holds). -/
def S_PaintChannels (fuel : Nat) (env : env_t) (paintbuffer : Int → samplepair_t)
    (endtime : Int) (st : mixer_t) : Option mixer_t :=
  S_PaintChannels_loop env endtime fuel fuel paintbuffer st

/-- A sequence of mix passes: `S_PaintChannels` is called once for every entry of the list,
with the content of the local paint buffer on entry and the target end time of that call. -/
def mixPasses (fuel : Nat) (env : env_t) :
    List ((Int → samplepair_t) × Int) → mixer_t → Option mixer_t
  | [], st => some st
  | (paintbuffer, endtime) :: rest, st =>
    match S_PaintChannels fuel env paintbuffer endtime st with
    | none => none
    | some st => mixPasses fuel env rest st

/-! ## The attenuation table -/

/-- Modelled from the spec: `Cvar_ClampValue(s_volume, 0, 1)` of the console-variable layer,
which is not among the sources; the spec says the volume is clamped into `[0, 1]`. -/
def Cvar_ClampValue (v lo hi : Rat) : Rat :=
  if v < lo then lo else if v > hi then hi else v

/-- The inner loop `for (j = 0; j < 256; j++)` of `S_InitScaletable` for row `i`. -/
def initRow (snd_vol : Int) (i : Int) (table : Int → Int → Int) : Int → Int → Int :=
  (List.range 256).foldl (fun table (j : Nat) =>
    store table i (store (table i) j ((j - 128) * i * 8 * snd_vol))) table

/-- The routine `S_InitScaletable`: from the volume setting `s_volume` and the old table to
the new `snd_vol` and `snd_scaletable`. -/
def S_InitScaletable (s_volume : Rat) (table : Int → Int → Int) : Int × (Int → Int → Int) :=
  let snd_vol := truncToInt (Cvar_ClampValue s_volume 0 1 * 256)
  (snd_vol, (List.range 32).foldl (fun table (i : Nat) => initRow snd_vol i table) table)

/-! ## Data of the worked scenarios -/

/-- The stereo frames `0 .. n - 1` of a 16-bit two-channel device buffer. -/
def deviceFrames (dma : dma_t) (n : Nat) : List (Int × Int) :=
  (List.range n).map fun (i : Nat) => (dma.buffer (2 * i), dma.buffer (2 * i + 1))

/-- A mono 16-bit resource without loop point holding the samples `[100, -100, 50]`. -/
def tripleSound : sfxcache_t :=
  { length := 3, loopstart := -1, width := 2, channels := 1,
    data := fun k => if k = 0 then 100 else if k = 1 then -100 else if k = 2 then 50 else 0 }

/-- A mono 16-bit resource of one frame, without loop point, whose samples all equal `s`. -/
def constSound (s : Int) : sfxcache_t :=
  { length := 1, loopstart := -1, width := 2, channels := 1, data := fun _ => s }

/-- A mono 16-bit resource of 100 frames with loop-start 10, all samples 1000. -/
def loopSound : sfxcache_t :=
  { length := 100, loopstart := 10, width := 2, channels := 1, data := fun _ => 1000 }

/-- A mono 16-bit resource of 3 frames whose loop-start is its length. -/
def stuckSound : sfxcache_t :=
  { length := 3, loopstart := 3, width := 2, channels := 1, data := fun _ => 0 }

/-- Global volume 1 (`snd_vol = 256`), test tone off, every sound reference resolving to
`sc`. -/
def plainEnv (sc : sfxcache_t) (bind : playsound_t → Int → List channel_t → List channel_t)
    (tone : Int → Int) (table : Int → Int → Int) : env_t :=
  { S_LoadSound := fun _ => some sc, bind := bind, s_testsound := false, tone := tone,
    snd_vol := 256, snd_scaletable := table }

/-- An activation that puts the pending sound alone on the channel list: gains 255,
position 0, end time three frames after the activation. -/
def soloBind (ps : playsound_t) (paintedtime : Int) (_ : List channel_t) : List channel_t :=
  [{ sfx := ps.sfx, leftvol := 255, rightvol := 255, end_ := paintedtime + 3, pos := 0,
     master_vol := ps.volume, autosound := false }]

/-- A channel with both gains `g`, position 0, end time `e`, not autoloop. -/
def plainChannel (g e : Int) : channel_t :=
  { sfx := some 0, leftvol := g, rightvol := g, end_ := e, pos := 0, master_vol := 1,
    autosound := false }

/-- Clock 0, the given channels, an empty queue and a stereo 16-bit device of 4 frames. -/
def plainState (channels : List channel_t) (buffer : Int → Int) : mixer_t :=
  { paintedtime := 0, channels := channels, s_pendingplays := [],
    dma := { channels := 2, samples := 8, samplebits := 16, buffer := buffer } }

/-- A paint call `P` (given the buffer and the offset of the pointer `samp` in it, it returns
the buffer) for `count` frames superposes: what it leaves in a slot is what was there plus
what the same call leaves in that slot of an all-zero buffer, and the slots before the
pointer and from `count` on are unchanged. -/
def Superposes (count : Int)
    (P : (Int → samplepair_t) → Int → (Int → samplepair_t)) : Prop :=
  ∀ (B : Int → samplepair_t) (off j : Int),
    P B off j = ⟨(B j).left + (P (fun _ => ⟨0, 0⟩) off j).left,
                 (B j).right + (P (fun _ => ⟨0, 0⟩) off j).right⟩ ∧
    ((j < off ∨ off + count ≤ j) → P B off j = B j)

/-- Test tone on: global volume 1, no sound resolves, the tone is the constant `256000`
(stored as 1000 by the transfer). -/
def toneEnv : env_t :=
  { S_LoadSound := fun _ => none, bind := fun _ _ chs => chs, s_testsound := true,
    tone := fun _ => 256000, snd_vol := 256, snd_scaletable := fun _ _ => 0 }

/-- The reference for a transfer: the device buffer after `n` samples `val 0, val 1, ...` have
been stored one after another at the indices `start, start + 1, ...` taken modulo the number
of samples `size` of the device buffer. -/
def linearWrite (size : Int) (val : Nat → Int) (start : Int) (n : Nat) (out : Int → Int) :
    Int → Int :=
  (List.range n).foldl (fun out (m : Nat) => store out ((start + m) % size) (val m)) out

/-- The channel has data left for all the frames up to its end time: seen from the clock
`t`, an active channel bound to the resource `sc` has `0 ≤ pos` and
`end - t ≤ length - pos`. -/
def dataLeft (env : env_t) (t : Int) (ch : channel_t) : Prop :=
  ∀ (s : Nat) (sc : sfxcache_t), ch.sfx = some s → env.S_LoadSound s = some sc →
    0 ≤ ch.pos ∧ ch.end_ - t ≤ sc.length - ch.pos

/-- Two resources with the same header and the same samples in the frames
`0 .. length - 1` (`channels` samples a frame); they may differ in what lies outside. -/
def sameFrames (a b : sfxcache_t) : Prop :=
  a.length = b.length ∧ a.loopstart = b.loopstart ∧ a.width = b.width ∧
  a.channels = b.channels ∧
  ∀ k, 0 ≤ k → k < a.length * a.channels → a.data k = b.data k

/-- Two resource lookups that resolve the same references, to resources with the same
frames. -/
def sameLookup (l1 l2 : Nat → Option sfxcache_t) : Prop :=
  ∀ s, (l1 s = none ∧ l2 s = none) ∨ (∃ a b, l1 s = some a ∧ l2 s = some b ∧ sameFrames a b)

/-- The resource `tripleSound` with the sample 9999 everywhere outside its three frames. -/
def paddedSound : sfxcache_t :=
  { tripleSound with data := fun k => if 0 ≤ k ∧ k < 3 then tripleSound.data k else 9999 }

/-- The slot by slot sum of two paint buffers. -/
def addBuffers (a b : Int → samplepair_t) : Int → samplepair_t :=
  fun j => ⟨(a j).left + (b j).left, (a j).right + (b j).right⟩

/-! # Properties

## Arithmetic of the helpers -/

theorem rat_floor_eq (q : Rat) : Rat.floor q = ⌊q⌋ := rfl

theorem truncToInt_bounds (q : Rat) (n : Int) (h0 : 0 ≤ q) (h1 : q ≤ n) :
    0 ≤ truncToInt q ∧ truncToInt q ≤ n := by
  unfold truncToInt
  rw [if_pos h0, rat_floor_eq]
  constructor
  · exact Int.floor_nonneg.mpr h0
  · have : ⌊q⌋ ≤ ⌊(n : Rat)⌋ := Int.floor_le_floor h1
    simpa using this

theorem Cvar_ClampValue_bounds (v : Rat) :
    0 ≤ Cvar_ClampValue v 0 1 ∧ Cvar_ClampValue v 0 1 ≤ 1 := by
  unfold Cvar_ClampValue
  split_ifs with h1 h2
  · exact ⟨le_refl _, zero_le_one⟩
  · exact ⟨zero_le_one, le_refl _⟩
  · exact ⟨not_lt.mp h1, not_lt.mp h2⟩

theorem snd_vol_one (tbl : Int → Int → Int) : (S_InitScaletable 1 tbl).1 = 256 := by
  simp only [S_InitScaletable, Cvar_ClampValue, truncToInt, rat_floor_eq]
  norm_num

theorem store_same {α : Type} (p : Int → α) (k : Int) (v : α) : store p k v k = v := by
  simp [store]

theorem store_other {α : Type} (p : Int → α) (k j : Int) (v : α) (h : j ≠ k) :
    store p k v j = p j := by
  simp [store, h]

theorem initRow_fold (v i : Int) (table : Int → Int → Int) (n : Nat) (a b : Int) :
    (List.range n).foldl (fun table (j : Nat) =>
      store table i (store (table i) j ((j - 128) * i * 8 * v))) table a b
      = if a = i ∧ 0 ≤ b ∧ b < n then (b - 128) * i * 8 * v else table a b := by
  induction n with
  | zero =>
    simp only [List.range_zero, List.foldl_nil]
    rw [if_neg]; omega
  | succ n ih =>
    rw [List.range_succ, List.foldl_append]
    simp only [List.foldl_cons, List.foldl_nil]
    have e : ((n + 1 : Nat) : Int) = (n : Int) + 1 := by push_cast; rfl
    rw [e]
    by_cases ha : a = i
    · subst ha
      rw [store_same]
      by_cases hb : b = (n : Int)
      · subst hb
        rw [store_same, if_pos]
        refine ⟨rfl, by clear ih; omega, by clear ih; omega⟩
      · rw [store_other _ _ _ _ hb, ih]
        by_cases hc : 0 ≤ b ∧ b < (n : Int)
        · rw [if_pos ⟨rfl, hc⟩, if_pos ⟨rfl, hc.1, by clear ih; omega⟩]
        · rw [if_neg (fun h => hc h.2), if_neg]
          intro h; apply hc; have := h.2; clear ih; omega
    · rw [store_other _ _ _ _ ha, ih, if_neg (fun h => ha h.1), if_neg (fun h => ha h.1)]

theorem initRow_apply (v i : Int) (table : Int → Int → Int) (a b : Int) :
    initRow v i table a b
      = if a = i ∧ 0 ≤ b ∧ b < 256 then (b - 128) * i * 8 * v else table a b := by
  unfold initRow
  rw [initRow_fold]
  norm_num

theorem initTable_fold (v : Int) (table : Int → Int → Int) (n : Nat) (a b : Int) :
    (List.range n).foldl (fun table (i : Nat) => initRow v i table) table a b
      = if (0 ≤ a ∧ a < n) ∧ 0 ≤ b ∧ b < 256 then (b - 128) * a * 8 * v else table a b := by
  induction n with
  | zero =>
    simp only [List.range_zero, List.foldl_nil]
    rw [if_neg]; omega
  | succ n ih =>
    rw [List.range_succ, List.foldl_append]
    simp only [List.foldl_cons, List.foldl_nil]
    rw [initRow_apply, ih]
    have e : ((n + 1 : Nat) : Int) = (n : Int) + 1 := by push_cast; rfl
    rw [e]
    by_cases hb : 0 ≤ b ∧ b < 256
    · by_cases ha : a = (n : Int)
      · subst ha
        rw [if_pos ⟨rfl, hb⟩, if_pos]
        refine ⟨⟨by clear ih; omega, by clear ih; omega⟩, hb⟩
      · rw [if_neg (fun h => ha h.1)]
        by_cases hc : 0 ≤ a ∧ a < (n : Int)
        · rw [if_pos ⟨hc, hb⟩, if_pos ⟨⟨hc.1, by clear ih; omega⟩, hb⟩]
        · rw [if_neg (fun h => hc h.1), if_neg]
          intro h; apply hc; have := h.1; clear ih; omega
    · rw [if_neg (fun h => hb h.2), if_neg (fun h => hb h.2), if_neg (fun h => hb h.2)]

theorem S_InitScaletable_apply (s_volume : Rat) (table : Int → Int → Int) (i j : Int)
    (hi : 0 ≤ i ∧ i < 32) (hj : 0 ≤ j ∧ j < 256) :
    (S_InitScaletable s_volume table).2 i j = (j - 128) * i * 8 * (S_InitScaletable s_volume table).1 := by
  simp only [S_InitScaletable]
  rw [initTable_fold]
  have : (0 ≤ i ∧ i < ((32 : Nat) : Int)) ∧ 0 ≤ j ∧ j < 256 := by
    refine ⟨⟨hi.1, by simpa using hi.2⟩, hj⟩
  rw [if_pos this]

theorem snd_vol_bounds (s_volume : Rat) (table : Int → Int → Int) :
    0 ≤ (S_InitScaletable s_volume table).1 ∧ (S_InitScaletable s_volume table).1 ≤ 256 := by
  simp only [S_InitScaletable]
  have h := Cvar_ClampValue_bounds s_volume
  have := truncToInt_bounds (Cvar_ClampValue s_volume 0 1 * 256) 256
    (mul_nonneg h.1 (by norm_num)) (by push_cast; nlinarith [h.2])
  exact this

/-! ## More fuel never changes a result -/

theorem paintChannel_mono (env : env_t) (p e : Int) :
    ∀ (fuel : Nat) (ch : channel_t) (lt : Int) (pb : Int → samplepair_t)
      (r : channel_t × (Int → samplepair_t)),
      paintChannel env p e fuel ch lt pb = some r →
      ∀ fuel', fuel ≤ fuel' → paintChannel env p e fuel' ch lt pb = some r := by
  intro fuel
  induction fuel with
  | zero => intro ch lt pb r h; simp [paintChannel] at h
  | succ n ih =>
    intro ch lt pb r h fuel' hle
    obtain ⟨m, rfl⟩ : ∃ m, fuel' = m + 1 := ⟨fuel' - 1, by omega⟩
    simp only [paintChannel] at h ⊢
    cases hs : paintChannel_step env p e ch lt pb with
    | exit x => rw [hs] at h; exact h
    | again x =>
      obtain ⟨ch', lt', pb'⟩ := x
      rw [hs] at h
      exact ih ch' lt' pb' r h m (by omega)

theorem paintAll_mono (env : env_t) (p e : Int) (fuel fuel' : Nat) (hle : fuel ≤ fuel') :
    ∀ (chs : List channel_t) (pb : Int → samplepair_t)
      (r : List channel_t × (Int → samplepair_t)),
      paintAll env p e fuel chs pb = some r → paintAll env p e fuel' chs pb = some r := by
  intro chs
  induction chs with
  | nil => intro pb r h; simpa [paintAll] using h
  | cons ch rest ih =>
    intro pb r h
    simp only [paintAll] at h ⊢
    cases h1 : paintChannel env p e fuel ch p pb with
    | none => rw [h1] at h; simp at h
    | some x =>
      obtain ⟨ch', pb'⟩ := x
      rw [h1] at h
      rw [paintChannel_mono env p e fuel ch p pb _ h1 fuel' hle]
      simp only at h ⊢
      cases h2 : paintAll env p e fuel rest pb' with
      | none => rw [h2] at h; simp at h
      | some y =>
        rw [h2] at h
        rw [ih pb' y h2]
        exact h

theorem TransferStereo16_loop_mono (samples : Int) (samp : Int → samplepair_t) (e : Int) :
    ∀ (fuel : Nat) (lt soff : Int) (b r : Int → Int),
      TransferStereo16_loop samples samp e fuel lt soff b = some r →
      ∀ fuel', fuel ≤ fuel' → TransferStereo16_loop samples samp e fuel' lt soff b = some r := by
  intro fuel
  induction fuel with
  | zero => intro lt soff b r h; simp [TransferStereo16_loop] at h
  | succ n ih =>
    intro lt soff b r h fuel' hle
    obtain ⟨m, rfl⟩ : ∃ m, fuel' = m + 1 := ⟨fuel' - 1, by omega⟩
    simp only [TransferStereo16_loop] at h ⊢
    by_cases hc : lt < e
    · rw [if_pos hc] at h ⊢
      exact ih _ _ _ r h m (by omega)
    · rw [if_neg hc] at h ⊢
      exact h

theorem TransferStereo_loop16_mono (samp : Int → samplepair_t) (step mask : Int) :
    ∀ (fuel : Nat) (count p idx : Int) (b r : Int → Int),
      TransferStereo_loop16 samp step mask fuel count p idx b = some r →
      ∀ fuel', fuel ≤ fuel' → TransferStereo_loop16 samp step mask fuel' count p idx b = some r := by
  intro fuel
  induction fuel with
  | zero => intro count p idx b r h; simp [TransferStereo_loop16] at h
  | succ n ih =>
    intro count p idx b r h fuel' hle
    obtain ⟨m, rfl⟩ : ∃ m, fuel' = m + 1 := ⟨fuel' - 1, by omega⟩
    simp only [TransferStereo_loop16] at h ⊢
    split_ifs at h ⊢ with hc
    · exact ih _ _ _ _ r h m (by omega)
    · exact h

theorem TransferStereo_loop8_mono (samp : Int → samplepair_t) (step mask : Int) :
    ∀ (fuel : Nat) (count p idx : Int) (b r : Int → Int),
      TransferStereo_loop8 samp step mask fuel count p idx b = some r →
      ∀ fuel', fuel ≤ fuel' → TransferStereo_loop8 samp step mask fuel' count p idx b = some r := by
  intro fuel
  induction fuel with
  | zero => intro count p idx b r h; simp [TransferStereo_loop8] at h
  | succ n ih =>
    intro count p idx b r h fuel' hle
    obtain ⟨m, rfl⟩ : ∃ m, fuel' = m + 1 := ⟨fuel' - 1, by omega⟩
    simp only [TransferStereo_loop8] at h ⊢
    split_ifs at h ⊢ with hc
    · exact ih _ _ _ _ r h m (by omega)
    · exact h

theorem TransferPaintBuffer_mono (env : env_t) (p : Int) (dma : dma_t)
    (samp : Int → samplepair_t) (e : Int) (fuel fuel' : Nat) (hle : fuel ≤ fuel')
    (r : Int → Int) (h : TransferPaintBuffer fuel env p dma samp e = some r) :
    TransferPaintBuffer fuel' env p dma samp e = some r := by
  simp only [TransferPaintBuffer, TransferStereo16, TransferStereo] at h ⊢
  generalize (if env.s_testsound = true then testTone env.tone p e samp else samp) = samp1
    at h ⊢
  by_cases h1 : dma.samplebits = 16 ∧ dma.channels = 2
  · rw [if_pos h1] at h ⊢
    exact TransferStereo16_loop_mono _ _ _ _ _ _ _ _ h _ hle
  · rw [if_neg h1] at h ⊢
    by_cases h2 : dma.samplebits = 16
    · rw [if_pos h2] at h ⊢
      exact TransferStereo_loop16_mono _ _ _ _ _ _ _ _ _ h _ hle
    · rw [if_neg h2] at h ⊢
      by_cases h3 : dma.samplebits = 8
      · rw [if_pos h3] at h ⊢
        exact TransferStereo_loop8_mono _ _ _ _ _ _ _ _ _ h _ hle
      · rw [if_neg h3] at h ⊢
        exact h

theorem S_PaintChannels_round_mono (env : env_t) (endtime : Int) (inner inner' : Nat)
    (hle : inner ≤ inner') (pb : Int → samplepair_t) (st : mixer_t)
    (r : (Int → samplepair_t) × mixer_t)
    (h : S_PaintChannels_round env endtime inner pb st = some r) :
    S_PaintChannels_round env endtime inner' pb st = some r := by
  simp only [S_PaintChannels_round] at h ⊢
  generalize startPlaysounds env st.paintedtime st.s_pendingplays st.channels
    (if endtime - st.paintedtime > PAINTBUFFER_SIZE then st.paintedtime + PAINTBUFFER_SIZE
      else endtime) = sp at h ⊢
  obtain ⟨pending, channels, end_⟩ := sp
  simp only at h ⊢
  cases h1 : paintAll env st.paintedtime end_ inner channels
      (clearBuffer pb (end_ - st.paintedtime)) with
  | none => rw [h1] at h; simp at h
  | some x =>
    obtain ⟨chs', pb'⟩ := x
    rw [h1] at h
    rw [paintAll_mono env _ _ inner inner' hle _ _ _ h1]
    simp only at h ⊢
    cases h2 : TransferPaintBuffer inner env st.paintedtime st.dma pb' end_ with
    | none => rw [h2] at h; simp at h
    | some buf =>
      rw [h2] at h
      rw [TransferPaintBuffer_mono env _ _ _ _ inner inner' hle _ h2]
      exact h

theorem S_PaintChannels_loop_mono (env : env_t) (endtime : Int) (inner inner' : Nat)
    (hle : inner ≤ inner') :
    ∀ (fuel : Nat) (pb : Int → samplepair_t) (st r : mixer_t),
      S_PaintChannels_loop env endtime inner fuel pb st = some r →
      ∀ fuel', fuel ≤ fuel' → S_PaintChannels_loop env endtime inner' fuel' pb st = some r := by
  intro fuel
  induction fuel with
  | zero => intro pb st r h; simp [S_PaintChannels_loop] at h
  | succ n ih =>
    intro pb st r h fuel' hle'
    obtain ⟨m, rfl⟩ : ∃ m, fuel' = m + 1 := ⟨fuel' - 1, by omega⟩
    simp only [S_PaintChannels_loop] at h ⊢
    split_ifs at h ⊢ with hc
    · cases h1 : S_PaintChannels_round env endtime inner pb st with
      | none => rw [h1] at h; simp at h
      | some x =>
        obtain ⟨pb', st'⟩ := x
        rw [h1] at h
        rw [S_PaintChannels_round_mono env endtime inner inner' hle pb st _ h1]
        exact ih pb' st' r h m (by omega)
    · exact h

theorem S_PaintChannels_mono (env : env_t) (pb : Int → samplepair_t) (endtime : Int)
    (st r : mixer_t) (fuel fuel' : Nat) (hle : fuel ≤ fuel')
    (h : S_PaintChannels fuel env pb endtime st = some r) :
    S_PaintChannels fuel' env pb endtime st = some r :=
  S_PaintChannels_loop_mono env endtime fuel fuel' hle fuel pb st r h fuel' hle

/-! ## The attenuation table (C10) -/

/-- C10: after `S_InitScaletable`, whatever the volume setting (it is clamped into `[0, 1]`,
so that `snd_vol` lies in `[0, 256]`) and whatever the table held before, every row `i` in
`[0, 32)` is odd-symmetric around column 128: the entry at `128 + k` is the negation of the
entry at `128 - k` for `k` in `[1, 127]`, and the entry at 128 is 0. -/
theorem scaletable_odd_symmetry (s_volume : Rat) (table : Int → Int → Int) (i k : Int)
    (hi : 0 ≤ i ∧ i < 32) (hk : 1 ≤ k ∧ k ≤ 127) :
    (0 ≤ (S_InitScaletable s_volume table).1 ∧ (S_InitScaletable s_volume table).1 ≤ 256) ∧
    (S_InitScaletable s_volume table).2 i (128 + k)
      = -(S_InitScaletable s_volume table).2 i (128 - k) ∧
    (S_InitScaletable s_volume table).2 i 128 = 0 := by
  refine ⟨snd_vol_bounds s_volume table, ?_, ?_⟩
  · rw [S_InitScaletable_apply s_volume table i (128 + k) hi ⟨by omega, by omega⟩,
      S_InitScaletable_apply s_volume table i (128 - k) hi ⟨by omega, by omega⟩]
    ring
  · rw [S_InitScaletable_apply s_volume table i 128 hi ⟨by omega, by omega⟩]
    ring

/-- Witness of `scaletable_odd_symmetry`: volume one half, row 3, distance 5 from the centre,
starting from an all-zero table. -/
theorem scaletable_odd_symmetry_witness :
    ((0 : Int) ≤ 3 ∧ (3 : Int) < 32) ∧ ((1 : Int) ≤ 5 ∧ (5 : Int) ≤ 127) ∧
    ((0 ≤ (S_InitScaletable (1 / 2) (fun _ _ => 0)).1
        ∧ (S_InitScaletable (1 / 2) (fun _ _ => 0)).1 ≤ 256) ∧
      (S_InitScaletable (1 / 2) (fun _ _ => 0)).2 3 (128 + 5)
        = -(S_InitScaletable (1 / 2) (fun _ _ => 0)).2 3 (128 - 5) ∧
      (S_InitScaletable (1 / 2) (fun _ _ => 0)).2 3 128 = 0) :=
  ⟨by decide, by decide,
    scaletable_odd_symmetry (1 / 2) (fun _ _ => 0) 3 5 (by decide) (by decide)⟩

/-! ## The three-frame scenario (C1) -/

/-- C1, counterexample: in the scenario of the claim with the channel at the largest gain a
channel can have, 255 (the gain indexes the 32 rows of `snd_scaletable` through
`leftvol >> 3`), `S_PaintChannels(3)` leaves the device frames `(99, 99), (-100, -100),
(49, 49)`, not `(100, 100), (-100, -100), (50, 50)`. -/
theorem scenario_full_gain_frames :
    Option.map (fun st => deviceFrames st.dma 3)
        (S_PaintChannels 2 (plainEnv tripleSound (fun _ _ chs => chs) (fun _ => 0) (fun _ _ => 0))
          (fun _ => ⟨0, 0⟩) 3 (plainState [plainChannel 255 3] (fun _ => 0)))
      = some [(99, 99), (-100, -100), (49, 49)] ∧
    Option.map (fun st => deviceFrames st.dma 3)
        (S_PaintChannels 2 (plainEnv tripleSound (fun _ _ chs => chs) (fun _ => 0) (fun _ _ => 0))
          (fun _ => ⟨0, 0⟩) 3 (plainState [plainChannel 255 3] (fun _ => 0)))
      ≠ some [(100, 100), (-100, -100), (50, 50)] := by
  constructor
  · rfl
  · intro h
    have h2 : Option.map (fun st => deviceFrames st.dma 3)
        (S_PaintChannels 2 (plainEnv tripleSound (fun _ _ chs => chs) (fun _ => 0) (fun _ _ => 0))
          (fun _ => ⟨0, 0⟩) 3 (plainState [plainChannel 255 3] (fun _ => 0)))
        = some [(99, 99), (-100, -100), (49, 49)] := rfl
    rw [h2] at h
    exact absurd h (by decide)

/-- C1 (as amended): stereo 16-bit device of 4 frames, global volume 1 (`snd_vol = 256`),
clock 0, test tone off, empty queue, one channel (position 0, end time 3, not autoloop) bound
to the mono 16-bit resource `[100, -100, 50]` without loop point.  `S_PaintChannels(3)`
returns, with the clock at 3 and the channel idle (`sfx` cleared), and the device frames
0, 1, 2 are `(99, 99), (-100, -100), (49, 49)` at gain 255 and
`(100, 100), (-100, -100), (50, 50)` at gain 256 (where `leftvol * snd_vol = 65536`).
This holds for every content of the device buffer and of the local paint buffer on entry;
the volume setting 1 is what makes `S_InitScaletable` set `snd_vol = 256`. -/
theorem scenario_three_frames (fuel : Nat) (hfuel : 2 ≤ fuel)
    (bind : playsound_t → Int → List channel_t → List channel_t) (tone : Int → Int)
    (table : Int → Int → Int) (paintbuffer : Int → samplepair_t) (buffer : Int → Int) :
    (∃ st, S_PaintChannels fuel (plainEnv tripleSound bind tone table) paintbuffer 3
          (plainState [plainChannel 255 3] buffer) = some st ∧
        deviceFrames st.dma 3 = [(99, 99), (-100, -100), (49, 49)] ∧
        st.channels.map (fun ch => ch.sfx) = [none] ∧ st.paintedtime = 3) ∧
    (∃ st, S_PaintChannels fuel (plainEnv tripleSound bind tone table) paintbuffer 3
          (plainState [plainChannel 256 3] buffer) = some st ∧
        deviceFrames st.dma 3 = [(100, 100), (-100, -100), (50, 50)] ∧
        st.channels.map (fun ch => ch.sfx) = [none] ∧ st.paintedtime = 3) ∧
    (S_InitScaletable 1 table).1 = 256 := by
  refine ⟨?_, ?_, snd_vol_one table⟩
  · have h : Option.map (fun st => (deviceFrames st.dma 3, st.channels.map (fun ch => ch.sfx),
          st.paintedtime))
        (S_PaintChannels 2 (plainEnv tripleSound bind tone table) paintbuffer 3
          (plainState [plainChannel 255 3] buffer))
        = some ([(99, 99), (-100, -100), (49, 49)], [none], 3) := rfl
    obtain ⟨st, hst, hv⟩ := Option.map_eq_some'.mp h
    refine ⟨st, S_PaintChannels_mono _ _ _ _ _ 2 fuel hfuel hst, ?_, ?_, ?_⟩
    · exact congrArg (fun x => x.1) hv
    · exact congrArg (fun x => x.2.1) hv
    · exact congrArg (fun x => x.2.2) hv
  · have h : Option.map (fun st => (deviceFrames st.dma 3, st.channels.map (fun ch => ch.sfx),
          st.paintedtime))
        (S_PaintChannels 2 (plainEnv tripleSound bind tone table) paintbuffer 3
          (plainState [plainChannel 256 3] buffer))
        = some ([(100, 100), (-100, -100), (50, 50)], [none], 3) := rfl
    obtain ⟨st, hst, hv⟩ := Option.map_eq_some'.mp h
    refine ⟨st, S_PaintChannels_mono _ _ _ _ _ 2 fuel hfuel hst, ?_, ?_, ?_⟩
    · exact congrArg (fun x => x.1) hv
    · exact congrArg (fun x => x.2.1) hv
    · exact congrArg (fun x => x.2.2) hv

/-- Witness of `scenario_three_frames`: fuel 2, nothing bound by activation, all buffers
zero on entry. -/
theorem scenario_three_frames_witness :
    2 ≤ 2 ∧
    ((∃ st, S_PaintChannels 2 (plainEnv tripleSound (fun _ _ chs => chs) (fun _ => 0)
            (fun _ _ => 0)) (fun _ => ⟨0, 0⟩) 3
          (plainState [plainChannel 255 3] (fun _ => 0)) = some st ∧
        deviceFrames st.dma 3 = [(99, 99), (-100, -100), (49, 49)] ∧
        st.channels.map (fun ch => ch.sfx) = [none] ∧ st.paintedtime = 3) ∧
    (∃ st, S_PaintChannels 2 (plainEnv tripleSound (fun _ _ chs => chs) (fun _ => 0)
            (fun _ _ => 0)) (fun _ => ⟨0, 0⟩) 3
          (plainState [plainChannel 256 3] (fun _ => 0)) = some st ∧
        deviceFrames st.dma 3 = [(100, 100), (-100, -100), (50, 50)] ∧
        st.channels.map (fun ch => ch.sfx) = [none] ∧ st.paintedtime = 3) ∧
    (S_InitScaletable 1 (fun _ _ => 0)).1 = 256) :=
  ⟨le_refl 2, scenario_three_frames 2 (le_refl 2) (fun _ _ chs => chs) (fun _ => 0)
    (fun _ _ => 0) (fun _ => ⟨0, 0⟩) (fun _ => 0)⟩

/-! ## The transfer of the paint buffer to the device -/

theorem land_mask (t : Int) (k : Nat) (ht : 0 ≤ t) :
    Int.land t (2 ^ k - 1) = t % 2 ^ k := by
  obtain ⟨n, rfl⟩ := Int.eq_ofNat_of_zero_le ht
  have h1 : ((2 : Int) ^ k - 1) = ((2 ^ k - 1 : Nat) : Int) := by
    have : 1 ≤ 2 ^ k := Nat.one_le_two_pow
    push_cast [Nat.cast_sub this]
    rfl
  rw [h1]
  show ((n &&& (2 ^ k - 1) : Nat) : Int) = _
  rw [Nat.and_pow_two_sub_one_eq_mod]
  push_cast
  rfl

theorem shiftRight_one_double (c : Int) : (2 * c) >>> (1 : Nat) = c := by
  rw [Int.shiftRight_eq_div_pow]
  norm_num

theorem shiftLeft_one (x : Int) : x <<< (1 : Int) = 2 * x := by
  have := Int.shiftLeft_eq_mul_pow x 1
  simpa [mul_comm] using this

theorem emod_add_small (a d c : Int) (h0 : 0 ≤ d) (h1 : a % c + d < c) (hc : 0 < c) :
    (a + d) % c = a % c + d := by
  have h := Int.emod_add_ediv a c
  have h2 : a + d = (a % c + d) + c * (a / c) := by linarith
  rw [h2, Int.add_mul_emod_self_left]
  exact Int.emod_eq_of_lt (by have := Int.emod_nonneg a (ne_of_gt hc); omega) h1

theorem emod_ne_of_close (a b c : Int) (hab : a < b) (hc : b - a < c) : a % c ≠ b % c := by
  intro h
  have h1 : (b - a) % c = 0 := Int.emod_eq_emod_iff_emod_sub_eq_zero.mp h.symm
  have h2 : c ∣ b - a := Int.dvd_of_emod_eq_zero h1
  have h3 := Int.eq_zero_of_abs_lt_dvd h2 (by rw [abs_of_pos (by omega)]; exact hc)
  omega


theorem blast_nat (samp : Int → samplepair_t) (soff ooff : Int) (out : Int → Int) (n : Nat)
    (idx : Int) :
    TransferStereo16_blast samp soff (n : Int) out ooff idx
      = if ooff ≤ idx ∧ idx < ooff + 2 * n then
          (if (idx - ooff) % 2 = 0
            then clamp ((samp (soff + (idx - ooff) / 2)).left >>> (8 : Nat)) INT16_MIN INT16_MAX
            else clamp ((samp (soff + (idx - ooff) / 2)).right >>> (8 : Nat)) INT16_MIN INT16_MAX)
        else out idx := by
  induction n with
  | zero =>
    simp only [TransferStereo16_blast, Nat.cast_zero, Int.toNat_zero, List.range_zero,
      List.foldl_nil]
    rw [if_neg]; omega
  | succ n ih =>
    simp only [TransferStereo16_blast, Int.toNat_ofNat] at ih ⊢
    rw [List.range_succ, List.foldl_append]
    simp only [List.foldl_cons, List.foldl_nil]
    have e : ((n + 1 : Nat) : Int) = (n : Int) + 1 := by push_cast; rfl
    rw [e]
    by_cases h1 : idx = ooff + 2 * (n : Int) + 1
    · have c1 : ooff ≤ idx ∧ idx < ooff + 2 * ((n : Int) + 1) := by clear ih; omega
      have c2 : ¬ ((idx - ooff) % 2 = 0) := by clear ih; omega
      have c3 : (idx - ooff) / 2 = (n : Int) := by clear ih; omega
      rw [if_pos c1, if_neg c2, c3, h1, store_same]
    · rw [store_other _ _ _ _ h1]
      by_cases h2 : idx = ooff + 2 * (n : Int)
      · have c1 : ooff ≤ idx ∧ idx < ooff + 2 * ((n : Int) + 1) := by clear ih; omega
        have c2 : (idx - ooff) % 2 = 0 := by clear ih; omega
        have c3 : (idx - ooff) / 2 = (n : Int) := by clear ih; omega
        rw [if_pos c1, if_pos c2, c3, h2, store_same]
      · rw [store_other _ _ _ _ h2, ih]
        by_cases h3 : ooff ≤ idx ∧ idx < ooff + 2 * (n : Int)
        · have c1 : ooff ≤ idx ∧ idx < ooff + 2 * ((n : Int) + 1) := by clear ih; omega
          rw [if_pos h3, if_pos c1]
        · have c1 : ¬ (ooff ≤ idx ∧ idx < ooff + 2 * ((n : Int) + 1)) := by clear ih; omega
          rw [if_neg h3, if_neg c1]

theorem blast_apply (samp : Int → samplepair_t) (soff ooff count : Int) (out : Int → Int)
    (hc : 0 ≤ count) (idx : Int) :
    TransferStereo16_blast samp soff count out ooff idx
      = if ooff ≤ idx ∧ idx < ooff + 2 * count then
          (if (idx - ooff) % 2 = 0
            then clamp ((samp (soff + (idx - ooff) / 2)).left >>> (8 : Nat)) INT16_MIN INT16_MAX
            else clamp ((samp (soff + (idx - ooff) / 2)).right >>> (8 : Nat)) INT16_MIN INT16_MAX)
        else out idx := by
  obtain ⟨n, rfl⟩ := Int.eq_ofNat_of_zero_le hc
  exact blast_nat samp soff ooff out n idx

/-- What the loop of `TransferStereo16` leaves in the device buffer when the range
`[lt, e)` is at most one lap of a buffer of `2 ^ k` frames: the frame of time `t` sits at
frame index `t % 2 ^ k`, and every sample outside these frames is untouched. -/
theorem TransferStereo16_loop_spec (k : Nat) (samp : Int → samplepair_t) (e : Int) :
    ∀ (fuel : Nat) (lt soff : Int) (b : Int → Int),
      0 ≤ lt → e - lt ≤ 2 ^ k → (e - lt).toNat < fuel →
      ∃ r, TransferStereo16_loop (2 * 2 ^ k) samp e fuel lt soff b = some r ∧
        (∀ t, lt ≤ t → t < e →
          r (2 * (t % 2 ^ k))
              = clamp ((samp (soff + (t - lt))).left >>> (8 : Nat)) INT16_MIN INT16_MAX ∧
          r (2 * (t % 2 ^ k) + 1)
              = clamp ((samp (soff + (t - lt))).right >>> (8 : Nat)) INT16_MIN INT16_MAX) ∧
        (∀ idx, (∀ t, lt ≤ t → t < e → idx ≠ 2 * (t % 2 ^ k) ∧ idx ≠ 2 * (t % 2 ^ k) + 1) →
          r idx = b idx) := by
  have hC : (0 : Int) < 2 ^ k := by positivity
  intro fuel
  induction fuel with
  | zero => intro lt soff b _ _ h; omega
  | succ n ih =>
    intro lt soff b hlt hcap hfuel
    simp only [TransferStereo16_loop]
    by_cases hc : lt < e
    · rw [if_pos hc, shiftRight_one_double, land_mask lt k hlt, shiftLeft_one]
      generalize hC' : (2 : Int) ^ k = C at hC hcap ih ⊢
      have hm0 : 0 ≤ lt % C := Int.emod_nonneg lt (ne_of_gt hC)
      have hm1 : lt % C < C := Int.emod_lt_of_pos lt hC
      generalize hcount : (if lt + (C - lt % C) > e then e - lt else C - lt % C) = count
      have hcnt : 0 < count ∧ count ≤ C - lt % C ∧ lt + count ≤ e := by
        rw [← hcount]; split_ifs with hx <;> omega
      have hcn : ((count.toNat : Nat) : Int) = count := Int.toNat_of_nonneg (le_of_lt hcnt.1)
      rw [hcn]
      obtain ⟨r, hr, hw, hu⟩ := ih (lt + count) (soff + count)
        (TransferStereo16_blast samp soff count b (2 * (lt % C))) (by omega) (by omega)
        (by omega)
      have hres : ∀ t, lt ≤ t → t < lt + count → t % C = lt % C + (t - lt) := by
        intro t h1 h2
        have := emod_add_small lt (t - lt) C (by omega) (by omega) hC
        rw [← this]; congr 1; ring
      have hinj : ∀ t u, lt ≤ t → t < u → u < e → t % C ≠ u % C := by
        intro t u h1 h2 h3
        exact emod_ne_of_close t u C h2 (by omega)
      refine ⟨r, hr, ?_, ?_⟩
      · intro t h1 h2
        by_cases hin : t < lt + count
        · -- written by this blast, untouched afterwards
          have hmod := hres t h1 hin
          have hl : r (2 * (t % C)) = TransferStereo16_blast samp soff count b (2 * (lt % C))
              (2 * (t % C)) := by
            apply hu
            intro u hu1 hu2
            have := hinj t u h1 (by omega) hu2
            omega
          have hr2 : r (2 * (t % C) + 1) = TransferStereo16_blast samp soff count b
              (2 * (lt % C)) (2 * (t % C) + 1) := by
            apply hu
            intro u hu1 hu2
            have := hinj t u h1 (by omega) hu2
            omega
          rw [hl, hr2, blast_apply _ _ _ _ _ (le_of_lt hcnt.1),
            blast_apply _ _ _ _ _ (le_of_lt hcnt.1)]
          rw [if_pos (by omega), if_pos (by omega), if_pos (by omega), if_neg (by omega)]
          have e1 : (2 * (t % C) - 2 * (lt % C)) / 2 = t - lt := by omega
          have e2 : (2 * (t % C) + 1 - 2 * (lt % C)) / 2 = t - lt := by omega
          rw [e1, e2]
          exact ⟨rfl, rfl⟩
        · have := hw t (by omega) h2
          have e1 : soff + count + (t - (lt + count)) = soff + (t - lt) := by ring
          rw [e1] at this
          exact this
      · intro idx hidx
        rw [hu idx (fun t h1 h2 => hidx t (by omega) h2),
          blast_apply _ _ _ _ _ (le_of_lt hcnt.1), if_neg]
        intro hx
        -- idx lies in the blast: it is a sample of frame lt + (idx - 2 * (lt % C)) / 2
        have hf := hidx (lt + (idx - 2 * (lt % C)) / 2) (by omega) (by omega)
        have := hres (lt + (idx - 2 * (lt % C)) / 2) (by omega) (by omega)
        omega
    · rw [if_neg hc]
      refine ⟨b, rfl, ?_, ?_⟩
      · intro t h1 h2; omega
      · intro idx _; rfl

theorem emod_add_wrap (a d c r : Int) (h : a % c + d = c + r) (h0 : 0 ≤ r) (h1 : r < c) :
    (a + d) % c = r := by
  have h2 := Int.emod_add_ediv a c
  have h3 : a + d = r + c * (a / c + 1) := by linarith
  rw [h3, Int.add_mul_emod_self_left]
  exact Int.emod_eq_of_lt h0 h1

theorem clamp_bounds (a : Int) :
    -32768 ≤ clamp a INT16_MIN INT16_MAX ∧ clamp a INT16_MIN INT16_MAX ≤ 32767 := by
  unfold clamp INT16_MIN INT16_MAX
  split_ifs <;> omega

theorem clamp_id (a : Int) (h0 : -32768 ≤ a) (h1 : a ≤ 32767) :
    clamp a INT16_MIN INT16_MAX = a := by
  unfold clamp INT16_MIN INT16_MAX
  split_ifs <;> omega

/-- C6: for a stereo 16-bit device whose buffer holds `2 ^ k` frames (`dma.samples` is twice
that) and every clock range `[p, e)` with `0 ≤ p` and `e - p ≤ 2 ^ k`, `TransferStereo16`
returns; it has written the quantized paint-buffer slot of every time `t` in `[p, e)` (slot
`t - p`) into device frame `t mod 2 ^ k` (samples `2 (t mod 2 ^ k)` and
`2 (t mod 2 ^ k) + 1`), and no other device sample has changed.  When `p` is congruent to
`2 ^ k - 2`, the frames of times `p, p + 1, p + 2, p + 3` are the frames
`2 ^ k - 2, 2 ^ k - 1, 0, 1`. -/
theorem transfer_circular_wrap (k : Nat) (dma : dma_t) (samp : Int → samplepair_t)
    (p e : Int) (fuel : Nat) (hdev : dma.samples = 2 * 2 ^ k) (hp : 0 ≤ p)
    (hcap : e - p ≤ 2 ^ k) (hfuel : (e - p).toNat < fuel) :
    ∃ out, TransferStereo16 fuel p dma samp e = some out ∧
      (∀ t, p ≤ t → t < e →
        out (2 * (t % 2 ^ k))
            = clamp ((samp (t - p)).left >>> (8 : Nat)) INT16_MIN INT16_MAX ∧
        out (2 * (t % 2 ^ k) + 1)
            = clamp ((samp (t - p)).right >>> (8 : Nat)) INT16_MIN INT16_MAX) ∧
      (∀ idx, (∀ t, p ≤ t → t < e → idx ≠ 2 * (t % 2 ^ k) ∧ idx ≠ 2 * (t % 2 ^ k) + 1) →
        out idx = dma.buffer idx) ∧
      (p % 2 ^ k = 2 ^ k - 2 →
        (p + 1) % 2 ^ k = 2 ^ k - 1 ∧ (p + 2) % 2 ^ k = 0 ∧ (p + 3) % 2 ^ k = 1) := by
  unfold TransferStereo16
  rw [hdev]
  obtain ⟨r, hr, hw, hu⟩ := TransferStereo16_loop_spec k samp e fuel p 0 dma.buffer hp hcap hfuel
  refine ⟨r, hr, ?_, hu, ?_⟩
  · intro t h1 h2
    have := hw t h1 h2
    simpa using this
  · intro hm
    have hC : (0 : Int) < 2 ^ k := by positivity
    generalize (2 : Int) ^ k = C at hm hC ⊢
    have hm0 : 0 ≤ p % C := Int.emod_nonneg p (ne_of_gt hC)
    refine ⟨?_, ?_, ?_⟩
    · exact emod_add_small p 1 C (by omega) (by omega) hC |>.trans (by omega)
    · exact emod_add_wrap p 2 C 0 (by omega) (by omega) (by omega)
    · exact emod_add_wrap p 3 C 1 (by omega) (by omega) (by omega)

/-- Witness of `transfer_circular_wrap`: a device of 4 frames, the range `[6, 9)` that starts
at 6, congruent to `4 - 2`. -/
theorem transfer_circular_wrap_witness :
    (8 : Int) = 2 * 2 ^ 2 ∧ (0 : Int) ≤ 6 ∧ (9 : Int) - 6 ≤ 2 ^ 2 ∧ ((9 : Int) - 6).toNat < 4 ∧
    ∃ out, TransferStereo16 4 6
        { channels := 2, samples := 8, samplebits := 16, buffer := fun _ => 0 }
        (fun i => ⟨256 * i, 256 * i + 256⟩) 9 = some out ∧
      (∀ t, (6 : Int) ≤ t → t < 9 →
        out (2 * (t % 2 ^ 2))
            = clamp (((fun i => (⟨256 * i, 256 * i + 256⟩ : samplepair_t)) (t - 6)).left
                >>> (8 : Nat)) INT16_MIN INT16_MAX ∧
        out (2 * (t % 2 ^ 2) + 1)
            = clamp (((fun i => (⟨256 * i, 256 * i + 256⟩ : samplepair_t)) (t - 6)).right
                >>> (8 : Nat)) INT16_MIN INT16_MAX) ∧
      (∀ idx, (∀ t, (6 : Int) ≤ t → t < 9 →
          idx ≠ 2 * (t % 2 ^ 2) ∧ idx ≠ 2 * (t % 2 ^ 2) + 1) →
        out idx = (fun _ => 0) idx) ∧
      ((6 : Int) % 2 ^ 2 = 2 ^ 2 - 2 →
        ((6 : Int) + 1) % 2 ^ 2 = 2 ^ 2 - 1 ∧ ((6 : Int) + 2) % 2 ^ 2 = 0 ∧
          ((6 : Int) + 3) % 2 ^ 2 = 1) :=
  ⟨by decide, by decide, by decide, by decide,
    transfer_circular_wrap 2 { channels := 2, samples := 8, samplebits := 16, buffer := fun _ => 0 }
      (fun i => ⟨256 * i, 256 * i + 256⟩) 6 9 4 (by decide) (by decide) (by decide) (by decide)⟩

/-! ## Saturation (C3) -/

/-- C3: the 16-bit stereo transfer saturates.  For a device of `2 ^ k` frames and a range
`[p, e)` of at most one lap, the sample stored for an accumulated value `a` (left or right
of the slot of time `t`) is exactly `clamp (a >> 8) (-32768) 32767`, which lies in the
signed 16-bit range; and when two mono 16-bit channels at full gain (255, volume factor 256)
both play the sample 32767 (respectively -32768) on the same frame, the stored output
samples are exactly 32767 (respectively -32768). -/
theorem transfer_saturates (k : Nat) (dma : dma_t) (samp : Int → samplepair_t)
    (p e : Int) (fuel : Nat) (hdev : dma.samples = 2 * 2 ^ k) (hp : 0 ≤ p)
    (hcap : e - p ≤ 2 ^ k) (hfuel : (e - p).toNat < fuel) (hfuel2 : 2 ≤ fuel)
    (bind : playsound_t → Int → List channel_t → List channel_t) (tone : Int → Int)
    (table : Int → Int → Int) (paintbuffer : Int → samplepair_t) (buffer : Int → Int) :
    (∃ out, TransferStereo16 fuel p dma samp e = some out ∧
      ∀ t, p ≤ t → t < e →
        (out (2 * (t % 2 ^ k)) = clamp ((samp (t - p)).left >>> (8 : Nat)) (-32768) 32767 ∧
          -32768 ≤ out (2 * (t % 2 ^ k)) ∧ out (2 * (t % 2 ^ k)) ≤ 32767) ∧
        (out (2 * (t % 2 ^ k) + 1)
            = clamp ((samp (t - p)).right >>> (8 : Nat)) (-32768) 32767 ∧
          -32768 ≤ out (2 * (t % 2 ^ k) + 1) ∧ out (2 * (t % 2 ^ k) + 1) ≤ 32767)) ∧
    (∃ st, S_PaintChannels fuel (plainEnv (constSound 32767) bind tone table) paintbuffer 1
        (plainState [plainChannel 255 1, plainChannel 255 1] buffer) = some st ∧
      st.dma.buffer 0 = 32767 ∧ st.dma.buffer 1 = 32767) ∧
    (∃ st, S_PaintChannels fuel (plainEnv (constSound (-32768)) bind tone table) paintbuffer 1
        (plainState [plainChannel 255 1, plainChannel 255 1] buffer) = some st ∧
      st.dma.buffer 0 = -32768 ∧ st.dma.buffer 1 = -32768) := by
  refine ⟨?_, ?_, ?_⟩
  · unfold TransferStereo16
    rw [hdev]
    obtain ⟨r, hr, hw, _⟩ :=
      TransferStereo16_loop_spec k samp e fuel p 0 dma.buffer hp hcap hfuel
    refine ⟨r, hr, ?_⟩
    intro t h1 h2
    have h := hw t h1 h2
    simp only [zero_add] at h
    have bl := clamp_bounds ((samp (t - p)).left >>> (8 : Nat))
    have br := clamp_bounds ((samp (t - p)).right >>> (8 : Nat))
    rw [h.1, h.2]
    exact ⟨⟨rfl, bl⟩, ⟨rfl, br⟩⟩
  · have h : Option.map (fun st => (st.dma.buffer 0, st.dma.buffer 1))
        (S_PaintChannels 2 (plainEnv (constSound 32767) bind tone table) paintbuffer 1
          (plainState [plainChannel 255 1, plainChannel 255 1] buffer))
        = some (32767, 32767) := rfl
    obtain ⟨st, hst, hv⟩ := Option.map_eq_some'.mp h
    exact ⟨st, S_PaintChannels_mono _ _ _ _ _ 2 fuel hfuel2 hst, congrArg (fun x => x.1) hv,
      congrArg (fun x => x.2) hv⟩
  · have h : Option.map (fun st => (st.dma.buffer 0, st.dma.buffer 1))
        (S_PaintChannels 2 (plainEnv (constSound (-32768)) bind tone table) paintbuffer 1
          (plainState [plainChannel 255 1, plainChannel 255 1] buffer))
        = some (-32768, -32768) := rfl
    obtain ⟨st, hst, hv⟩ := Option.map_eq_some'.mp h
    exact ⟨st, S_PaintChannels_mono _ _ _ _ _ 2 fuel hfuel2 hst, congrArg (fun x => x.1) hv,
      congrArg (fun x => x.2) hv⟩

/-- Witness of `transfer_saturates`: a device of 4 frames, the range `[6, 9)`, accumulated
values far outside the 16-bit range in the paint buffer. -/
theorem transfer_saturates_witness :
    (8 : Int) = 2 * 2 ^ 2 ∧ (0 : Int) ≤ 6 ∧ (9 : Int) - 6 ≤ 2 ^ 2 ∧ ((9 : Int) - 6).toNat < 4 ∧
    2 ≤ 4 ∧
    ∃ out, TransferStereo16 4 6
        { channels := 2, samples := 8, samplebits := 16, buffer := fun _ => 0 }
        (fun _ => ⟨16711170, -16711680⟩) 9 = some out ∧
      ∀ t, (6 : Int) ≤ t → t < 9 →
        (out (2 * (t % 2 ^ 2)) = clamp ((16711170 : Int) >>> (8 : Nat)) (-32768) 32767 ∧
          -32768 ≤ out (2 * (t % 2 ^ 2)) ∧ out (2 * (t % 2 ^ 2)) ≤ 32767) ∧
        (out (2 * (t % 2 ^ 2) + 1) = clamp ((-16711680 : Int) >>> (8 : Nat)) (-32768) 32767 ∧
          -32768 ≤ out (2 * (t % 2 ^ 2) + 1) ∧ out (2 * (t % 2 ^ 2) + 1) ≤ 32767) :=
  ⟨by decide, by decide, by decide, by decide, by decide,
    (transfer_saturates 2 { channels := 2, samples := 8, samplebits := 16, buffer := fun _ => 0 }
      (fun _ => ⟨16711170, -16711680⟩) 6 9 4 (by decide) (by decide) (by decide) (by decide)
      (by decide) (fun _ _ chs => chs) (fun _ => 0) (fun _ _ => 0) (fun _ => ⟨0, 0⟩)
      (fun _ => 0)).1⟩

/-! ## Painting one channel -/

theorem addPair_fold (f g : Int → Int) (off : Int) (samp : Int → samplepair_t) (n : Nat)
    (j : Int) :
    (List.range n).foldl (fun samp (i : Nat) => addPair samp (off + i) (f i) (g i)) samp j
      = if off ≤ j ∧ j < off + n
          then ⟨(samp j).left + f (j - off), (samp j).right + g (j - off)⟩
          else samp j := by
  induction n generalizing j with
  | zero =>
    simp only [List.range_zero, List.foldl_nil]
    rw [if_neg]; omega
  | succ n ih =>
    rw [List.range_succ, List.foldl_append]
    simp only [List.foldl_cons, List.foldl_nil]
    have e : ((n + 1 : Nat) : Int) = (n : Int) + 1 := by push_cast; rfl
    rw [e]
    simp only [addPair] at ih ⊢
    by_cases h1 : j = off + (n : Int)
    · have c1 : off ≤ j ∧ j < off + ((n : Int) + 1) := by clear ih; omega
      have c2 : j - off = (n : Int) := by clear ih; omega
      have c3 : ¬ (off ≤ off + (n : Int) ∧ off + (n : Int) < off + (n : Int)) := by
        clear ih; omega
      rw [if_pos c1, c2, h1, store_same, ih, if_neg c3]
    · rw [store_other _ _ _ _ h1, ih]
      by_cases h3 : off ≤ j ∧ j < off + (n : Int)
      · have c1 : off ≤ j ∧ j < off + ((n : Int) + 1) := by clear ih; omega
        rw [if_pos h3, if_pos c1]
      · have c1 : ¬ (off ≤ j ∧ j < off + ((n : Int) + 1)) := by clear ih; omega
        rw [if_neg h3, if_neg c1]

theorem PaintMono16_apply (env : env_t) (ch : channel_t) (sc : sfxcache_t) (count : Int)
    (samp : Int → samplepair_t) (off : Int) (hc : 0 ≤ count) (j : Int) :
    PaintMono16 env ch sc count samp off j
      = if off ≤ j ∧ j < off + count then
          ⟨(samp j).left
              + (sc.data (ch.pos + (j - off)) * (ch.leftvol * env.snd_vol)) >>> (8 : Nat),
            (samp j).right
              + (sc.data (ch.pos + (j - off)) * (ch.rightvol * env.snd_vol)) >>> (8 : Nat)⟩
        else samp j := by
  obtain ⟨n, rfl⟩ := Int.eq_ofNat_of_zero_le hc
  unfold PaintMono16
  simp only [Int.toNat_ofNat]
  exact addPair_fold
    (fun x => (sc.data (ch.pos + x) * (ch.leftvol * env.snd_vol)) >>> (8 : Nat))
    (fun x => (sc.data (ch.pos + x) * (ch.rightvol * env.snd_vol)) >>> (8 : Nat))
    off samp n j

theorem gain_product_bounds (L V : Int) (hL : 0 ≤ L ∧ L ≤ 256) (hV : 0 ≤ V ∧ V ≤ 256) :
    0 ≤ L * V ∧ L * V ≤ 65536 := by
  constructor
  · exact mul_nonneg hL.1 hV.1
  · nlinarith [hL.1, hL.2, hV.1, hV.2]

theorem int32_product (s m : Int) (hs0 : -32768 ≤ s) (hs1 : s ≤ 32767) (hm0 : 0 ≤ m)
    (hm1 : m ≤ 65536) : -2147483648 ≤ s * m ∧ s * m ≤ 2147483647 := by
  constructor
  · nlinarith [hs0, hm0, hm1]
  · nlinarith [hs1, hm0, hm1]

theorem shift16_unity (s : Int) : ((s * 65536) >>> (8 : Nat)) >>> (8 : Nat) = s := by
  rw [Int.shiftRight_eq_div_pow, Int.shiftRight_eq_div_pow]
  norm_num
  omega

/-! ## A single mono 16-bit channel (C9) -/

/-- One round of the channel loop for a mono 16-bit channel that plays through the whole
sub-iteration: the loop paints `end_ - ltime` frames and leaves. -/
theorem paintChannel_mono16_through (env : env_t) (p e : Int) (ch : channel_t) (s : Nat)
    (sc : sfxcache_t) (pb : Int → samplepair_t) (fuel : Nat)
    (hsfx : ch.sfx = some s) (hload : env.S_LoadSound s = some sc)
    (hw : sc.width = 2) (hc : sc.channels = 1)
    (hgain : ¬ (ch.leftvol = 0 ∧ ch.rightvol = 0))
    (hlt : p < e) (hend : e ≤ ch.end_) (hfuel : 2 ≤ fuel) :
    paintChannel env p e fuel ch p pb
      = some (restart { ch with pos := ch.pos + (e - p) } sc e,
          PaintMono16 env ch sc (e - p) pb 0) := by
  obtain ⟨m, rfl⟩ : ∃ m, fuel = m + 2 := ⟨fuel - 2, by omega⟩
  have hstep : paintChannel_step env p e ch p pb
      = .again (restart { ch with pos := ch.pos + (e - p) } sc e, e,
          PaintMono16 env ch sc (e - p) pb 0) := by
    unfold paintChannel_step
    rw [if_pos hlt, hsfx]
    simp only []
    rw [if_neg hgain, hload]
    simp only []
    have hcount : (if ch.end_ - p < e - p then ch.end_ - p else e - p) = e - p := by
      rw [if_neg (by omega)]
    rw [hcount, if_pos (by omega), hw, hc]
    have h1 : p + (e - p) = e := by ring
    have h2 : p - p = 0 := by ring
    have h3 : ((2 : Int) - 1) * 2 + (1 - 1) = 2 := by norm_num
    rw [h1, h2, h3]
    simp [paintfuncs]
  have hstep2 : ∀ (ch2 : channel_t) (pb2 : Int → samplepair_t),
      paintChannel_step env p e ch2 e pb2 = .exit (ch2, pb2) := by
    intro ch2 pb2
    unfold paintChannel_step
    rw [if_neg (lt_irrefl e)]
  simp only [paintChannel, hstep, hstep2]

/-- C9: exactly one channel plays, bound to a mono 16-bit resource of 16-bit samples, with
gains `L`, `R` in `[0, 256]` (not both zero) and volume factor `V = snd_vol` in `[0, 256]`;
the device is stereo 16-bit with `2 ^ k` frames, the queue is empty and the test tone is off.
A mix request over a range `[p, e)` of at most 2048 frames and at most one lap of the device,
inside the channel's play time, returns, and the device frame of every time `t` of the range
is `(clamp (((s * L * V) >> 8) >> 8), clamp (((s * R * V) >> 8) >> 8))` with clamping to
`[-32768, 32767]`, where `s` is the source sample at position `pos + (t - p)`; the products
`L * V`, `R * V`, `s * (L * V)` and `s * (R * V)` that the code forms in `int` lie in
`[-2^31, 2^31 - 1]`.  At unity-equivalent gain (`L * V = R * V = 65536`) both sides equal
`s`. -/
theorem single_mono16_channel (k : Nat) (env : env_t) (st : mixer_t) (ch : channel_t)
    (s : Nat) (sc : sfxcache_t) (paintbuffer : Int → samplepair_t) (endtime : Int)
    (fuel : Nat)
    (hch : st.channels = [ch]) (hq : st.s_pendingplays = [])
    (hsfx : ch.sfx = some s) (hload : env.S_LoadSound s = some sc)
    (hw : sc.width = 2) (hc : sc.channels = 1)
    (hs16 : ∀ i, -32768 ≤ sc.data i ∧ sc.data i ≤ 32767)
    (hL : 0 ≤ ch.leftvol ∧ ch.leftvol ≤ 256) (hR : 0 ≤ ch.rightvol ∧ ch.rightvol ≤ 256)
    (hV : 0 ≤ env.snd_vol ∧ env.snd_vol ≤ 256)
    (hgain : ¬ (ch.leftvol = 0 ∧ ch.rightvol = 0))
    (htest : env.s_testsound = false)
    (hbits : st.dma.samplebits = 16) (hchan : st.dma.channels = 2)
    (hdev : st.dma.samples = 2 * 2 ^ k)
    (hp : 0 ≤ st.paintedtime) (hlt : st.paintedtime < endtime)
    (hpb : endtime - st.paintedtime ≤ 2048) (hcap : endtime - st.paintedtime ≤ 2 ^ k)
    (hend : endtime ≤ ch.end_)
    (hfuel : (endtime - st.paintedtime).toNat < fuel) :
    ∃ st', S_PaintChannels fuel env paintbuffer endtime st = some st' ∧
      ∀ t, st.paintedtime ≤ t → t < endtime →
        st'.dma.buffer (2 * (t % 2 ^ k))
            = clamp (((sc.data (ch.pos + (t - st.paintedtime)) * ch.leftvol * env.snd_vol)
                >>> (8 : Nat)) >>> (8 : Nat)) (-32768) 32767 ∧
        st'.dma.buffer (2 * (t % 2 ^ k) + 1)
            = clamp (((sc.data (ch.pos + (t - st.paintedtime)) * ch.rightvol * env.snd_vol)
                >>> (8 : Nat)) >>> (8 : Nat)) (-32768) 32767 ∧
        (-2147483648 ≤ ch.leftvol * env.snd_vol ∧ ch.leftvol * env.snd_vol ≤ 2147483647 ∧
          -2147483648 ≤ ch.rightvol * env.snd_vol ∧ ch.rightvol * env.snd_vol ≤ 2147483647 ∧
          -2147483648
            ≤ sc.data (ch.pos + (t - st.paintedtime)) * (ch.leftvol * env.snd_vol) ∧
          sc.data (ch.pos + (t - st.paintedtime)) * (ch.leftvol * env.snd_vol)
            ≤ 2147483647 ∧
          -2147483648
            ≤ sc.data (ch.pos + (t - st.paintedtime)) * (ch.rightvol * env.snd_vol) ∧
          sc.data (ch.pos + (t - st.paintedtime)) * (ch.rightvol * env.snd_vol)
            ≤ 2147483647) ∧
        (ch.leftvol * env.snd_vol = 65536 → ch.rightvol * env.snd_vol = 65536 →
          st'.dma.buffer (2 * (t % 2 ^ k)) = sc.data (ch.pos + (t - st.paintedtime)) ∧
          st'.dma.buffer (2 * (t % 2 ^ k) + 1) = sc.data (ch.pos + (t - st.paintedtime))) := by
  have hf2 : 2 ≤ fuel := by omega
  obtain ⟨m, rfl⟩ : ∃ m, fuel = m + 2 := ⟨fuel - 2, by omega⟩
  -- the transfer of the painted buffer
  obtain ⟨out, hout, hwr, _⟩ := TransferStereo16_loop_spec k
    (PaintMono16 env ch sc (endtime - st.paintedtime)
      (clearBuffer paintbuffer (endtime - st.paintedtime)) 0)
    endtime (m + 2) st.paintedtime 0 st.dma.buffer hp hcap hfuel
  have hround : ∃ pb1 st1, S_PaintChannels_round env endtime (m + 2) paintbuffer st
      = some (pb1, st1) ∧ st1.paintedtime = endtime ∧ st1.dma.buffer = out := by
    refine ⟨PaintMono16 env ch sc (endtime - st.paintedtime)
        (clearBuffer paintbuffer (endtime - st.paintedtime)) 0,
      { paintedtime := endtime,
        channels := [restart { ch with pos := ch.pos + (endtime - st.paintedtime) } sc
          endtime],
        s_pendingplays := [],
        dma := { st.dma with buffer := out } }, ?_, rfl, rfl⟩
    unfold S_PaintChannels_round
    have hend0 : (if endtime - st.paintedtime > PAINTBUFFER_SIZE
        then st.paintedtime + PAINTBUFFER_SIZE else endtime) = endtime := by
      rw [if_neg]; unfold PAINTBUFFER_SIZE; omega
    simp only [hend0, hq, hch, startPlaysounds, paintAll]
    rw [paintChannel_mono16_through env st.paintedtime endtime ch s sc _ (m + 2) hsfx hload hw hc
      hgain hlt hend hf2]
    simp only [TransferPaintBuffer, htest, hbits, hchan, TransferStereo16, hdev]
    simp only [Bool.false_eq_true, if_false, and_self, if_true]
    rw [hout]
  obtain ⟨pb1, st1, hround, hclock, hbuf⟩ := hround
  refine ⟨st1, ?_, ?_⟩
  · unfold S_PaintChannels
    simp only [S_PaintChannels_loop]
    rw [if_pos hlt, hround]
    simp only [hclock, lt_irrefl, if_false]
  · rw [hbuf]
    intro t h1 h2
    have h := hwr t h1 h2
    have hz : (0 : Int) + (t - st.paintedtime) = t - st.paintedtime := by ring
    rw [hz, PaintMono16_apply _ _ _ _ _ _ (by omega)] at h
    rw [if_pos (by omega)] at h
    have hclr : clearBuffer paintbuffer (endtime - st.paintedtime) (t - st.paintedtime)
        = ⟨0, 0⟩ := by
      unfold clearBuffer
      rw [if_pos (by omega)]
    simp only [hclr, zero_add, sub_zero] at h
    have hl : sc.data (ch.pos + (t - st.paintedtime)) * ch.leftvol * env.snd_vol
        = sc.data (ch.pos + (t - st.paintedtime)) * (ch.leftvol * env.snd_vol) := by ring
    have hr : sc.data (ch.pos + (t - st.paintedtime)) * ch.rightvol * env.snd_vol
        = sc.data (ch.pos + (t - st.paintedtime)) * (ch.rightvol * env.snd_vol) := by ring
    rw [hl, hr]
    have hs0 := hs16 (ch.pos + (t - st.paintedtime))
    have hLV := gain_product_bounds _ _ hL hV
    have hRV := gain_product_bounds _ _ hR hV
    have hsL := int32_product _ _ hs0.1 hs0.2 hLV.1 hLV.2
    have hsR := int32_product _ _ hs0.1 hs0.2 hRV.1 hRV.2
    refine ⟨h.1, h.2, ⟨by omega, by omega, by omega, by omega, hsL.1, hsL.2, hsR.1, hsR.2⟩, ?_⟩
    intro hL1 hR1
    have e1 := h.1
    have e2 := h.2
    rw [hL1, shift16_unity, clamp_id _ hs0.1 hs0.2] at e1
    rw [hR1, shift16_unity, clamp_id _ hs0.1 hs0.2] at e2
    exact ⟨e1, e2⟩

/-- Witness of `single_mono16_channel`: the resource `[100, -100, 50]` on a device of 4
frames at unity-equivalent gain (gain 256, volume factor 256), mixed over `[0, 3)`. -/
theorem single_mono16_channel_witness :
    ((0 : Int) < 3 ∧ (3 : Int) - 0 ≤ 2 ^ 2 ∧ (256 : Int) * 256 = 65536) ∧
    ∃ st', S_PaintChannels 4 (plainEnv tripleSound (fun _ _ chs => chs) (fun _ => 0)
          (fun _ _ => 0)) (fun _ => ⟨0, 0⟩) 3 (plainState [plainChannel 256 3] (fun _ => 0))
        = some st' ∧
      ∀ t, (0 : Int) ≤ t → t < 3 →
        st'.dma.buffer (2 * (t % 2 ^ 2)) = tripleSound.data (0 + (t - 0)) ∧
        st'.dma.buffer (2 * (t % 2 ^ 2) + 1) = tripleSound.data (0 + (t - 0)) := by
  refine ⟨by decide, ?_⟩
  obtain ⟨st', h1, h2⟩ := single_mono16_channel 2
    (plainEnv tripleSound (fun _ _ chs => chs) (fun _ => 0) (fun _ _ => 0))
    (plainState [plainChannel 256 3] (fun _ => 0)) (plainChannel 256 3)
    0 tripleSound (fun _ => ⟨0, 0⟩) 3 4 rfl rfl rfl rfl rfl rfl
    (by intro i; unfold tripleSound; simp only []; split_ifs <;> decide)
    (by decide) (by decide) (by decide) (by decide) rfl rfl rfl
    (by decide) (by decide) (by decide) (by decide) (by decide) (by decide) (by decide)
  exact ⟨st', h1, fun t ht0 ht3 => (h2 t ht0 ht3).2.2.2 (by decide) (by decide)⟩

/-! ## Looping channels (C4, C5) -/

/-- One round of the channel loop in which the cursor reaches the end time of the channel:
when the restart does not depend on the position painted up to, the round goes on with the
restarted channel and the cursor at the end time. -/
theorem paintChannel_step_reach (env : env_t) (p e : Int) (ch ch' : channel_t) (s : Nat)
    (sc : sfxcache_t) (lt : Int) (pb : Int → samplepair_t)
    (hsfx : ch.sfx = some s) (hload : env.S_LoadSound s = some sc)
    (hgain : ¬ (ch.leftvol = 0 ∧ ch.rightvol = 0))
    (hlt : lt < e) (hle : lt ≤ ch.end_) (hreach : ch.end_ ≤ e)
    (hre : ∀ q, restart { ch with pos := q } sc ch.end_ = ch') :
    ∃ pb', paintChannel_step env p e ch lt pb = .again (ch', ch.end_, pb') := by
  obtain ⟨sfx0, lv, rv, en, po, mv, au⟩ := ch
  simp only at hsfx hgain hle hreach hre ⊢
  subst hsfx
  unfold paintChannel_step
  rw [if_pos hlt]
  simp only []
  rw [if_neg hgain, hload]
  simp only []
  by_cases h : en - lt < e - lt
  · rw [if_pos h]
    by_cases h0 : en - lt > 0
    · rw [if_pos h0]
      have : lt + (en - lt) = en := by ring
      rw [this, hre]
      exact ⟨_, rfl⟩
    · rw [if_neg h0]
      have h1 : lt = en := by omega
      have h2 := hre po
      rw [h1]
      exact ⟨pb, by rw [← h2]⟩
  · rw [if_neg h]
    have h1 : e = en := by omega
    rw [if_pos (by omega)]
    have : lt + (e - lt) = en := by omega
    rw [this, hre]
    exact ⟨_, rfl⟩

/-- C5: an autoloop channel (active, gains not both zero, resource of length `len` resolved,
whatever its loop-start) whose end time `E` lies between the cursor and the end of the
sub-iteration: the round of the channel loop leaves the cursor at `E` and the channel with
position 0, end time `E + len` and the same resource reference (still active), nothing else
changed; the loop goes on from there. -/
theorem autoloop_restart (env : env_t) (p e : Int) (ch : channel_t) (s : Nat)
    (sc : sfxcache_t) (lt : Int) (pb : Int → samplepair_t) (fuel : Nat)
    (hsfx : ch.sfx = some s) (hload : env.S_LoadSound s = some sc)
    (hgain : ¬ (ch.leftvol = 0 ∧ ch.rightvol = 0)) (hauto : ch.autosound = true)
    (hlt : lt < e) (hle : lt ≤ ch.end_) (hreach : ch.end_ ≤ e) :
    ∃ pb', paintChannel_step env p e ch lt pb
        = .again ({ ch with pos := 0, end_ := ch.end_ + sc.length }, ch.end_, pb') ∧
      ({ ch with pos := 0, end_ := ch.end_ + sc.length } : channel_t).sfx = some s ∧
      paintChannel env p e (fuel + 1) ch lt pb
        = paintChannel env p e fuel { ch with pos := 0, end_ := ch.end_ + sc.length }
            ch.end_ pb' := by
  obtain ⟨pb', h⟩ := paintChannel_step_reach env p e ch
    { ch with pos := 0, end_ := ch.end_ + sc.length } s sc lt pb hsfx hload hgain hlt hle hreach
    (by intro q; simp [restart, hauto])
  refine ⟨pb', h, hsfx, ?_⟩
  simp only [paintChannel, h]

/-- Witness of `autoloop_restart`: an autoloop channel with end time 2 on the resource of
length 100 (loop-start 10), cursor 0, sub-iteration end 5: position 0, end time 102. -/
theorem autoloop_restart_witness :
    ((0 : Int) < 5 ∧ (0 : Int) ≤ 2 ∧ (2 : Int) ≤ 5) ∧
    ∃ pb', paintChannel_step (plainEnv loopSound (fun _ _ chs => chs) (fun _ => 0) (fun _ _ => 0))
        0 5 { (plainChannel 255 2) with autosound := true } 0 (fun _ => ⟨0, 0⟩)
        = .again
            ({ (plainChannel 255 2) with pos := 0, end_ := 102, autosound := true }, 2, pb') ∧
      ({ (plainChannel 255 2) with pos := 0, end_ := 102, autosound := true } : channel_t).sfx
        = some 0 ∧
      paintChannel (plainEnv loopSound (fun _ _ chs => chs) (fun _ => 0) (fun _ _ => 0))
          0 5 (3 + 1) { (plainChannel 255 2) with autosound := true } 0 (fun _ => ⟨0, 0⟩)
        = paintChannel (plainEnv loopSound (fun _ _ chs => chs) (fun _ => 0) (fun _ _ => 0))
            0 5 3
            { (plainChannel 255 2) with pos := 0, end_ := 102, autosound := true } 2 pb' :=
  ⟨by decide,
    autoloop_restart (plainEnv loopSound (fun _ _ chs => chs) (fun _ => 0) (fun _ _ => 0))
      0 5 { (plainChannel 255 2) with autosound := true } 0 loopSound 0 (fun _ => ⟨0, 0⟩) 3
      rfl rfl (by decide) rfl (by decide) (by decide) (by decide)⟩


theorem restart_keeps (ch : channel_t) (sc : sfxcache_t) (lt : Int)
    (h1 : ch.autosound = false) (h2 : 0 ≤ sc.loopstart) :
    (restart ch sc lt).sfx = ch.sfx ∧ (restart ch sc lt).autosound = false := by
  unfold restart
  split_ifs <;> simp_all

theorem paintChannel_step_keeps (env : env_t) (p e : Int) (s : Nat) (sc : sfxcache_t)
    (hload : env.S_LoadSound s = some sc) (hls : 0 ≤ sc.loopstart)
    (ch : channel_t) (lt : Int) (pb : Int → samplepair_t)
    (hsfx : ch.sfx = some s) (hauto : ch.autosound = false) :
    (∀ r, paintChannel_step env p e ch lt pb = .exit r →
      r.1.sfx = some s ∧ r.1.autosound = false) ∧
    (∀ r, paintChannel_step env p e ch lt pb = .again r →
      r.1.sfx = some s ∧ r.1.autosound = false) := by
  unfold paintChannel_step
  by_cases h1 : lt < e
  · rw [if_pos h1]
    simp only [hsfx, hload]
    by_cases h2 : ch.leftvol = 0 ∧ ch.rightvol = 0
    · rw [if_pos h2]
      constructor
      · intro r hr
        cases hr
        exact ⟨hsfx, hauto⟩
      · intro r hr; cases hr
    · rw [if_neg h2]
      constructor
      · intro r hr
        split_ifs at hr
      · intro r hr
        split_ifs at hr <;> cases hr <;>
          · simp only []
            refine ⟨?_, ?_⟩
            · exact (restart_keeps _ sc _ (by simpa using hauto) hls).1.trans
                (by first | rfl | exact hsfx)
            · exact (restart_keeps _ sc _ (by simpa using hauto) hls).2
  · rw [if_neg h1]
    constructor
    · intro r hr
      cases hr
      exact ⟨hsfx, hauto⟩
    · intro r hr; cases hr

theorem paintChannel_keeps (env : env_t) (p e : Int) (s : Nat) (sc : sfxcache_t)
    (hload : env.S_LoadSound s = some sc) (hls : 0 ≤ sc.loopstart) :
    ∀ (fuel : Nat) (ch : channel_t) (lt : Int) (pb : Int → samplepair_t)
      (r : channel_t × (Int → samplepair_t)),
      ch.sfx = some s → ch.autosound = false →
      paintChannel env p e fuel ch lt pb = some r →
      r.1.sfx = some s ∧ r.1.autosound = false := by
  intro fuel
  induction fuel with
  | zero => intro ch lt pb r _ _ h; simp [paintChannel] at h
  | succ n ih =>
    intro ch lt pb r hsfx hauto h
    have hk := paintChannel_step_keeps env p e s sc hload hls ch lt pb hsfx hauto
    simp only [paintChannel] at h
    cases hs : paintChannel_step env p e ch lt pb with
    | exit x =>
      rw [hs] at h
      cases h
      exact hk.1 _ hs
    | again x =>
      obtain ⟨ch', lt', pb'⟩ := x
      rw [hs] at h
      have := hk.2 _ hs
      exact ih ch' lt' pb' r this.1 this.2 h

/-! ### A property of one channel slot that every channel loop keeps is kept by the mixer -/

theorem paintAll_slot (env : env_t) (p e : Int) (fuel : Nat) (good : channel_t → Prop)
    (hkeep : ∀ (ch : channel_t) (pb : Int → samplepair_t)
      (r : channel_t × (Int → samplepair_t)),
      good ch → paintChannel env p e fuel ch p pb = some r → good r.1) :
    ∀ (chs : List channel_t) (pb : Int → samplepair_t)
      (r : List channel_t × (Int → samplepair_t)),
      paintAll env p e fuel chs pb = some r →
      ∀ (i : Nat) (ch : channel_t), chs[i]? = some ch → good ch →
        ∃ ch', r.1[i]? = some ch' ∧ good ch' := by
  intro chs
  induction chs with
  | nil => intro pb r _ i ch hi; simp at hi
  | cons c rest ih =>
    intro pb r h i ch hi hg
    simp only [paintAll] at h
    cases h1 : paintChannel env p e fuel c p pb with
    | none => rw [h1] at h; simp at h
    | some x =>
      obtain ⟨c', pb'⟩ := x
      rw [h1] at h
      simp only at h
      cases h2 : paintAll env p e fuel rest pb' with
      | none => rw [h2] at h; simp at h
      | some y =>
        obtain ⟨rest', pb''⟩ := y
        rw [h2] at h
        simp only [Option.some.injEq] at h
        subst h
        cases i with
        | zero =>
          simp only [List.getElem?_cons_zero, Option.some.injEq] at hi ⊢
          subst hi
          exact ⟨c', rfl, hkeep c pb _ hg h1⟩
        | succ j =>
          simp only [List.getElem?_cons_succ] at hi ⊢
          exact ih pb' _ h2 j ch hi hg

theorem startPlaysounds_slot (env : env_t) (t : Int) (i : Nat)
    (hbind : ∀ (ps : playsound_t) (t : Int) (chs : List channel_t),
      (env.bind ps t chs)[i]? = chs[i]?) :
    ∀ (q : List playsound_t) (chs : List channel_t) (e : Int),
      (startPlaysounds env t q chs e).2.1[i]? = chs[i]? := by
  intro q
  induction q with
  | nil => intro chs e; rfl
  | cons ps rest ih =>
    intro chs e
    simp only [startPlaysounds]
    by_cases h : ps.begin ≤ t
    · rw [if_pos h, ih, hbind]
    · rw [if_neg h]

theorem S_PaintChannels_round_slot (env : env_t) (endtime : Int) (inner : Nat)
    (good : channel_t → Prop) (i : Nat)
    (hkeep : ∀ (p e : Int) (ch : channel_t) (pb : Int → samplepair_t)
      (r : channel_t × (Int → samplepair_t)),
      good ch → paintChannel env p e inner ch p pb = some r → good r.1)
    (hbind : ∀ (ps : playsound_t) (t : Int) (chs : List channel_t),
      (env.bind ps t chs)[i]? = chs[i]?)
    (pb : Int → samplepair_t) (st : mixer_t) (r : (Int → samplepair_t) × mixer_t)
    (h : S_PaintChannels_round env endtime inner pb st = some r)
    (ch : channel_t) (hi : st.channels[i]? = some ch) (hg : good ch) :
    ∃ ch', r.2.channels[i]? = some ch' ∧ good ch' := by
  simp only [S_PaintChannels_round] at h
  have hsp := startPlaysounds_slot env st.paintedtime i hbind st.s_pendingplays st.channels
    (if endtime - st.paintedtime > PAINTBUFFER_SIZE then st.paintedtime + PAINTBUFFER_SIZE
      else endtime)
  generalize startPlaysounds env st.paintedtime st.s_pendingplays st.channels
    (if endtime - st.paintedtime > PAINTBUFFER_SIZE then st.paintedtime + PAINTBUFFER_SIZE
      else endtime) = sp at h hsp
  obtain ⟨pending, channels, end_⟩ := sp
  simp only at h hsp
  cases h1 : paintAll env st.paintedtime end_ inner channels
      (clearBuffer pb (end_ - st.paintedtime)) with
  | none => rw [h1] at h; simp at h
  | some x =>
    obtain ⟨chs', pb'⟩ := x
    rw [h1] at h
    simp only at h
    cases h2 : TransferPaintBuffer inner env st.paintedtime st.dma pb' end_ with
    | none => rw [h2] at h; simp at h
    | some buf =>
      rw [h2] at h
      simp only [Option.some.injEq] at h
      subst h
      exact paintAll_slot env st.paintedtime end_ inner good (hkeep st.paintedtime end_)
        channels _ _ h1 i ch (hsp.trans hi) hg

theorem S_PaintChannels_loop_slot (env : env_t) (endtime : Int) (inner : Nat)
    (good : channel_t → Prop) (i : Nat)
    (hkeep : ∀ (p e : Int) (ch : channel_t) (pb : Int → samplepair_t)
      (r : channel_t × (Int → samplepair_t)),
      good ch → paintChannel env p e inner ch p pb = some r → good r.1)
    (hbind : ∀ (ps : playsound_t) (t : Int) (chs : List channel_t),
      (env.bind ps t chs)[i]? = chs[i]?) :
    ∀ (fuel : Nat) (pb : Int → samplepair_t) (st st' : mixer_t),
      S_PaintChannels_loop env endtime inner fuel pb st = some st' →
      ∀ ch, st.channels[i]? = some ch → good ch →
        ∃ ch', st'.channels[i]? = some ch' ∧ good ch' := by
  intro fuel
  induction fuel with
  | zero => intro pb st st' h; simp [S_PaintChannels_loop] at h
  | succ n ih =>
    intro pb st st' h ch hi hg
    simp only [S_PaintChannels_loop] at h
    by_cases hc : st.paintedtime < endtime
    · rw [if_pos hc] at h
      cases h1 : S_PaintChannels_round env endtime inner pb st with
      | none => rw [h1] at h; simp at h
      | some x =>
        obtain ⟨pb1, st1⟩ := x
        rw [h1] at h
        obtain ⟨ch1, hi1, hg1⟩ := S_PaintChannels_round_slot env endtime inner good i hkeep
          hbind pb st _ h1 ch hi hg
        exact ih pb1 st1 st' h ch1 hi1 hg1
    · rw [if_neg hc] at h
      cases h
      exact ⟨ch, hi, hg⟩

theorem mixPasses_slot (env : env_t) (fuel : Nat) (good : channel_t → Prop) (i : Nat)
    (hkeep : ∀ (p e : Int) (ch : channel_t) (pb : Int → samplepair_t)
      (r : channel_t × (Int → samplepair_t)),
      good ch → paintChannel env p e fuel ch p pb = some r → good r.1)
    (hbind : ∀ (ps : playsound_t) (t : Int) (chs : List channel_t),
      (env.bind ps t chs)[i]? = chs[i]?) :
    ∀ (passes : List ((Int → samplepair_t) × Int)) (st st' : mixer_t),
      mixPasses fuel env passes st = some st' →
      ∀ ch, st.channels[i]? = some ch → good ch →
        ∃ ch', st'.channels[i]? = some ch' ∧ good ch' := by
  intro passes
  induction passes with
  | nil =>
    intro st st' h ch hi hg
    simp only [mixPasses, Option.some.injEq] at h
    subst h
    exact ⟨ch, hi, hg⟩
  | cons pass rest ih =>
    intro st st' h ch hi hg
    obtain ⟨pb, endtime⟩ := pass
    simp only [mixPasses] at h
    cases h1 : S_PaintChannels fuel env pb endtime st with
    | none => rw [h1] at h; simp at h
    | some st1 =>
      rw [h1] at h
      obtain ⟨ch1, hi1, hg1⟩ := S_PaintChannels_loop_slot env endtime fuel good i hkeep hbind
        fuel pb st st1 h1 ch hi hg
      exact ih st1 st' h ch1 hi1 hg1

/-- C4: a channel that is not autoloop, bound to a resource with loop-start `ls ≥ 0` and
length `len`.  (1) When its end time `E` lies between the cursor and the end of the
sub-iteration (and its gains are not both zero), the round of the channel loop leaves the
cursor at `E` and the channel with position `ls`, end time `E + (len - ls)` and the same
resource reference, and the loop goes on from there.  (2) Over any sequence of mix passes in
which activation leaves the slot of the channel alone, every pass that returns leaves the
slot bound to the same resource: the mixer never deactivates the channel. -/
theorem loopstart_restart (env : env_t) (ch : channel_t) (s : Nat) (sc : sfxcache_t)
    (hsfx : ch.sfx = some s) (hload : env.S_LoadSound s = some sc)
    (hauto : ch.autosound = false) (hls : 0 ≤ sc.loopstart) :
    (∀ (p e lt : Int) (pb : Int → samplepair_t) (fuel : Nat),
      ¬ (ch.leftvol = 0 ∧ ch.rightvol = 0) → lt < e → lt ≤ ch.end_ → ch.end_ ≤ e →
      ∃ pb', paintChannel_step env p e ch lt pb
          = .again ({ ch with pos := sc.loopstart,
                              end_ := ch.end_ + (sc.length - sc.loopstart) }, ch.end_, pb') ∧
        paintChannel env p e (fuel + 1) ch lt pb
          = paintChannel env p e fuel
              { ch with pos := sc.loopstart, end_ := ch.end_ + (sc.length - sc.loopstart) }
              ch.end_ pb') ∧
    (∀ (i : Nat) (st st' : mixer_t) (passes : List ((Int → samplepair_t) × Int)) (fuel : Nat),
      (∀ (ps : playsound_t) (t : Int) (chs : List channel_t),
        (env.bind ps t chs)[i]? = chs[i]?) →
      st.channels[i]? = some ch →
      mixPasses fuel env passes st = some st' →
      ∃ ch', st'.channels[i]? = some ch' ∧ ch'.sfx = some s ∧ ch'.autosound = false) := by
  constructor
  · intro p e lt pb fuel hgain hlt hle hreach
    obtain ⟨pb', h⟩ := paintChannel_step_reach env p e ch
      { ch with pos := sc.loopstart, end_ := ch.end_ + (sc.length - sc.loopstart) } s sc lt pb
      hsfx hload hgain hlt hle hreach
      (by
        intro q
        have : ch.end_ + sc.length - sc.loopstart = ch.end_ + (sc.length - sc.loopstart) := by
          ring
        simp [restart, hauto, hls, this])
    refine ⟨pb', h, ?_⟩
    simp only [paintChannel, h]
  · intro i st st' passes fuel hbind hi h
    exact mixPasses_slot env fuel (fun c => c.sfx = some s ∧ c.autosound = false) i
      (fun p e c pb r hg hr => paintChannel_keeps env p e s sc hload hls fuel c p pb r hg.1 hg.2 hr)
      hbind passes st st' h ch hi ⟨hsfx, hauto⟩

/-- Witness of `loopstart_restart`: loop-start 10, length 100, a channel with end time 2.
The round that reaches the end time leaves position 10 and end time `2 + 90`; two mix
passes, to 5 and to 12, return and leave the channel bound. -/
theorem loopstart_restart_witness :
    ((0 : Int) ≤ loopSound.loopstart ∧ loopSound.length = 100 ∧ loopSound.loopstart = 10) ∧
    (∃ pb', paintChannel_step
        (plainEnv loopSound (fun _ _ chs => chs) (fun _ => 0) (fun _ _ => 0)) 0 5
        (plainChannel 255 2) 0 (fun _ => ⟨0, 0⟩)
        = .again ({ (plainChannel 255 2) with pos := 10, end_ := 2 + 90 }, 2, pb')) ∧
    (∃ st' ch', mixPasses 20
        (plainEnv loopSound (fun _ _ chs => chs) (fun _ => 0) (fun _ _ => 0))
        [(fun _ => ⟨0, 0⟩, 5), (fun _ => ⟨0, 0⟩, 12)]
        (plainState [plainChannel 255 2] (fun _ => 0)) = some st' ∧
      st'.channels[0]? = some ch' ∧ ch'.sfx = some 0 ∧ ch'.autosound = false) := by
  have hthm := loopstart_restart
    (plainEnv loopSound (fun _ _ chs => chs) (fun _ => 0) (fun _ _ => 0))
    (plainChannel 255 2) 0 loopSound rfl rfl rfl (by decide)
  refine ⟨by decide, ?_, ?_⟩
  · obtain ⟨pb', h, _⟩ := hthm.1 0 5 0 (fun _ => ⟨0, 0⟩) 3 (by decide) (by decide) (by decide)
      (by decide)
    exact ⟨pb', h⟩
  · have hsome : (mixPasses 20
        (plainEnv loopSound (fun _ _ chs => chs) (fun _ => 0) (fun _ _ => 0))
        [(fun _ => ⟨0, 0⟩, 5), (fun _ => ⟨0, 0⟩, 12)]
        (plainState [plainChannel 255 2] (fun _ => 0))).isSome = true := rfl
    obtain ⟨st', hst⟩ := Option.isSome_iff_exists.mp hsome
    obtain ⟨ch', h1, h2, h3⟩ := hthm.2 0 (plainState [plainChannel 255 2] (fun _ => 0)) st'
      [(fun _ => ⟨0, 0⟩, 5), (fun _ => ⟨0, 0⟩, 12)] 20 (fun _ _ _ => rfl) rfl hst
    exact ⟨st', ch', hst, h1, h2, h3⟩

/-! ## A resource that cannot be resolved (C7) -/

/-- C7, counterexample: one channel at gain 255 whose resource lookup returns absent.  After
`S_PaintChannels(3)` the channel still holds its resource reference (`sfx` is `some 0`, not
cleared); the device frames are silence. -/
theorem unresolved_channel_stays_bound :
    Option.map (fun st => (st.channels.map (fun ch => ch.sfx), deviceFrames st.dma 3))
        (S_PaintChannels 2
          { S_LoadSound := fun _ => none, bind := fun _ _ chs => chs, s_testsound := false,
            tone := fun _ => 0, snd_vol := 256, snd_scaletable := fun _ _ => 0 }
          (fun _ => ⟨0, 0⟩) 3 (plainState [plainChannel 255 3] (fun _ => 7)))
      = some ([some 0], [(0, 0), (0, 0), (0, 0)]) ∧
    [some 0] ≠ [(none : Option Nat)] := by
  constructor
  · rfl
  · decide

/-- C7 (as amended): an active channel (gains not both zero) whose resource lookup returns
absent.  In a sub-iteration the channel loop leaves at once: the channel is unchanged (its
resource reference stays set), the paint buffer is unchanged (nothing is added for the
channel), and the pass goes on: the channels after it are painted exactly as from the same
paint buffer without it. -/
theorem unresolved_channel_skipped (env : env_t) (p e : Int) (ch : channel_t) (s : Nat)
    (rest : List channel_t) (pb : Int → samplepair_t) (fuel : Nat)
    (hsfx : ch.sfx = some s) (hload : env.S_LoadSound s = none)
    (hgain : ¬ (ch.leftvol = 0 ∧ ch.rightvol = 0)) :
    paintChannel env p e (fuel + 1) ch p pb = some (ch, pb) ∧
    paintAll env p e (fuel + 1) (ch :: rest) pb
      = (paintAll env p e (fuel + 1) rest pb).map (fun r => (ch :: r.1, r.2)) := by
  have hstep : paintChannel_step env p e ch p pb = .exit (ch, pb) := by
    unfold paintChannel_step
    by_cases h : p < e
    · rw [if_pos h]
      simp only [hsfx, hload]
      rw [if_neg hgain]
    · rw [if_neg h]
  have h1 : paintChannel env p e (fuel + 1) ch p pb = some (ch, pb) := by
    simp only [paintChannel, hstep]
  refine ⟨h1, ?_⟩
  simp only [paintAll, h1]
  cases paintAll env p e (fuel + 1) rest pb with
  | none => rfl
  | some r => rfl

/-- Witness of `unresolved_channel_skipped`: the channel of the counterexample followed by a
second channel of the same kind, sub-iteration `[0, 3)`. -/
theorem unresolved_channel_skipped_witness :
    (¬ ((plainChannel 255 3).leftvol = 0 ∧ (plainChannel 255 3).rightvol = 0)) ∧
    paintChannel
        { S_LoadSound := fun _ => none, bind := fun _ _ chs => chs, s_testsound := false,
          tone := fun _ => 0, snd_vol := 256, snd_scaletable := fun _ _ => 0 }
        0 3 (1 + 1) (plainChannel 255 3) 0 (fun _ => ⟨0, 0⟩)
      = some (plainChannel 255 3, fun _ => ⟨0, 0⟩) ∧
    paintAll
        { S_LoadSound := fun _ => none, bind := fun _ _ chs => chs, s_testsound := false,
          tone := fun _ => 0, snd_vol := 256, snd_scaletable := fun _ _ => 0 }
        0 3 (1 + 1) (plainChannel 255 3 :: [plainChannel 255 3]) (fun _ => ⟨0, 0⟩)
      = (paintAll
          { S_LoadSound := fun _ => none, bind := fun _ _ chs => chs, s_testsound := false,
            tone := fun _ => 0, snd_vol := 256, snd_scaletable := fun _ _ => 0 }
          0 3 (1 + 1) [plainChannel 255 3] (fun _ => ⟨0, 0⟩)).map
          (fun r => (plainChannel 255 3 :: r.1, r.2)) :=
  ⟨by decide,
    unresolved_channel_skipped
      { S_LoadSound := fun _ => none, bind := fun _ _ chs => chs, s_testsound := false,
        tone := fun _ => 0, snd_vol := 256, snd_scaletable := fun _ _ => 0 }
      0 3 (plainChannel 255 3) 0 [plainChannel 255 3] (fun _ => ⟨0, 0⟩) 1 rfl rfl (by decide)⟩

/-! ## Termination (C8) -/

/-- The measure that decreases with every round of the channel loop: two per frame left in
the sub-iteration, plus one while an active channel still has its end time behind the
cursor. -/
theorem paintChannel_step_decreases (env : env_t) (p e : Int)
    (hres : ∀ (id : Nat) (sc : sfxcache_t), env.S_LoadSound id = some sc →
      0 < sc.length ∧ sc.loopstart < sc.length)
    (ch : channel_t) (lt : Int) (pb : Int → samplepair_t)
    (r : channel_t × Int × (Int → samplepair_t))
    (h : paintChannel_step env p e ch lt pb = .again r) :
    2 * (e - r.2.1).toNat + (if r.1.sfx.isSome = true ∧ r.1.end_ ≤ r.2.1 then 1 else 0)
      < 2 * (e - lt).toNat + (if ch.sfx.isSome = true ∧ ch.end_ ≤ lt then 1 else 0) := by
  unfold paintChannel_step at h
  by_cases h1 : lt < e
  · rw [if_pos h1] at h
    cases hs : ch.sfx with
    | none => rw [hs] at h; simp at h
    | some s =>
      rw [hs] at h
      simp only at h
      by_cases h2 : ch.leftvol = 0 ∧ ch.rightvol = 0
      · rw [if_pos h2] at h; cases h
      · rw [if_neg h2] at h
        cases hl : env.S_LoadSound s with
        | none => rw [hl] at h; simp at h
        | some sc =>
          rw [hl] at h
          simp only at h
          have hr := hres s sc hl
          generalize hcount : (if ch.end_ - lt < e - lt then ch.end_ - lt else e - lt) = count
            at h
          have hcnt : count ≤ e - lt ∧ count ≤ ch.end_ - lt ∧
              (count = e - lt ∨ count = ch.end_ - lt) := by
            rw [← hcount]; split_ifs <;> omega
          by_cases h3 : count > 0
          · rw [if_pos h3] at h
            cases h
            simp only []
            have : (if ch.sfx.isSome = true ∧ ch.end_ ≤ lt then 1 else 0) ≥ 0 := by
              split_ifs <;> omega
            split_ifs <;> omega
          · rw [if_neg h3] at h
            cases h
            simp only []
            have hend : ch.end_ ≤ lt := by omega
            have hA : ¬ ((restart ch sc lt).sfx.isSome = true ∧
                (restart ch sc lt).end_ ≤ lt) := by
              unfold restart
              rw [if_pos (by omega)]
              split_ifs <;> simp <;> intros <;> omega
            have hB : (some s).isSome = true ∧ ch.end_ ≤ lt := ⟨rfl, hend⟩
            rw [if_neg hA, if_pos hB]
            omega
  · rw [if_neg h1] at h; cases h

theorem paintChannel_terminates (env : env_t) (p e : Int)
    (hres : ∀ (id : Nat) (sc : sfxcache_t), env.S_LoadSound id = some sc →
      0 < sc.length ∧ sc.loopstart < sc.length) :
    ∀ (fuel : Nat) (ch : channel_t) (lt : Int) (pb : Int → samplepair_t),
      2 * (e - lt).toNat + (if ch.sfx.isSome = true ∧ ch.end_ ≤ lt then 1 else 0) < fuel →
      ∃ r, paintChannel env p e fuel ch lt pb = some r := by
  intro fuel
  induction fuel with
  | zero => intro ch lt pb h; omega
  | succ n ih =>
    intro ch lt pb h
    simp only [paintChannel]
    cases hs : paintChannel_step env p e ch lt pb with
    | exit x => exact ⟨x, rfl⟩
    | again x =>
      obtain ⟨ch', lt', pb'⟩ := x
      have hd := paintChannel_step_decreases env p e hres ch lt pb _ hs
      simp only at hd ⊢
      exact ih ch' lt' pb' (by omega)

theorem paintAll_terminates (env : env_t) (p e : Int) (fuel : Nat)
    (hres : ∀ (id : Nat) (sc : sfxcache_t), env.S_LoadSound id = some sc →
      0 < sc.length ∧ sc.loopstart < sc.length)
    (hfuel : 2 * (e - p).toNat + 1 < fuel) :
    ∀ (chs : List channel_t) (pb : Int → samplepair_t),
      ∃ r, paintAll env p e fuel chs pb = some r := by
  intro chs
  induction chs with
  | nil => intro pb; exact ⟨_, rfl⟩
  | cons ch rest ih =>
    intro pb
    obtain ⟨r1, h1⟩ := paintChannel_terminates env p e hres fuel ch p pb (by
      split_ifs <;> omega)
    obtain ⟨ch', pb'⟩ := r1
    obtain ⟨r2, h2⟩ := ih pb'
    obtain ⟨rest', pb''⟩ := r2
    refine ⟨(ch' :: rest', pb''), ?_⟩
    simp only [paintAll, h1, h2]

theorem land_bounds (t m : Int) (ht : 0 ≤ t) (hm : 0 ≤ m) :
    0 ≤ Int.land t m ∧ Int.land t m ≤ m := by
  obtain ⟨a, rfl⟩ := Int.eq_ofNat_of_zero_le ht
  obtain ⟨b, rfl⟩ := Int.eq_ofNat_of_zero_le hm
  have h : Int.land (a : Int) (b : Int) = ((a &&& b : Nat) : Int) := rfl
  rw [h]
  have := @Nat.and_le_right a b
  constructor
  · exact Int.ofNat_nonneg _
  · exact_mod_cast this

theorem TransferStereo16_loop_terminates (samples : Int) (samp : Int → samplepair_t) (e : Int)
    (hs : 2 ≤ samples) :
    ∀ (fuel : Nat) (lt soff : Int) (b : Int → Int),
      0 ≤ lt → (e - lt).toNat < fuel →
      ∃ r, TransferStereo16_loop samples samp e fuel lt soff b = some r := by
  have hfr : 1 ≤ samples >>> (1 : Nat) := by
    rw [Int.shiftRight_eq_div_pow]
    norm_num
    omega
  intro fuel
  induction fuel with
  | zero => intro lt soff b _ h; omega
  | succ n ih =>
    intro lt soff b hlt hfuel
    simp only [TransferStereo16_loop]
    by_cases hc : lt < e
    · rw [if_pos hc]
      have hb := land_bounds lt (samples >>> (1 : Nat) - 1) hlt (by omega)
      generalize Int.land lt (samples >>> (1 : Nat) - 1) = lpos at hb ⊢
      generalize samples >>> (1 : Nat) = frames at hb hfr ⊢
      generalize hcount : (if lt + (frames - lpos) > e then e - lt else frames - lpos) = count
      have hcnt : 0 < count ∧ lt + count ≤ e := by
        rw [← hcount]; split_ifs <;> omega
      exact ih _ _ _ (by omega) (by omega)
    · rw [if_neg hc]
      exact ⟨b, rfl⟩

theorem TransferStereo_loop16_terminates (samp : Int → samplepair_t) (step mask : Int) :
    ∀ (fuel : Nat) (count p idx : Int) (b : Int → Int),
      0 ≤ count → count.toNat < fuel →
      ∃ r, TransferStereo_loop16 samp step mask fuel count p idx b = some r := by
  intro fuel
  induction fuel with
  | zero => intro count p idx b _ h; omega
  | succ n ih =>
    intro count p idx b h0 hfuel
    simp only [TransferStereo_loop16]
    by_cases hc : count ≠ 0
    · rw [if_pos hc]
      exact ih _ _ _ _ (by omega) (by omega)
    · rw [if_neg hc]
      exact ⟨b, rfl⟩

theorem TransferStereo_loop8_terminates (samp : Int → samplepair_t) (step mask : Int) :
    ∀ (fuel : Nat) (count p idx : Int) (b : Int → Int),
      0 ≤ count → count.toNat < fuel →
      ∃ r, TransferStereo_loop8 samp step mask fuel count p idx b = some r := by
  intro fuel
  induction fuel with
  | zero => intro count p idx b _ h; omega
  | succ n ih =>
    intro count p idx b h0 hfuel
    simp only [TransferStereo_loop8]
    by_cases hc : count ≠ 0
    · rw [if_pos hc]
      exact ih _ _ _ _ (by omega) (by omega)
    · rw [if_neg hc]
      exact ⟨b, rfl⟩

theorem TransferPaintBuffer_terminates (env : env_t) (p e : Int) (dma : dma_t)
    (samp : Int → samplepair_t) (fuel : Nat)
    (hp : 0 ≤ p) (hpe : p ≤ e) (hlen : e - p ≤ 2048)
    (hs : 2 ≤ dma.samples) (hc0 : 0 ≤ dma.channels) (hc2 : dma.channels ≤ 2)
    (hfuel : 4097 ≤ fuel) :
    ∃ r, TransferPaintBuffer fuel env p dma samp e = some r := by
  simp only [TransferPaintBuffer, TransferStereo16, TransferStereo]
  generalize (if env.s_testsound = true then testTone env.tone p e samp else samp) = samp1
  have hcount : 0 ≤ (e - p) * dma.channels ∧ (e - p) * dma.channels ≤ 4096 := by
    constructor
    · exact mul_nonneg (by omega) hc0
    · nlinarith
  by_cases h1 : dma.samplebits = 16 ∧ dma.channels = 2
  · rw [if_pos h1]
    exact TransferStereo16_loop_terminates _ _ _ hs _ _ _ _ hp (by omega)
  · rw [if_neg h1]
    by_cases h2 : dma.samplebits = 16
    · rw [if_pos h2]
      exact TransferStereo_loop16_terminates _ _ _ _ _ _ _ _ hcount.1 (by omega)
    · rw [if_neg h2]
      by_cases h3 : dma.samplebits = 8
      · rw [if_pos h3]
        exact TransferStereo_loop8_terminates _ _ _ _ _ _ _ _ hcount.1 (by omega)
      · rw [if_neg h3]
        exact ⟨_, rfl⟩

theorem startPlaysounds_end (env : env_t) (t : Int) :
    ∀ (q : List playsound_t) (chs : List channel_t) (e : Int), t < e →
      t < (startPlaysounds env t q chs e).2.2 ∧ (startPlaysounds env t q chs e).2.2 ≤ e := by
  intro q
  induction q with
  | nil => intro chs e h; exact ⟨h, le_refl _⟩
  | cons ps rest ih =>
    intro chs e h
    simp only [startPlaysounds]
    by_cases h1 : ps.begin ≤ t
    · rw [if_pos h1]
      exact ih _ e h
    · rw [if_neg h1]
      simp only []
      split_ifs <;> omega

theorem S_PaintChannels_round_terminates (env : env_t) (endtime : Int) (inner : Nat)
    (pb : Int → samplepair_t) (st : mixer_t)
    (hres : ∀ (id : Nat) (sc : sfxcache_t), env.S_LoadSound id = some sc →
      0 < sc.length ∧ sc.loopstart < sc.length)
    (hp : 0 ≤ st.paintedtime) (hlt : st.paintedtime < endtime)
    (hs : 2 ≤ st.dma.samples) (hc0 : 0 ≤ st.dma.channels) (hc2 : st.dma.channels ≤ 2)
    (hfuel : 4098 ≤ inner) :
    ∃ pb' st', S_PaintChannels_round env endtime inner pb st = some (pb', st') ∧
      st.paintedtime < st'.paintedtime ∧ st'.paintedtime ≤ endtime ∧
      st'.dma.samples = st.dma.samples ∧ st'.dma.channels = st.dma.channels := by
  simp only [S_PaintChannels_round]
  generalize hend0 : (if endtime - st.paintedtime > PAINTBUFFER_SIZE
    then st.paintedtime + PAINTBUFFER_SIZE else endtime) = end0
  have he0 : st.paintedtime < end0 ∧ end0 ≤ endtime ∧ end0 - st.paintedtime ≤ 2048 := by
    rw [← hend0]; unfold PAINTBUFFER_SIZE; split_ifs <;> omega
  have hsp := startPlaysounds_end env st.paintedtime st.s_pendingplays st.channels end0 he0.1
  generalize startPlaysounds env st.paintedtime st.s_pendingplays st.channels end0 = sp
    at hsp ⊢
  obtain ⟨pending, channels, end_⟩ := sp
  simp only at hsp ⊢
  obtain ⟨r1, h1⟩ := paintAll_terminates env st.paintedtime end_ inner hres (by omega) channels
    (clearBuffer pb (end_ - st.paintedtime))
  obtain ⟨chs', pb'⟩ := r1
  obtain ⟨buf, h2⟩ := TransferPaintBuffer_terminates env st.paintedtime end_ st.dma pb' inner
    hp (by omega) (by omega) hs hc0 hc2 (by omega)
  rw [h1]
  simp only []
  rw [h2]
  exact ⟨_, _, rfl, by simp only []; omega, by simp only []; omega, rfl, rfl⟩

theorem S_PaintChannels_loop_terminates (env : env_t) (endtime : Int) (inner : Nat)
    (hres : ∀ (id : Nat) (sc : sfxcache_t), env.S_LoadSound id = some sc →
      0 < sc.length ∧ sc.loopstart < sc.length)
    (hfuel : 4098 ≤ inner) :
    ∀ (fuel : Nat) (pb : Int → samplepair_t) (st : mixer_t),
      0 ≤ st.paintedtime → 2 ≤ st.dma.samples → 0 ≤ st.dma.channels → st.dma.channels ≤ 2 →
      (endtime - st.paintedtime).toNat < fuel →
      ∃ st', S_PaintChannels_loop env endtime inner fuel pb st = some st' ∧
        st'.paintedtime = if st.paintedtime ≤ endtime then endtime else st.paintedtime := by
  intro fuel
  induction fuel with
  | zero => intro pb st _ _ _ _ h; omega
  | succ n ih =>
    intro pb st hp hs hc0 hc2 hf
    simp only [S_PaintChannels_loop]
    by_cases hc : st.paintedtime < endtime
    · rw [if_pos hc]
      obtain ⟨pb1, st1, hr, h1, h2, h3, h4⟩ := S_PaintChannels_round_terminates env endtime
        inner pb st hres hp hc hs hc0 hc2 hfuel
      rw [hr]
      simp only []
      obtain ⟨st', hst, hclock⟩ := ih pb1 st1 (by omega) (by omega) (by omega) (by omega)
        (by omega)
      refine ⟨st', hst, ?_⟩
      rw [hclock, if_pos h2, if_pos (le_of_lt hc)]
    · rw [if_neg hc]
      refine ⟨st, rfl, ?_⟩
      split_ifs <;> omega

/-- C8, counterexample: one channel (position 0, end time 3, not autoloop) bound to a
resource of length 3 whose loop-start is 3.  At the end time the channel is restarted at
position 3 with end time `3 + 3 - 3 = 3`; the cursor no longer advances and the channel loop
of `S_PaintChannels(4)` goes round for ever: no amount of fuel gives a result. -/
theorem mix_pass_hangs :
    ¬ ∃ fuel : Nat, (S_PaintChannels fuel
        (plainEnv stuckSound (fun _ _ chs => chs) (fun _ => 0) (fun _ _ => 0))
        (fun _ => ⟨0, 0⟩) 4 (plainState [plainChannel 255 3] (fun _ => 0))).isSome = true := by
  have hfix : ∀ (fuel : Nat) (pb : Int → samplepair_t),
      paintChannel (plainEnv stuckSound (fun _ _ chs => chs) (fun _ => 0) (fun _ _ => 0)) 0 4
        fuel { (plainChannel 255 3) with pos := 3 } 3 pb = none := by
    intro fuel
    induction fuel with
    | zero => intro pb; rfl
    | succ n ih =>
      intro pb
      have hstep : paintChannel_step
          (plainEnv stuckSound (fun _ _ chs => chs) (fun _ => 0) (fun _ _ => 0)) 0 4
          { (plainChannel 255 3) with pos := 3 } 3 pb
          = .again ({ (plainChannel 255 3) with pos := 3 }, 3, pb) := rfl
      simp only [paintChannel, hstep]
      exact ih pb
  have hch : ∀ (fuel : Nat) (pb : Int → samplepair_t),
      paintChannel (plainEnv stuckSound (fun _ _ chs => chs) (fun _ => 0) (fun _ _ => 0)) 0 4
        fuel (plainChannel 255 3) 0 pb = none := by
    intro fuel pb
    cases fuel with
    | zero => rfl
    | succ n =>
      have hstep : paintChannel_step
          (plainEnv stuckSound (fun _ _ chs => chs) (fun _ => 0) (fun _ _ => 0)) 0 4
          (plainChannel 255 3) 0 pb
          = .again ({ (plainChannel 255 3) with pos := 3 }, 3,
              PaintMono16 (plainEnv stuckSound (fun _ _ chs => chs) (fun _ => 0) (fun _ _ => 0))
                (plainChannel 255 3) stuckSound 3 pb 0) := rfl
      simp only [paintChannel, hstep]
      exact hfix n _
  rintro ⟨fuel, h⟩
  cases fuel with
  | zero => simp [S_PaintChannels, S_PaintChannels_loop] at h
  | succ n =>
    have hround : S_PaintChannels_round
        (plainEnv stuckSound (fun _ _ chs => chs) (fun _ => 0) (fun _ _ => 0)) 4 (n + 1)
        (fun _ => ⟨0, 0⟩) (plainState [plainChannel 255 3] (fun _ => 0)) = none := by
      simp only [S_PaintChannels_round, plainState, PAINTBUFFER_SIZE]
      norm_num
      simp only [startPlaysounds, paintAll, hch]
    have hlt : (plainState [plainChannel 255 3] (fun _ => 0)).paintedtime < 4 := by decide
    simp only [S_PaintChannels, S_PaintChannels_loop, if_pos hlt, hround] at h
    simp at h

/-- C8 (as amended): a mix pass runs to completion when every resource that resolves has a
positive length and a loop-start below its length.  For every target end time, every state
of the channels, every pending queue (a finite list whose activation removes the activated
entry) and every binding done by activation, with a clock that is not negative and a device
descriptor of at least 2 samples and 0 to 2 channels, `S_PaintChannels(endtime)` returns
(with fuel 4098, and more than the number of frames asked for); the clock on exit is
`endtime` when `endtime` is at least the clock on entry, and is unchanged otherwise. -/
theorem mix_pass_terminates (env : env_t) (paintbuffer : Int → samplepair_t) (endtime : Int)
    (st : mixer_t) (fuel : Nat)
    (hres : ∀ (id : Nat) (sc : sfxcache_t), env.S_LoadSound id = some sc →
      0 < sc.length ∧ sc.loopstart < sc.length)
    (hclock : 0 ≤ st.paintedtime)
    (hs : 2 ≤ st.dma.samples) (hc0 : 0 ≤ st.dma.channels) (hc2 : st.dma.channels ≤ 2)
    (hfuel : 4098 ≤ fuel) (hfuel2 : (endtime - st.paintedtime).toNat < fuel) :
    ∃ st', S_PaintChannels fuel env paintbuffer endtime st = some st' ∧
      st'.paintedtime = if st.paintedtime ≤ endtime then endtime else st.paintedtime :=
  S_PaintChannels_loop_terminates env endtime fuel hres hfuel fuel paintbuffer st hclock hs hc0
    hc2 hfuel2

/-- Witness of `mix_pass_terminates`: the resource `[100, -100, 50]` (length 3, no loop
point), one channel, one pending sound due at time 1, a device of 4 frames, target 3. -/
theorem mix_pass_terminates_witness :
    ((0 : Int) < tripleSound.length ∧ tripleSound.loopstart < tripleSound.length) ∧
    ∃ st', S_PaintChannels 4098
        (plainEnv tripleSound (fun _ _ chs => chs) (fun _ => 0) (fun _ _ => 0))
        (fun _ => ⟨0, 0⟩) 3
        { paintedtime := 0, channels := [plainChannel 255 3],
          s_pendingplays := [{ sfx := some 0, volume := 1, begin := 1 }],
          dma := { channels := 2, samples := 8, samplebits := 16, buffer := fun _ => 0 } }
        = some st' ∧
      st'.paintedtime = if (0 : Int) ≤ 3 then 3 else 0 :=
  ⟨by decide,
    mix_pass_terminates (plainEnv tripleSound (fun _ _ chs => chs) (fun _ => 0) (fun _ _ => 0))
      (fun _ => ⟨0, 0⟩) 3
      { paintedtime := 0, channels := [plainChannel 255 3],
        s_pendingplays := [{ sfx := some 0, volume := 1, begin := 1 }],
        dma := { channels := 2, samples := 8, samplebits := 16, buffer := fun _ => 0 } }
      4098 (by intro id sc h; cases h; decide) (by decide) (by decide) (by decide) (by decide)
      (by decide) (by decide)⟩

/-! ## Sample-exact scheduling (C2) -/

theorem pair_eta (x : samplepair_t) : (⟨x.left + 0, x.right + 0⟩ : samplepair_t) = x := by
  cases x; simp

/-- Every paint routine is a fold of `addPair`: it adds, slot by slot, values that depend on
the channel and the resource only. -/
theorem paintfuncs_apply (func : Int) (env : env_t) (ch : channel_t) (sc : sfxcache_t)
    (count : Int) :
    ∃ f g : Int → Int, ∀ (samp : Int → samplepair_t) (off j : Int),
      paintfuncs func env ch sc count samp off j
        = if off ≤ j ∧ j < off + count.toNat
            then ⟨(samp j).left + f (j - off), (samp j).right + g (j - off)⟩
            else samp j := by
  by_cases h0 : func = 0
  · subst h0
    refine ⟨(fun x => env.snd_scaletable (ch.leftvol >>> (3 : Nat)) (sc.data (ch.pos + x))),
      (fun x => env.snd_scaletable (ch.rightvol >>> (3 : Nat)) (sc.data (ch.pos + x))),
      fun samp off j => ?_⟩
    show PaintMono8 env ch sc count samp off j = _
    unfold PaintMono8
    exact addPair_fold
      (fun x => env.snd_scaletable (ch.leftvol >>> (3 : Nat)) (sc.data (ch.pos + x)))
      (fun x => env.snd_scaletable (ch.rightvol >>> (3 : Nat)) (sc.data (ch.pos + x)))
      off samp count.toNat j
  by_cases h1 : func = 1
  · subst h1
    refine ⟨(fun x => env.snd_scaletable (truncToInt (ch.master_vol * 255) >>> (3 : Nat))
        (sc.data (ch.pos * 2 + 2 * x))),
      (fun x => env.snd_scaletable (truncToInt (ch.master_vol * 255) >>> (3 : Nat))
        (sc.data (ch.pos * 2 + 2 * x + 1))),
      fun samp off j => ?_⟩
    show PaintStereo8 env ch sc count samp off j = _
    unfold PaintStereo8
    exact addPair_fold
      (fun x => env.snd_scaletable (truncToInt (ch.master_vol * 255) >>> (3 : Nat))
        (sc.data (ch.pos * 2 + 2 * x)))
      (fun x => env.snd_scaletable (truncToInt (ch.master_vol * 255) >>> (3 : Nat))
        (sc.data (ch.pos * 2 + 2 * x + 1)))
      off samp count.toNat j
  by_cases h2 : func = 2
  · subst h2
    refine ⟨(fun x => (sc.data (ch.pos + x) * (ch.leftvol * env.snd_vol)) >>> (8 : Nat)),
      (fun x => (sc.data (ch.pos + x) * (ch.rightvol * env.snd_vol)) >>> (8 : Nat)),
      fun samp off j => ?_⟩
    show PaintMono16 env ch sc count samp off j = _
    unfold PaintMono16
    exact addPair_fold
      (fun x => (sc.data (ch.pos + x) * (ch.leftvol * env.snd_vol)) >>> (8 : Nat))
      (fun x => (sc.data (ch.pos + x) * (ch.rightvol * env.snd_vol)) >>> (8 : Nat))
      off samp count.toNat j
  by_cases h3 : func = 3
  · subst h3
    refine ⟨(fun x => (sc.data (ch.pos * 2 + 2 * x)
        * truncToInt (ch.master_vol * 255 * (env.snd_vol : Rat))) >>> (8 : Nat)),
      (fun x => (sc.data (ch.pos * 2 + 2 * x + 1)
        * truncToInt (ch.master_vol * 255 * (env.snd_vol : Rat))) >>> (8 : Nat)),
      fun samp off j => ?_⟩
    show PaintStereo16 env ch sc count samp off j = _
    unfold PaintStereo16
    exact addPair_fold
      (fun x => (sc.data (ch.pos * 2 + 2 * x)
        * truncToInt (ch.master_vol * 255 * (env.snd_vol : Rat))) >>> (8 : Nat))
      (fun x => (sc.data (ch.pos * 2 + 2 * x + 1)
        * truncToInt (ch.master_vol * 255 * (env.snd_vol : Rat))) >>> (8 : Nat))
      off samp count.toNat j
  refine ⟨fun _ => 0, fun _ => 0, fun samp off j => ?_⟩
  have e : paintfuncs func env ch sc count samp off = samp := by
    simp only [paintfuncs, if_neg h0, if_neg h1, if_neg h2, if_neg h3]
  rw [e]
  split_ifs
  · exact (pair_eta _).symm
  · rfl

theorem paintfuncs_superposes (func : Int) (env : env_t) (ch : channel_t) (sc : sfxcache_t)
    (count : Int) : Superposes count (paintfuncs func env ch sc count) := by
  obtain ⟨f, g, h⟩ := paintfuncs_apply func env ch sc count
  intro B off j
  rw [h B off j, h (fun _ => ⟨0, 0⟩) off j]
  constructor
  · by_cases hin : off ≤ j ∧ j < off + count.toNat
    · rw [if_pos hin, if_pos hin]
      simp
    · rw [if_neg hin, if_neg hin]
      exact (pair_eta _).symm
  · intro hout
    rw [if_neg (by omega)]

theorem paintfuncs_comm (env : env_t) (func1 func2 : Int) (ch1 ch2 : channel_t)
    (sc1 sc2 : sfxcache_t) (count1 count2 : Int) (B : Int → samplepair_t) (off1 off2 : Int) :
    paintfuncs func1 env ch1 sc1 count1 (paintfuncs func2 env ch2 sc2 count2 B off2) off1
      = paintfuncs func2 env ch2 sc2 count2 (paintfuncs func1 env ch1 sc1 count1 B off1) off2 := by
  obtain ⟨f1, g1, h1⟩ := paintfuncs_apply func1 env ch1 sc1 count1
  obtain ⟨f2, g2, h2⟩ := paintfuncs_apply func2 env ch2 sc2 count2
  funext j
  rw [h1, h2, h2, h1]
  by_cases c1 : off1 ≤ j ∧ j < off1 + count1.toNat
  · by_cases c2 : off2 ≤ j ∧ j < off2 + count2.toNat
    · simp only [c1, c2, if_true, and_self, samplepair_t.mk.injEq]
      exact ⟨by ring, by ring⟩
    · simp only [c1, c2, if_true, if_false, and_self]
  · by_cases c2 : off2 ≤ j ∧ j < off2 + count2.toNat
    · simp only [c1, c2, if_true, if_false, and_self]
    · simp only [c1, c2, if_false]

/-- C11: each of the four paint routines superposes: for every channel, resource, count and
initial paint buffer `B`, the buffer that results is `B` plus, slot by slot, what the same
call paints onto an all-zero buffer, and the slots before the pointer and at index `count`
and beyond are unchanged.  Hence two paint calls (any routines, channels, resources, counts
and offsets) give the same buffer in either order: the accumulated result of mixing several
channels does not depend on the order of the channels. -/
theorem paint_superposition (env : env_t) (ch : channel_t) (sc : sfxcache_t) (count : Int) :
    Superposes count (PaintMono8 env ch sc count) ∧
    Superposes count (PaintStereo8 env ch sc count) ∧
    Superposes count (PaintMono16 env ch sc count) ∧
    Superposes count (PaintStereo16 env ch sc count) ∧
    ∀ (func1 func2 : Int) (ch2 : channel_t) (sc2 : sfxcache_t) (count2 : Int)
      (B : Int → samplepair_t) (off1 off2 : Int),
      paintfuncs func1 env ch sc count (paintfuncs func2 env ch2 sc2 count2 B off2) off1
        = paintfuncs func2 env ch2 sc2 count2 (paintfuncs func1 env ch sc count B off1) off2 :=
  ⟨paintfuncs_superposes 0 env ch sc count, paintfuncs_superposes 1 env ch sc count,
    paintfuncs_superposes 2 env ch sc count, paintfuncs_superposes 3 env ch sc count,
    fun func1 func2 ch2 sc2 count2 B off1 off2 =>
      paintfuncs_comm env func1 func2 ch ch2 sc sc2 count count2 B off1 off2⟩

/-! ## Idle and zero-gain channels (C12) -/

theorem shiftRight_three (L : Int) (hL : 0 ≤ L ∧ L < 256) :
    0 ≤ L >>> (3 : Nat) ∧ L >>> (3 : Nat) < 32 := by
  rw [Int.shiftRight_eq_div_pow]
  norm_num
  omega

theorem shift8_mul256 (x : Int) : (256 * x) >>> (8 : Nat) = x := by
  rw [Int.shiftRight_eq_div_pow]
  norm_num

theorem snd_vol_of_ratio (V : Int) (table : Int → Int → Int) (h0 : 0 ≤ V) (h1 : V ≤ 256) :
    (S_InitScaletable ((V : Rat) / 256) table).1 = V := by
  simp only [S_InitScaletable]
  have hq0 : (0 : Rat) ≤ (V : Rat) / 256 := by positivity
  have hq1 : (V : Rat) / 256 ≤ 1 := by
    rw [div_le_one (by norm_num)]
    exact_mod_cast h1
  have hc : Cvar_ClampValue ((V : Rat) / 256) 0 1 = (V : Rat) / 256 := by
    unfold Cvar_ClampValue
    rw [if_neg (not_lt.mpr hq0), if_neg (not_lt.mpr hq1)]
  rw [hc]
  have hm : (V : Rat) / 256 * 256 = (V : Rat) := by field_simp
  rw [hm]
  unfold truncToInt
  rw [if_pos (by exact_mod_cast h0), rat_floor_eq]
  exact Int.floor_intCast V

/-- C19: after `S_InitScaletable`, for every byte `j` in `[0, 256)` and every gain `L` in
`[0, 256)`, the table entry that `PaintMono8` adds, `snd_scaletable[L >> 3][j]`, is the
value that `PaintMono16` adds for the 16-bit sample `(j - 128) * 256` at the gain
`(L >> 3) * 8`, namely `(((j - 128) * 256) * ((L >> 3) * 8) * V) >> 8` with `V = snd_vol`;
every `V` in `[0, 256]` is the `snd_vol` of some volume setting (`V / 256`).  Hence
`PaintMono8` on a resource of bytes paints exactly what `PaintMono16` paints on the resource
of the samples `(byte - 128) * 256` for the channel with the gains `(L >> 3) * 8`. -/
theorem scaletable_is_coarse_mono16 (s_volume : Rat) (table : Int → Int → Int) (j L : Int)
    (hj : 0 ≤ j ∧ j < 256) (hL : 0 ≤ L ∧ L < 256) :
    (S_InitScaletable s_volume table).2 (L >>> (3 : Nat)) j
      = (((j - 128) * 256) * ((L >>> (3 : Nat)) * 8) * (S_InitScaletable s_volume table).1)
          >>> (8 : Nat) ∧
    (∀ V : Int, 0 ≤ V → V ≤ 256 → (S_InitScaletable ((V : Rat) / 256) table).1 = V) ∧
    (∀ (env : env_t) (ch : channel_t) (sc8 sc16 : sfxcache_t) (count : Int)
      (pb : Int → samplepair_t) (off : Int),
      env.snd_vol = (S_InitScaletable s_volume table).1 →
      env.snd_scaletable = (S_InitScaletable s_volume table).2 →
      (0 ≤ ch.leftvol ∧ ch.leftvol < 256) → (0 ≤ ch.rightvol ∧ ch.rightvol < 256) →
      (∀ k, 0 ≤ sc8.data k ∧ sc8.data k < 256) →
      (∀ k, sc16.data k = (sc8.data k - 128) * 256) →
      PaintMono8 env ch sc8 count pb off
        = PaintMono16 env
            { ch with leftvol := (ch.leftvol >>> (3 : Nat)) * 8,
                      rightvol := (ch.rightvol >>> (3 : Nat)) * 8 } sc16 count pb off) := by
  have hentry : ∀ (j L : Int), (0 ≤ j ∧ j < 256) → (0 ≤ L ∧ L < 256) →
      (S_InitScaletable s_volume table).2 (L >>> (3 : Nat)) j
        = (((j - 128) * 256) * ((L >>> (3 : Nat)) * 8) * (S_InitScaletable s_volume table).1)
            >>> (8 : Nat) := by
    intro j L hj hL
    rw [S_InitScaletable_apply s_volume table _ j (shiftRight_three L hL) hj]
    have e : (j - 128) * 256 * ((L >>> (3 : Nat)) * 8) * (S_InitScaletable s_volume table).1
        = 256 * ((j - 128) * (L >>> (3 : Nat)) * 8 * (S_InitScaletable s_volume table).1) := by
      ring
    rw [e, shift8_mul256]
  refine ⟨hentry j L hj hL, fun V h0 h1 => snd_vol_of_ratio V table h0 h1, ?_⟩
  intro env ch sc8 sc16 count pb off hv ht hl hr hb h16
  unfold PaintMono8 PaintMono16
  simp only []
  congr 1
  funext samp i
  rw [ht, hv, h16, hentry _ _ (hb _) hl, hentry _ _ (hb _) hr]
  ring_nf

/-- Witness of `scaletable_is_coarse_mono16`: volume one half, byte 200, gain 100. -/
theorem scaletable_is_coarse_mono16_witness :
    (((0 : Int) ≤ 200 ∧ (200 : Int) < 256) ∧ ((0 : Int) ≤ 100 ∧ (100 : Int) < 256)) ∧
    (S_InitScaletable (1 / 2) (fun _ _ => 0)).2 ((100 : Int) >>> (3 : Nat)) 200
      = ((((200 : Int) - 128) * 256) * (((100 : Int) >>> (3 : Nat)) * 8)
          * (S_InitScaletable (1 / 2) (fun _ _ => 0)).1) >>> (8 : Nat) :=
  ⟨by decide,
    (scaletable_is_coarse_mono16 (1 / 2) (fun _ _ => 0) 200 100 (by decide) (by decide)).1⟩

/-- C20: with the volume factor `V = snd_vol` that `S_InitScaletable` sets (it lies in
`[0, 256]`), no product of the per-sample gain scaling leaves the range of a 32-bit `int`.
For every 16-bit sample `s` and every gain `L` in `[0, 256]`, the factor `L * V` of
`PaintMono16` and the product `s * (L * V)` lie in `[-2^31, 2^31 - 1]`; so do the factor
`master_vol * 255 * V` of `PaintStereo16` (for a master volume in `[0, 1]`) and its product
with `s`; and so do the attenuation table entry `(j - 128) * i * 8 * V` and the partial
products `(j - 128) * i` and `(j - 128) * i * 8`, for `j` in `[0, 256)` and `i` in
`[0, 32)`. -/
theorem gain_scaling_fits_int32 (s_volume : Rat) (table : Int → Int → Int) :
    (∀ s L : Int, -32768 ≤ s → s ≤ 32767 → 0 ≤ L → L ≤ 256 →
      (-2147483648 ≤ L * (S_InitScaletable s_volume table).1 ∧
        L * (S_InitScaletable s_volume table).1 ≤ 2147483647) ∧
      (-2147483648 ≤ s * (L * (S_InitScaletable s_volume table).1) ∧
        s * (L * (S_InitScaletable s_volume table).1) ≤ 2147483647)) ∧
    (∀ (s : Int) (m : Rat), -32768 ≤ s → s ≤ 32767 → 0 ≤ m → m ≤ 1 →
      (-2147483648 ≤ truncToInt (m * 255 * ((S_InitScaletable s_volume table).1 : Rat)) ∧
        truncToInt (m * 255 * ((S_InitScaletable s_volume table).1 : Rat)) ≤ 2147483647) ∧
      (-2147483648
          ≤ s * truncToInt (m * 255 * ((S_InitScaletable s_volume table).1 : Rat)) ∧
        s * truncToInt (m * 255 * ((S_InitScaletable s_volume table).1 : Rat))
          ≤ 2147483647)) ∧
    (∀ i j : Int, 0 ≤ i → i < 32 → 0 ≤ j → j < 256 →
      (-2147483648 ≤ (j - 128) * i ∧ (j - 128) * i ≤ 2147483647) ∧
      (-2147483648 ≤ (j - 128) * i * 8 ∧ (j - 128) * i * 8 ≤ 2147483647) ∧
      (S_InitScaletable s_volume table).2 i j
        = (j - 128) * i * 8 * (S_InitScaletable s_volume table).1 ∧
      (-2147483648 ≤ (S_InitScaletable s_volume table).2 i j ∧
        (S_InitScaletable s_volume table).2 i j ≤ 2147483647)) := by
  have hV := snd_vol_bounds s_volume table
  generalize hVd : (S_InitScaletable s_volume table).1 = V at hV
  have hprod : ∀ s m : Int, -32768 ≤ s → s ≤ 32767 → 0 ≤ m → m ≤ 65536 →
      -2147483648 ≤ s * m ∧ s * m ≤ 2147483647 := by
    intro s m h1 h2 h3 h4
    constructor <;> nlinarith
  refine ⟨?_, ?_, ?_⟩
  · intro s L h1 h2 h3 h4
    have hm : 0 ≤ L * V ∧ L * V ≤ 65536 := by
      constructor
      · exact mul_nonneg h3 hV.1
      · nlinarith [hV.1, hV.2]
    exact ⟨⟨by omega, by omega⟩, hprod s (L * V) h1 h2 hm.1 hm.2⟩
  · intro s m h1 h2 h3 h4
    have hVq0 : (0 : Rat) ≤ (V : Rat) := by exact_mod_cast hV.1
    have hVq1 : (V : Rat) ≤ 256 := by exact_mod_cast hV.2
    have hq0 : (0 : Rat) ≤ m * 255 * (V : Rat) := by positivity
    have hq1 : m * 255 * (V : Rat) ≤ ((65280 : Int) : Rat) := by
      push_cast
      nlinarith
    have hb := truncToInt_bounds (m * 255 * (V : Rat)) 65280 hq0 hq1
    exact ⟨⟨by omega, by omega⟩, hprod s _ h1 h2 hb.1 (by omega)⟩
  · intro i j h1 h2 h3 h4
    have ha : -3968 ≤ (j - 128) * i ∧ (j - 128) * i ≤ 3937 := by
      constructor <;> nlinarith
    have hentry := S_InitScaletable_apply s_volume table i j ⟨h1, h2⟩ ⟨h3, h4⟩
    rw [hVd] at hentry
    have hb : -8126464 ≤ (j - 128) * i * 8 * V ∧ (j - 128) * i * 8 * V ≤ 8126464 := by
      constructor <;> nlinarith
    rw [hentry]
    exact ⟨⟨by omega, by omega⟩, ⟨by omega, by omega⟩, rfl, by omega, by omega⟩

/-! ## The test tone (C16) -/

theorem testTone_nat (tone : Int → Int) (p : Int) (samp : Int → samplepair_t) (n : Nat)
    (j : Int) :
    (List.range n).foldl (fun samp (k : Nat) =>
        store samp (p + k) ⟨tone (p + k), tone (p + k)⟩) samp j
      = if p ≤ j ∧ j < p + n then ⟨tone j, tone j⟩ else samp j := by
  induction n with
  | zero =>
    simp only [List.range_zero, List.foldl_nil]
    rw [if_neg]; omega
  | succ n ih =>
    rw [List.range_succ, List.foldl_append]
    simp only [List.foldl_cons, List.foldl_nil]
    have e : ((n + 1 : Nat) : Int) = (n : Int) + 1 := by push_cast; rfl
    rw [e]
    by_cases h1 : j = p + (n : Int)
    · have c1 : p ≤ j ∧ j < p + ((n : Int) + 1) := by clear ih; omega
      rw [if_pos c1, h1, store_same]
    · rw [store_other _ _ _ _ h1, ih]
      by_cases h3 : p ≤ j ∧ j < p + (n : Int)
      · have c1 : p ≤ j ∧ j < p + ((n : Int) + 1) := by clear ih; omega
        rw [if_pos h3, if_pos c1]
      · have c1 : ¬ (p ≤ j ∧ j < p + ((n : Int) + 1)) := by clear ih; omega
        rw [if_neg h3, if_neg c1]

theorem testTone_apply (tone : Int → Int) (p e : Int) (samp : Int → samplepair_t) (j : Int) :
    testTone tone p e samp j = if p ≤ j ∧ j < e then ⟨tone j, tone j⟩ else samp j := by
  unfold testTone
  rw [testTone_nat]
  by_cases h : p ≤ j ∧ j < e
  · rw [if_pos h, if_pos (by omega)]
  · rw [if_neg h, if_neg (by omega)]

/-- C16, the code at a failing input: the test-tone loop of `TransferPaintBuffer` writes the
slots `paintedtime .. endtime - 1` of the paint buffer (the slot of index `t` for the time
`t`), not the slots `0 .. endtime - paintedtime - 1` that the transfer reads.  With the
clock at 2048 and a request up to 2049, the tone goes to slot 2048, which is beyond the 2048
slots of the buffer, slot 0 keeps what the mixer put there, and the device frame of time
2048 (frame 0 of a device of 4 frames) is silence `(0, 0)`, not the tone `(1000, 1000)`. -/
theorem test_tone_writes_absolute_slots :
    (∀ (tone : Int → Int) (p e : Int) (samp : Int → samplepair_t) (j : Int),
      testTone tone p e samp j = if p ≤ j ∧ j < e then ⟨tone j, tone j⟩ else samp j) ∧
    (testTone toneEnv.tone 2048 2049 (fun _ => ⟨0, 0⟩) 2048 = ⟨256000, 256000⟩ ∧
      PAINTBUFFER_SIZE ≤ 2048 ∧
      testTone toneEnv.tone 2048 2049 (fun _ => ⟨0, 0⟩) 0 = ⟨0, 0⟩) ∧
    Option.map (fun st => (st.paintedtime, deviceFrames st.dma 1))
        (S_PaintChannels 2 toneEnv (fun _ => ⟨7, 7⟩) 2049
          { paintedtime := 2048, channels := [], s_pendingplays := [],
            dma := { channels := 2, samples := 8, samplebits := 16, buffer := fun _ => 5 } })
      = some (2049, [(0, 0)]) := by
  refine ⟨testTone_apply, ⟨?_, ?_, ?_⟩, ?_⟩
  · rw [testTone_apply]; rfl
  · decide
  · rw [testTone_apply]; rfl
  · rfl

/-! ## The two transfer routines (C17, C13, C14) -/

theorem linearWrite_zero (size : Int) (val : Nat → Int) (start : Int) (out : Int → Int) :
    linearWrite size val start 0 out = out := rfl

theorem linearWrite_succ (size : Int) (val : Nat → Int) (start : Int) (n : Nat)
    (out : Int → Int) :
    linearWrite size val start (n + 1) out
      = store (linearWrite size val start n out) ((start + n) % size) (val n) := by
  unfold linearWrite
  rw [List.range_succ, List.foldl_append]
  rfl

theorem linearWrite_congr (size : Int) (val val' : Nat → Int) (start start' : Int) (n : Nat)
    (out : Int → Int)
    (h : ∀ m, m < n → (start + m) % size = (start' + m) % size ∧ val m = val' m) :
    linearWrite size val start n out = linearWrite size val' start' n out := by
  induction n with
  | zero => rfl
  | succ n ih =>
    rw [linearWrite_succ, linearWrite_succ, ih (fun m hm => h m (by omega)),
      (h n (by omega)).1, (h n (by omega)).2]

theorem linearWrite_add (size : Int) (val : Nat → Int) (start : Int) (a b : Nat)
    (out : Int → Int) :
    linearWrite size val start (a + b) out
      = linearWrite size (fun m => val (a + m)) (start + a) b
          (linearWrite size val start a out) := by
  induction b with
  | zero => rfl
  | succ b ih =>
    rw [← Nat.add_assoc, linearWrite_succ, linearWrite_succ, ih]
    have e : start + ((a + b : Nat) : Int) = start + (a : Int) + (b : Int) := by
      push_cast; ring
    rw [e]

theorem linearWrite_apply (size : Int) (val : Nat → Int) (start : Int) (out : Int → Int)
    (n : Nat) (hsize : (n : Int) ≤ size) :
    (∀ m, m < n → linearWrite size val start n out ((start + m) % size) = val m) ∧
    (∀ idx, (∀ m, m < n → idx ≠ (start + (m : Int)) % size) →
      linearWrite size val start n out idx = out idx) := by
  induction n with
  | zero =>
    exact ⟨fun m hm => by omega, fun idx _ => rfl⟩
  | succ n ih =>
    have ih' := ih (by push_cast at hsize; omega)
    constructor
    · intro m hm
      rw [linearWrite_succ]
      by_cases hmn : m = n
      · subst hmn
        rw [store_same]
      · have hne : (start + (m : Int)) % size ≠ (start + (n : Int)) % size := by
          apply emod_ne_of_close
          · have : m < n := by omega
            omega
          · push_cast at hsize
            omega
        rw [store_other _ _ _ _ hne]
        exact ih'.1 m (by omega)
    · intro idx hidx
      rw [linearWrite_succ, store_other _ _ _ _ (hidx n (by omega))]
      exact ih'.2 idx (fun m hm => hidx m (by omega))


theorem TransferStereo_loop16_linear (k : Nat) (samp : Int → samplepair_t) (step : Int) :
    ∀ (fuel : Nat) (count q idx : Int) (out : Int → Int),
      0 ≤ count → count.toNat < fuel → 0 ≤ idx → idx < 2 ^ k →
      TransferStereo_loop16 samp step (2 ^ k - 1) fuel count q idx out
        = some (linearWrite (2 ^ k)
            (fun m => clamp (intAt samp (q + m * step) >>> (8 : Nat)) INT16_MIN INT16_MAX)
            idx count.toNat out) := by
  intro fuel
  induction fuel with
  | zero => intro count q idx out _ h; omega
  | succ n ih =>
    intro count q idx out hc hf h0 h1
    simp only [TransferStereo_loop16]
    by_cases hz : count ≠ 0
    · rw [if_pos hz, land_mask (idx + 1) k (by omega)]
      have hS : (0 : Int) < 2 ^ k := by positivity
      rw [ih (count - 1) (q + step) ((idx + 1) % 2 ^ k) _ (by omega) (by omega)
        (Int.emod_nonneg _ (ne_of_gt hS)) (Int.emod_lt_of_pos _ hS)]
      have hn : count.toNat = 1 + (count - 1).toNat := by omega
      rw [hn, linearWrite_add]
      congr 1
      have h1w : linearWrite (2 ^ k)
          (fun m => clamp (intAt samp (q + m * step) >>> (8 : Nat)) INT16_MIN INT16_MAX)
          idx 1 out
          = store out idx (clamp (intAt samp q >>> (8 : Nat)) INT16_MIN INT16_MAX) := by
        rw [linearWrite_succ, linearWrite_zero]
        simp only [Nat.cast_zero, add_zero, zero_mul]
        rw [Int.emod_eq_of_lt h0 h1]
      rw [h1w]
      apply linearWrite_congr
      intro m _
      constructor
      · rw [Int.emod_add_emod]
        norm_num
      · have e : q + ((1 + m : Nat) : Int) * step = q + step + (m : Int) * step := by
          push_cast; ring
        show _ = clamp (intAt samp (q + ((1 + m : Nat) : Int) * step) >>> (8 : Nat)) INT16_MIN
          INT16_MAX
        rw [e]
    · rw [if_neg hz]
      have : count = 0 := by omega
      subst this
      rfl

theorem TransferStereo_loop8_linear (k : Nat) (samp : Int → samplepair_t) (step : Int) :
    ∀ (fuel : Nat) (count q idx : Int) (out : Int → Int),
      0 ≤ count → count.toNat < fuel → 0 ≤ idx → idx < 2 ^ k →
      TransferStereo_loop8 samp step (2 ^ k - 1) fuel count q idx out
        = some (linearWrite (2 ^ k)
            (fun m => (clamp (intAt samp (q + m * step) >>> (8 : Nat)) INT16_MIN INT16_MAX
              >>> (8 : Nat)) + 128)
            idx count.toNat out) := by
  intro fuel
  induction fuel with
  | zero => intro count q idx out _ h; omega
  | succ n ih =>
    intro count q idx out hc hf h0 h1
    simp only [TransferStereo_loop8]
    by_cases hz : count ≠ 0
    · rw [if_pos hz, land_mask (idx + 1) k (by omega)]
      have hS : (0 : Int) < 2 ^ k := by positivity
      rw [ih (count - 1) (q + step) ((idx + 1) % 2 ^ k) _ (by omega) (by omega)
        (Int.emod_nonneg _ (ne_of_gt hS)) (Int.emod_lt_of_pos _ hS)]
      have hn : count.toNat = 1 + (count - 1).toNat := by omega
      rw [hn, linearWrite_add]
      congr 1
      have h1w : linearWrite (2 ^ k)
          (fun m => (clamp (intAt samp (q + m * step) >>> (8 : Nat)) INT16_MIN INT16_MAX
            >>> (8 : Nat)) + 128)
          idx 1 out
          = store out idx
              ((clamp (intAt samp q >>> (8 : Nat)) INT16_MIN INT16_MAX >>> (8 : Nat)) + 128) := by
        rw [linearWrite_succ, linearWrite_zero]
        simp only [Nat.cast_zero, add_zero, zero_mul]
        rw [Int.emod_eq_of_lt h0 h1]
      rw [h1w]
      apply linearWrite_congr
      intro m _
      constructor
      · rw [Int.emod_add_emod]
        norm_num
      · have e : q + ((1 + m : Nat) : Int) * step = q + step + (m : Int) * step := by
          push_cast; ring
        show _ = (clamp (intAt samp (q + ((1 + m : Nat) : Int) * step) >>> (8 : Nat)) INT16_MIN
          INT16_MAX >>> (8 : Nat)) + 128
        rw [e]
    · rw [if_neg hz]
      have : count = 0 := by omega
      subst this
      rfl


theorem double_emod (x c : Int) (hc : 0 < c) :
    (2 * x) % (2 * c) = 2 * (x % c) ∧ (2 * x + 1) % (2 * c) = 2 * (x % c) + 1 := by
  have h := Int.emod_add_ediv x c
  have h0 := Int.emod_nonneg x (ne_of_gt hc)
  have h1 := Int.emod_lt_of_pos x hc
  constructor
  · have e : 2 * x = 2 * (x % c) + 2 * c * (x / c) := by linarith
    rw [e, Int.add_mul_emod_self_left]
    exact Int.emod_eq_of_lt (by omega) (by omega)
  · have e : 2 * x + 1 = (2 * (x % c) + 1) + 2 * c * (x / c) := by linarith
    rw [e, Int.add_mul_emod_self_left]
    exact Int.emod_eq_of_lt (by omega) (by omega)

theorem intAt_even (samp : Int → samplepair_t) (x : Int) :
    intAt samp (2 * x) = (samp x).left ∧ intAt samp (2 * x + 1) = (samp x).right := by
  unfold intAt
  constructor
  · rw [if_pos (by omega)]
    congr 2
    omega
  · rw [if_neg (by omega)]
    congr 2
    omega

/-- A blast of `TransferStereo16` that stays inside the device buffer is a linear write of
twice as many samples. -/
theorem blast_linear (c : Int) (hc : 0 < c) (samp : Int → samplepair_t) (soff lt : Int)
    (out : Int → Int) :
    ∀ n : Nat, lt % c + n ≤ c →
      TransferStereo16_blast samp soff (n : Int) out (2 * (lt % c))
        = linearWrite (2 * c)
            (fun m => clamp (intAt samp (2 * soff + m) >>> (8 : Nat)) INT16_MIN INT16_MAX)
            (2 * lt) (2 * n) out := by
  intro n
  induction n with
  | zero => intro _; rfl
  | succ n ih =>
    intro hn
    have ih' := ih (by push_cast at hn; omega)
    simp only [TransferStereo16_blast, Int.toNat_ofNat] at ih' ⊢
    rw [List.range_succ, List.foldl_append]
    simp only [List.foldl_cons, List.foldl_nil]
    rw [ih']
    have e2 : 2 * (n + 1) = 2 * n + 1 + 1 := by ring
    rw [e2, linearWrite_succ, linearWrite_succ]
    have hmod : (lt + (n : Int)) % c = lt % c + (n : Int) :=
      emod_add_small lt n c (by omega) (by push_cast at hn; omega) hc
    have hd := double_emod (lt + (n : Int)) c hc
    have i1 : (2 * lt + ((2 * n : Nat) : Int)) % (2 * c) = 2 * (lt % c) + 2 * (n : Int) := by
      have : 2 * lt + ((2 * n : Nat) : Int) = 2 * (lt + (n : Int)) := by push_cast; ring
      rw [this, hd.1, hmod]; ring
    have i2 : (2 * lt + ((2 * n + 1 : Nat) : Int)) % (2 * c)
        = 2 * (lt % c) + 2 * (n : Int) + 1 := by
      have : 2 * lt + ((2 * n + 1 : Nat) : Int) = 2 * (lt + (n : Int)) + 1 := by
        push_cast; ring
      rw [this, hd.2, hmod]; ring
    have v1 : intAt samp (2 * soff + ((2 * n : Nat) : Int)) = (samp (soff + (n : Int))).left := by
      have : 2 * soff + ((2 * n : Nat) : Int) = 2 * (soff + (n : Int)) := by push_cast; ring
      rw [this, (intAt_even samp _).1]
    have v2 : intAt samp (2 * soff + ((2 * n + 1 : Nat) : Int))
        = (samp (soff + (n : Int))).right := by
      have : 2 * soff + ((2 * n + 1 : Nat) : Int) = 2 * (soff + (n : Int)) + 1 := by
        push_cast; ring
      rw [this, (intAt_even samp _).2]
    simp only [i1, i2, v1, v2]

/-- The loop of `TransferStereo16` on a device of `2 ^ k` frames is the linear write of the
`2 (e - lt)` samples of the range. -/
theorem TransferStereo16_loop_linear (k : Nat) (samp : Int → samplepair_t) (e : Int) :
    ∀ (fuel : Nat) (lt soff : Int) (out : Int → Int),
      0 ≤ lt → (e - lt).toNat < fuel →
      TransferStereo16_loop (2 * 2 ^ k) samp e fuel lt soff out
        = some (linearWrite (2 * 2 ^ k)
            (fun m => clamp (intAt samp (2 * soff + m) >>> (8 : Nat)) INT16_MIN INT16_MAX)
            (2 * lt) (2 * (e - lt).toNat) out) := by
  have hC : (0 : Int) < 2 ^ k := by positivity
  intro fuel
  induction fuel with
  | zero => intro lt soff out _ h; omega
  | succ n ih =>
    intro lt soff out hlt hfuel
    simp only [TransferStereo16_loop]
    by_cases hc : lt < e
    · rw [if_pos hc, shiftRight_one_double, land_mask lt k hlt, shiftLeft_one]
      generalize hC' : (2 : Int) ^ k = C at hC ih ⊢
      have hm0 : 0 ≤ lt % C := Int.emod_nonneg lt (ne_of_gt hC)
      have hm1 : lt % C < C := Int.emod_lt_of_pos lt hC
      generalize hcount : (if lt + (C - lt % C) > e then e - lt else C - lt % C) = count
      have hcnt : 0 < count ∧ count ≤ C - lt % C ∧ lt + count ≤ e := by
        rw [← hcount]; split_ifs with hx <;> omega
      obtain ⟨cn, rfl⟩ := Int.eq_ofNat_of_zero_le (le_of_lt hcnt.1)
      rw [Int.toNat_ofNat, ih (lt + (cn : Int)) (soff + (cn : Int)) _ (by omega) (by omega),
        blast_linear C hC samp soff lt out cn (by omega)]
      congr 1
      have hn : 2 * (e - lt).toNat = 2 * cn + 2 * (e - (lt + (cn : Int))).toNat := by omega
      rw [hn, linearWrite_add]
      apply linearWrite_congr
      intro m _
      constructor
      · congr 1
        push_cast
        ring
      · show clamp (intAt samp (2 * (soff + (cn : Int)) + (m : Int)) >>> (8 : Nat)) INT16_MIN
          INT16_MAX = clamp (intAt samp (2 * soff + ((2 * cn + m : Nat) : Int)) >>> (8 : Nat))
          INT16_MIN INT16_MAX
        have : 2 * (soff + (cn : Int)) + (m : Int) = 2 * soff + ((2 * cn + m : Nat) : Int) := by
          push_cast; ring
        rw [this]
    · rw [if_neg hc]
      have : (e - lt).toNat = 0 := by omega
      rw [this]
      rfl


/-- The optimised transfer as a linear write. -/
theorem TransferStereo16_linear (k : Nat) (dma : dma_t) (samp : Int → samplepair_t)
    (p e : Int) (fuel : Nat) (hdev : dma.samples = 2 * 2 ^ k)
    (hp : 0 ≤ p) (hfuel : (e - p).toNat < fuel) :
    TransferStereo16 fuel p dma samp e
      = some (linearWrite (2 * 2 ^ k)
          (fun m => clamp (intAt samp (2 * 0 + m) >>> (8 : Nat)) INT16_MIN INT16_MAX)
          (2 * p) (2 * (e - p).toNat) dma.buffer) := by
  unfold TransferStereo16
  rw [hdev]
  exact TransferStereo16_loop_linear k samp e fuel p 0 dma.buffer hp hfuel

/-- The general transfer of a 16-bit two-channel device as a linear write. -/
theorem TransferStereo_linear (k : Nat) (dma : dma_t) (samp : Int → samplepair_t)
    (p e : Int) (fuel : Nat)
    (hbits : dma.samplebits = 16) (hchan : dma.channels = 2) (hdev : dma.samples = 2 * 2 ^ k)
    (hp : 0 ≤ p) (hpe : p ≤ e) (hfuel : 2 * (e - p).toNat < fuel) :
    TransferStereo fuel p dma samp e
      = some (linearWrite (2 ^ (k + 1))
          (fun m => clamp (intAt samp (0 + m * (3 - 2)) >>> (8 : Nat)) INT16_MIN INT16_MAX)
          ((p * 2) % 2 ^ (k + 1)) ((e - p) * 2).toNat dma.buffer) := by
  have hS : (2 : Int) * 2 ^ k = 2 ^ (k + 1) := by ring
  have hSpos : (0 : Int) < 2 ^ (k + 1) := by positivity
  unfold TransferStereo
  simp only [hbits, hchan, hdev, hS, if_true]
  rw [land_mask (p * 2) (k + 1) (by omega)]
  exact TransferStereo_loop16_linear (k + 1) samp (3 - 2) fuel ((e - p) * 2) 0
    ((p * 2) % 2 ^ (k + 1)) dma.buffer (by omega) (by omega)
    (Int.emod_nonneg _ (ne_of_gt hSpos)) (Int.emod_lt_of_pos _ hSpos)

/-- C17: for a 16-bit two-channel device whose sample count is a power of two, at least 2
(`dma.samples = 2 * 2 ^ k`), every clock `p ≥ 0`, every end `e ≥ p` and every paint buffer,
the general routine `TransferStereo` and the optimised routine `TransferStereo16` both
return, with the same device buffer. -/
theorem transfer_routines_agree (k : Nat) (dma : dma_t) (samp : Int → samplepair_t)
    (p e : Int) (fuel : Nat)
    (hbits : dma.samplebits = 16) (hchan : dma.channels = 2) (hdev : dma.samples = 2 * 2 ^ k)
    (hp : 0 ≤ p) (hpe : p ≤ e) (hfuel : 2 * (e - p).toNat < fuel) :
    ∃ out, TransferStereo fuel p dma samp e = some out ∧
      TransferStereo16 fuel p dma samp e = some out := by
  have hS : (2 : Int) * 2 ^ k = 2 ^ (k + 1) := by ring
  refine ⟨_, TransferStereo_linear k dma samp p e fuel hbits hchan hdev hp hpe hfuel, ?_⟩
  rw [TransferStereo16_linear k dma samp p e fuel hdev hp (by omega), hS]
  have hn : 2 * (e - p).toNat = ((e - p) * 2).toNat := by omega
  rw [hn]
  congr 1
  apply linearWrite_congr
  intro m _
  constructor
  · rw [Int.emod_add_emod]
    congr 1
    ring
  · show clamp (intAt samp (2 * 0 + (m : Int)) >>> (8 : Nat)) INT16_MIN INT16_MAX
      = clamp (intAt samp (0 + (m : Int) * (3 - 2)) >>> (8 : Nat)) INT16_MIN INT16_MAX
    have : (2 : Int) * 0 + (m : Int) = 0 + (m : Int) * (3 - 2) := by ring
    rw [this]

/-- Witness of `transfer_routines_agree`: a device of 4 frames (8 samples) and the range
`[6, 17)`, which laps the buffer more than twice. -/
theorem transfer_routines_agree_witness :
    ((8 : Int) = 2 * 2 ^ 2 ∧ (0 : Int) ≤ 6 ∧ (6 : Int) ≤ 17) ∧
    ∃ out, TransferStereo 23 6
          { channels := 2, samples := 8, samplebits := 16, buffer := fun _ => 0 }
          (fun i => ⟨256 * i, 256 * i + 256⟩) 17 = some out ∧
      TransferStereo16 23 6
          { channels := 2, samples := 8, samplebits := 16, buffer := fun _ => 0 }
          (fun i => ⟨256 * i, 256 * i + 256⟩) 17 = some out :=
  ⟨by decide,
    transfer_routines_agree 2
      { channels := 2, samples := 8, samplebits := 16, buffer := fun _ => 0 }
      (fun i => ⟨256 * i, 256 * i + 256⟩) 6 17 23 rfl rfl (by decide) (by decide) (by decide)
      (by decide)⟩

/-! ## Quantization around zero (C13) -/

theorem quantize_neg (a : Int) :
    (clamp ((-a) >>> (8 : Nat)) INT16_MIN INT16_MAX
        = -clamp (a >>> (8 : Nat)) INT16_MIN INT16_MAX ∨
      clamp ((-a) >>> (8 : Nat)) INT16_MIN INT16_MAX
        = -clamp (a >>> (8 : Nat)) INT16_MIN INT16_MAX - 1) ∧
    (clamp ((-a) >>> (8 : Nat)) INT16_MIN INT16_MAX
        = -clamp (a >>> (8 : Nat)) INT16_MIN INT16_MAX ↔
      (a % 256 = 0 ∧ -8388352 ≤ a ∧ a ≤ 8388352)) := by
  rw [Int.shiftRight_eq_div_pow, Int.shiftRight_eq_div_pow]
  unfold clamp INT16_MIN INT16_MAX
  norm_num
  split_ifs <;> omega

/-- C13, counterexample: the accumulated values 1 and -1 in the two sides of one slot are
stored as 0 and -1 by `TransferStereo16`, and by `TransferStereo` as well: the value stored
for `-a` is not the negation of the value stored for `a`. -/
theorem quantization_not_symmetric :
    Option.map (fun out => (out 0, out 1))
        (TransferStereo16 2 0
          { channels := 2, samples := 8, samplebits := 16, buffer := fun _ => 0 }
          (fun _ => ⟨1, -1⟩) 1) = some (0, -1) ∧
    Option.map (fun out => (out 0, out 1))
        (TransferStereo 3 0
          { channels := 2, samples := 8, samplebits := 16, buffer := fun _ => 0 }
          (fun _ => ⟨1, -1⟩) 1) = some (0, -1) ∧
    (-1 : Int) ≠ -0 := by
  refine ⟨rfl, rfl, by decide⟩

/-- C13 (as amended): quantization is a function of the accumulated value, symmetric around
zero up to the rounding of the shift and the extra negative value of the 16-bit range.  On a
16-bit two-channel device of `2 ^ k` frames, with the accumulated values `a` and `-a` in the
two sides of the slot of time `p`, `TransferStereo16` and `TransferStereo` both store
`clamp (a >> 8)` and `clamp ((-a) >> 8)`; the value stored for `-a` is the negation of the
value stored for `a` exactly when `a` is a multiple of 256 with `|a| ≤ 32767 * 256`, and is
that negation minus 1 otherwise. -/
theorem quantization_near_symmetric (k : Nat) (dma : dma_t) (samp : Int → samplepair_t)
    (p a : Int) (fuel : Nat)
    (hbits : dma.samplebits = 16) (hchan : dma.channels = 2) (hdev : dma.samples = 2 * 2 ^ k)
    (hp : 0 ≤ p) (hfuel : 2 < fuel) (hsamp : samp 0 = ⟨a, -a⟩) :
    (∃ out, TransferStereo16 fuel p dma samp (p + 1) = some out ∧
      out (2 * (p % 2 ^ k)) = clamp (a >>> (8 : Nat)) INT16_MIN INT16_MAX ∧
      out (2 * (p % 2 ^ k) + 1) = clamp ((-a) >>> (8 : Nat)) INT16_MIN INT16_MAX) ∧
    (∃ out, TransferStereo fuel p dma samp (p + 1) = some out ∧
      out (2 * (p % 2 ^ k)) = clamp (a >>> (8 : Nat)) INT16_MIN INT16_MAX ∧
      out (2 * (p % 2 ^ k) + 1) = clamp ((-a) >>> (8 : Nat)) INT16_MIN INT16_MAX) ∧
    (clamp ((-a) >>> (8 : Nat)) INT16_MIN INT16_MAX
        = -clamp (a >>> (8 : Nat)) INT16_MIN INT16_MAX ∨
      clamp ((-a) >>> (8 : Nat)) INT16_MIN INT16_MAX
        = -clamp (a >>> (8 : Nat)) INT16_MIN INT16_MAX - 1) ∧
    (clamp ((-a) >>> (8 : Nat)) INT16_MIN INT16_MAX
        = -clamp (a >>> (8 : Nat)) INT16_MIN INT16_MAX ↔
      (a % 256 = 0 ∧ -8388352 ≤ a ∧ a ≤ 8388352)) := by
  have hC : (0 : Int) < 2 ^ k := by positivity
  have hn : (p + 1 - p).toNat = 1 := by omega
  refine ⟨?_, ?_, (quantize_neg a).1, (quantize_neg a).2⟩
  · obtain ⟨r, hr, hw, _⟩ := TransferStereo16_loop_spec k samp (p + 1) fuel p 0 dma.buffer hp
      (by omega) (by omega)
    have hv := hw p (le_refl p) (by omega)
    have hz : (0 : Int) + (p - p) = 0 := by ring
    rw [hz, hsamp] at hv
    refine ⟨r, ?_, hv.1, hv.2⟩
    unfold TransferStereo16
    rw [hdev]
    exact hr
  · have hS : (2 : Int) * 2 ^ k = 2 ^ (k + 1) := by ring
    have hlin := TransferStereo_linear k dma samp p (p + 1) fuel hbits hchan hdev hp (by omega)
      (by omega)
    have hcnt : ((p + 1 - p) * 2).toNat = 2 := by omega
    rw [hcnt] at hlin
    have hap := linearWrite_apply (2 ^ (k + 1))
      (fun m => clamp (intAt samp (0 + m * (3 - 2)) >>> (8 : Nat)) INT16_MIN INT16_MAX)
      ((p * 2) % 2 ^ (k + 1)) dma.buffer 2 (by
        have : (2 : Int) ^ (k + 1) = 2 * 2 ^ k := by ring
        rw [this]; push_cast; omega)
    have hd := double_emod p (2 ^ k) hC
    have i0 : ((p * 2) % 2 ^ (k + 1) + ((0 : Nat) : Int)) % 2 ^ (k + 1) = 2 * (p % 2 ^ k) := by
      rw [Int.emod_add_emod, ← hS, ← hd.1]
      congr 1
      push_cast; ring
    have i1 : ((p * 2) % 2 ^ (k + 1) + ((1 : Nat) : Int)) % 2 ^ (k + 1)
        = 2 * (p % 2 ^ k) + 1 := by
      rw [Int.emod_add_emod, ← hS, ← hd.2]
      congr 1
      push_cast; ring
    have v0 := hap.1 0 (by omega)
    have v1 := hap.1 1 (by omega)
    rw [i0] at v0
    rw [i1] at v1
    have e0 : intAt samp (0 + ((0 : Nat) : Int) * (3 - 2)) = a := by
      have : (0 : Int) + ((0 : Nat) : Int) * (3 - 2) = 2 * 0 := by norm_num
      rw [this, (intAt_even samp 0).1, hsamp]
    have e1 : intAt samp (0 + ((1 : Nat) : Int) * (3 - 2)) = -a := by
      have : (0 : Int) + ((1 : Nat) : Int) * (3 - 2) = 2 * 0 + 1 := by norm_num
      rw [this, (intAt_even samp 0).2, hsamp]
    simp only [e0, e1] at v0 v1
    exact ⟨_, hlin, v0, v1⟩

/-- Witness of `quantization_near_symmetric`: a device of 4 frames, clock 6, the accumulated
values 300 and -300, stored as 1 and -2. -/
theorem quantization_near_symmetric_witness :
    ((8 : Int) = 2 * 2 ^ 2 ∧ (0 : Int) ≤ 6) ∧
    (∃ out, TransferStereo16 3 6
        { channels := 2, samples := 8, samplebits := 16, buffer := fun _ => 0 }
        (fun _ => ⟨300, -300⟩) (6 + 1) = some out ∧
      out (2 * (6 % 2 ^ 2)) = clamp ((300 : Int) >>> (8 : Nat)) INT16_MIN INT16_MAX ∧
      out (2 * (6 % 2 ^ 2) + 1) = clamp ((-300 : Int) >>> (8 : Nat)) INT16_MIN INT16_MAX) ∧
    (clamp ((-300 : Int) >>> (8 : Nat)) INT16_MIN INT16_MAX
        = -clamp ((300 : Int) >>> (8 : Nat)) INT16_MIN INT16_MAX ∨
      clamp ((-300 : Int) >>> (8 : Nat)) INT16_MIN INT16_MAX
        = -clamp ((300 : Int) >>> (8 : Nat)) INT16_MIN INT16_MAX - 1) := by
  have h := quantization_near_symmetric 2
    { channels := 2, samples := 8, samplebits := 16, buffer := fun _ => 0 }
    (fun _ => ⟨300, -300⟩) 6 300 3 rfl rfl (by decide) (by decide) (by decide) rfl
  exact ⟨by decide, h.1, h.2.2.1⟩

/-! ## The 8-bit device (C14) -/

theorem byte_bounds (a : Int) :
    0 ≤ (clamp (a >>> (8 : Nat)) INT16_MIN INT16_MAX >>> (8 : Nat)) + 128 ∧
    (clamp (a >>> (8 : Nat)) INT16_MIN INT16_MAX >>> (8 : Nat)) + 128 ≤ 255 := by
  have h := clamp_bounds (a >>> (8 : Nat))
  generalize clamp (a >>> (8 : Nat)) INT16_MIN INT16_MAX = c at h
  rw [Int.shiftRight_eq_div_pow]
  norm_num
  omega

/-- C14: the general transfer path with an 8-bit device of `2 ^ k` samples.  For a range
`[p, e)` whose `(e - p) * channels` samples fit in the buffer, `TransferStereo` returns, and
the byte stored for the `m`-th sample, at index `(p * channels + m) mod 2 ^ k`, is
`(clamp (a >> 8, -32768, 32767) >> 8) + 128`, where `a` is the accumulated value read (the
`int` of index `m * (3 - channels)` of the paint buffer).  For every accumulated value this
byte lies in `[0, 255]`, and the accumulated value 0 (silence) is stored as 128. -/
theorem transfer_8bit_recentres (k : Nat) (dma : dma_t) (samp : Int → samplepair_t)
    (p e : Int) (fuel : Nat)
    (hbits : dma.samplebits = 8) (hdev : dma.samples = 2 ^ k) (hc0 : 0 ≤ dma.channels)
    (hp : 0 ≤ p) (hpe : p ≤ e) (hcap : (e - p) * dma.channels ≤ 2 ^ k)
    (hfuel : ((e - p) * dma.channels).toNat < fuel) :
    (∃ out, TransferStereo fuel p dma samp e = some out ∧
      ∀ m : Nat, (m : Int) < (e - p) * dma.channels →
        out ((p * dma.channels + m) % 2 ^ k)
          = (clamp (intAt samp (m * (3 - dma.channels)) >>> (8 : Nat)) (-32768) 32767
              >>> (8 : Nat)) + 128 ∧
        0 ≤ out ((p * dma.channels + m) % 2 ^ k) ∧
        out ((p * dma.channels + m) % 2 ^ k) ≤ 255) ∧
    (∀ a : Int,
      0 ≤ (clamp (a >>> (8 : Nat)) (-32768) 32767 >>> (8 : Nat)) + 128 ∧
      (clamp (a >>> (8 : Nat)) (-32768) 32767 >>> (8 : Nat)) + 128 ≤ 255) ∧
    (clamp ((0 : Int) >>> (8 : Nat)) (-32768) 32767 >>> (8 : Nat)) + 128 = 128 := by
  have hS : (0 : Int) < 2 ^ k := by positivity
  have hcnt : 0 ≤ (e - p) * dma.channels := mul_nonneg (by omega) hc0
  refine ⟨?_, byte_bounds, by decide⟩
  have hlin : TransferStereo fuel p dma samp e
      = some (linearWrite (2 ^ k)
          (fun m => (clamp (intAt samp (0 + m * (3 - dma.channels)) >>> (8 : Nat)) INT16_MIN
            INT16_MAX >>> (8 : Nat)) + 128)
          ((p * dma.channels) % 2 ^ k) ((e - p) * dma.channels).toNat dma.buffer) := by
    unfold TransferStereo
    simp only [hbits, hdev]
    rw [if_neg (by decide), if_pos trivial, land_mask (p * dma.channels) k (mul_nonneg hp hc0)]
    exact TransferStereo_loop8_linear k samp (3 - dma.channels) fuel ((e - p) * dma.channels) 0
      ((p * dma.channels) % 2 ^ k) dma.buffer hcnt hfuel
      (Int.emod_nonneg _ (ne_of_gt hS)) (Int.emod_lt_of_pos _ hS)
  refine ⟨_, hlin, ?_⟩
  intro m hm
  have hap := (linearWrite_apply (2 ^ k)
    (fun m => (clamp (intAt samp (0 + m * (3 - dma.channels)) >>> (8 : Nat)) INT16_MIN
      INT16_MAX >>> (8 : Nat)) + 128)
    ((p * dma.channels) % 2 ^ k) dma.buffer ((e - p) * dma.channels).toNat
    (by rw [Int.toNat_of_nonneg hcnt]; exact hcap)).1 m (by omega)
  rw [Int.emod_add_emod] at hap
  rw [hap]
  simp only [zero_add]
  exact ⟨rfl, byte_bounds _⟩

/-- Witness of `transfer_8bit_recentres`: an 8-bit mono device of 8 samples, the range
`[6, 9)`. -/
theorem transfer_8bit_recentres_witness :
    ((8 : Int) = 2 ^ 3 ∧ (0 : Int) ≤ 1 ∧ (0 : Int) ≤ 6 ∧ (6 : Int) ≤ 9 ∧
      ((9 : Int) - 6) * 1 ≤ 2 ^ 3) ∧
    ∃ out, TransferStereo 4 6
        { channels := 1, samples := 8, samplebits := 8, buffer := fun _ => 0 }
        (fun i => ⟨25600 * i, 0⟩) 9 = some out ∧
      ∀ m : Nat, (m : Int) < (9 - 6) * 1 →
        out ((6 * 1 + m) % 2 ^ 3)
          = (clamp (intAt (fun i => ⟨25600 * i, 0⟩) (m * (3 - 1)) >>> (8 : Nat)) (-32768) 32767
              >>> (8 : Nat)) + 128 ∧
        0 ≤ out ((6 * 1 + m) % 2 ^ 3) ∧ out ((6 * 1 + m) % 2 ^ 3) ≤ 255 :=
  ⟨by decide,
    (transfer_8bit_recentres 3
      { channels := 1, samples := 8, samplebits := 8, buffer := fun _ => 0 }
      (fun i => ⟨25600 * i, 0⟩) 6 9 4 rfl (by decide) (by decide) (by decide) (by decide)
      (by decide) (by decide)).1⟩

/-! ## The paint buffer stays inside its capacity (C15) -/

theorem paintChannel_step_frame (env : env_t) (p e : Int) (ch : channel_t) (lt : Int)
    (pb : Int → samplepair_t) (hlt : p ≤ lt) :
    (∀ r, paintChannel_step env p e ch lt pb = .exit r → r.2 = pb) ∧
    (∀ r, paintChannel_step env p e ch lt pb = .again r →
      p ≤ r.2.1 ∧ ∀ j, ¬ (0 ≤ j ∧ j < e - p) → r.2.2 j = pb j) := by
  unfold paintChannel_step
  by_cases h1 : lt < e
  · rw [if_pos h1]
    cases hs : ch.sfx with
    | none =>
      simp only []
      exact ⟨fun r hr => by cases hr; rfl, fun r hr => by cases hr⟩
    | some s =>
      simp only []
      by_cases h2 : ch.leftvol = 0 ∧ ch.rightvol = 0
      · rw [if_pos h2]
        exact ⟨fun r hr => by cases hr; rfl, fun r hr => by cases hr⟩
      · rw [if_neg h2]
        cases hl : env.S_LoadSound s with
        | none =>
          simp only []
          exact ⟨fun r hr => by cases hr; rfl, fun r hr => by cases hr⟩
        | some sc =>
          simp only []
          generalize hcount : (if ch.end_ - lt < e - lt then ch.end_ - lt else e - lt) = count
          have hcnt : count ≤ e - lt := by
            rw [← hcount]; split_ifs <;> omega
          by_cases h3 : count > 0
          · rw [if_pos h3]
            refine ⟨fun r hr => (by cases hr), fun r hr => ?_⟩
            cases hr
            simp only []
            refine ⟨by omega, fun j hj => ?_⟩
            obtain ⟨f, g, hpf⟩ := paintfuncs_apply ((sc.width - 1) * 2 + (sc.channels - 1)) env
              ch sc count
            rw [hpf, if_neg (by omega)]
          · rw [if_neg h3]
            refine ⟨fun r hr => (by cases hr), fun r hr => ?_⟩
            cases hr
            exact ⟨hlt, fun j _ => rfl⟩
  · rw [if_neg h1]
    exact ⟨fun r hr => by cases hr; rfl, fun r hr => by cases hr⟩

theorem paintChannel_frame (env : env_t) (p e : Int) :
    ∀ (fuel : Nat) (ch : channel_t) (lt : Int) (pb : Int → samplepair_t)
      (r : channel_t × (Int → samplepair_t)),
      p ≤ lt → paintChannel env p e fuel ch lt pb = some r →
      ∀ j, ¬ (0 ≤ j ∧ j < e - p) → r.2 j = pb j := by
  intro fuel
  induction fuel with
  | zero => intro ch lt pb r _ h; simp [paintChannel] at h
  | succ n ih =>
    intro ch lt pb r hlt h j hj
    have hf := paintChannel_step_frame env p e ch lt pb hlt
    simp only [paintChannel] at h
    cases hs : paintChannel_step env p e ch lt pb with
    | exit x =>
      rw [hs] at h
      cases h
      rw [hf.1 _ hs]
    | again x =>
      obtain ⟨ch', lt', pb'⟩ := x
      rw [hs] at h
      have h2 := hf.2 _ hs
      rw [ih ch' lt' pb' r h2.1 h j hj]
      exact h2.2 j hj

theorem paintAll_frame (env : env_t) (p e : Int) (fuel : Nat) :
    ∀ (chs : List channel_t) (pb : Int → samplepair_t)
      (r : List channel_t × (Int → samplepair_t)),
      paintAll env p e fuel chs pb = some r →
      ∀ j, ¬ (0 ≤ j ∧ j < e - p) → r.2 j = pb j := by
  intro chs
  induction chs with
  | nil =>
    intro pb r h j _
    simp only [paintAll, Option.some.injEq] at h
    subst h
    rfl
  | cons c rest ih =>
    intro pb r h j hj
    simp only [paintAll] at h
    cases h1 : paintChannel env p e fuel c p pb with
    | none => rw [h1] at h; simp at h
    | some x =>
      obtain ⟨c', pb'⟩ := x
      rw [h1] at h
      simp only at h
      cases h2 : paintAll env p e fuel rest pb' with
      | none => rw [h2] at h; simp at h
      | some y =>
        obtain ⟨rest', pb''⟩ := y
        rw [h2] at h
        simp only [Option.some.injEq] at h
        subst h
        have := ih pb' _ h2 j hj
        simp only at this ⊢
        rw [this]
        exact paintChannel_frame env p e fuel c p pb _ (le_refl p) h1 j hj

theorem blast_ext (samp1 samp2 : Int → samplepair_t) (soff count : Int) (out : Int → Int)
    (ooff : Int)
    (h : ∀ j, soff ≤ j → j < soff + count → samp1 j = samp2 j) :
    TransferStereo16_blast samp1 soff count out ooff
      = TransferStereo16_blast samp2 soff count out ooff := by
  unfold TransferStereo16_blast
  apply List.foldl_ext
  intro b i hi
  have hi' : i < count.toNat := List.mem_range.mp hi
  rw [h (soff + (i : Int)) (by omega) (by omega)]

theorem TransferStereo16_loop_ext (samples : Int) (samp1 samp2 : Int → samplepair_t)
    (e : Int) (hs : 2 ≤ samples) :
    ∀ (fuel : Nat) (lt soff : Int) (b : Int → Int),
      0 ≤ lt → (∀ j, soff ≤ j → j < soff + (e - lt) → samp1 j = samp2 j) →
      TransferStereo16_loop samples samp1 e fuel lt soff b
        = TransferStereo16_loop samples samp2 e fuel lt soff b := by
  have hfr : 1 ≤ samples >>> (1 : Nat) := by
    rw [Int.shiftRight_eq_div_pow]
    norm_num
    omega
  intro fuel
  induction fuel with
  | zero => intro lt soff b _ _; rfl
  | succ n ih =>
    intro lt soff b hlt hag
    simp only [TransferStereo16_loop]
    by_cases hc : lt < e
    · rw [if_pos hc, if_pos hc]
      have hb := land_bounds lt (samples >>> (1 : Nat) - 1) hlt (by omega)
      generalize Int.land lt (samples >>> (1 : Nat) - 1) = lpos at hb ⊢
      generalize samples >>> (1 : Nat) = frames at hb hfr ⊢
      generalize hcount : (if lt + (frames - lpos) > e then e - lt else frames - lpos) = count
      have hcnt : 0 < count ∧ lt + count ≤ e := by
        rw [← hcount]; split_ifs <;> omega
      rw [blast_ext samp1 samp2 soff count b _ (fun j h1 h2 => hag j h1 (by omega))]
      exact ih _ _ _ (by omega) (fun j h1 h2 => hag j (by omega) (by omega))
    · rw [if_neg hc, if_neg hc]

theorem intAt_ext (samp1 samp2 : Int → samplepair_t) (n q : Int)
    (h : ∀ j, 0 ≤ j → j < n → samp1 j = samp2 j) (h0 : 0 ≤ q) (h1 : q < 2 * n) :
    intAt samp1 q = intAt samp2 q := by
  unfold intAt
  rw [h (q / 2) (by omega) (by omega)]

theorem TransferStereo_loop16_ext (samp1 samp2 : Int → samplepair_t) (n step mask : Int)
    (hstep : step = 1 ∨ step = 2)
    (h : ∀ j, 0 ≤ j → j < n → samp1 j = samp2 j) :
    ∀ (fuel : Nat) (count q idx : Int) (out : Int → Int),
      0 ≤ count → 0 ≤ q → q + count * step ≤ 2 * n →
      TransferStereo_loop16 samp1 step mask fuel count q idx out
        = TransferStereo_loop16 samp2 step mask fuel count q idx out := by
  intro fuel
  induction fuel with
  | zero => intro count q idx out _ _ _; rfl
  | succ m ih =>
    intro count q idx out hc hq hb
    simp only [TransferStereo_loop16]
    by_cases hz : count ≠ 0
    · rw [if_pos hz, if_pos hz]
      have hq2 : q < 2 * n ∧ q + step + (count - 1) * step ≤ 2 * n := by
        rcases hstep with rfl | rfl <;> constructor <;> omega
      rw [intAt_ext samp1 samp2 n q h hq hq2.1]
      exact ih _ _ _ _ (by omega) (by rcases hstep with rfl | rfl <;> omega) hq2.2
    · rw [if_neg hz, if_neg hz]

theorem TransferStereo_loop8_ext (samp1 samp2 : Int → samplepair_t) (n step mask : Int)
    (hstep : step = 1 ∨ step = 2)
    (h : ∀ j, 0 ≤ j → j < n → samp1 j = samp2 j) :
    ∀ (fuel : Nat) (count q idx : Int) (out : Int → Int),
      0 ≤ count → 0 ≤ q → q + count * step ≤ 2 * n →
      TransferStereo_loop8 samp1 step mask fuel count q idx out
        = TransferStereo_loop8 samp2 step mask fuel count q idx out := by
  intro fuel
  induction fuel with
  | zero => intro count q idx out _ _ _; rfl
  | succ m ih =>
    intro count q idx out hc hq hb
    simp only [TransferStereo_loop8]
    by_cases hz : count ≠ 0
    · rw [if_pos hz, if_pos hz]
      have hq2 : q < 2 * n ∧ q + step + (count - 1) * step ≤ 2 * n := by
        rcases hstep with rfl | rfl <;> constructor <;> omega
      rw [intAt_ext samp1 samp2 n q h hq hq2.1]
      exact ih _ _ _ _ (by omega) (by rcases hstep with rfl | rfl <;> omega) hq2.2
    · rw [if_neg hz, if_neg hz]

/-- With the test tone off, the transfer reads the slots `0 .. e - p - 1` of the paint buffer
only: two paint buffers that agree there are transferred to the same device buffer. -/
theorem TransferPaintBuffer_ext (env : env_t) (p e : Int) (dma : dma_t)
    (samp1 samp2 : Int → samplepair_t) (fuel : Nat)
    (htest : env.s_testsound = false) (hp : 0 ≤ p) (hpe : p ≤ e)
    (hs : 2 ≤ dma.samples) (hch : dma.channels = 1 ∨ dma.channels = 2)
    (h : ∀ j, 0 ≤ j → j < e - p → samp1 j = samp2 j) :
    TransferPaintBuffer fuel env p dma samp1 e = TransferPaintBuffer fuel env p dma samp2 e := by
  simp only [TransferPaintBuffer, htest, Bool.false_eq_true, if_false, TransferStereo16,
    TransferStereo]
  by_cases h1 : dma.samplebits = 16 ∧ dma.channels = 2
  · rw [if_pos h1, if_pos h1]
    exact TransferStereo16_loop_ext dma.samples samp1 samp2 e hs fuel p 0 dma.buffer hp
      (fun j h1 h2 => h j h1 (by omega))
  · rw [if_neg h1, if_neg h1]
    have hstep : 3 - dma.channels = 1 ∨ 3 - dma.channels = 2 := by omega
    have hcount : 0 ≤ (e - p) * dma.channels ∧
        0 + (e - p) * dma.channels * (3 - dma.channels) ≤ 2 * (e - p) := by
      rcases hch with hc | hc <;> rw [hc] <;> constructor <;> omega
    by_cases h2 : dma.samplebits = 16
    · rw [if_pos h2, if_pos h2]
      exact TransferStereo_loop16_ext samp1 samp2 (e - p) _ _ hstep h fuel _ 0 _ _ hcount.1
        (le_refl 0) hcount.2
    · rw [if_neg h2, if_neg h2]
      by_cases h3 : dma.samplebits = 8
      · rw [if_pos h3, if_pos h3]
        exact TransferStereo_loop8_ext samp1 samp2 (e - p) _ _ hstep h fuel _ 0 _ _ hcount.1
          (le_refl 0) hcount.2
      · rw [if_neg h3, if_neg h3]

/-! ## Reads of the resources stay in bounds (C18) -/

theorem paintfuncs_same (env : env_t) (ch : channel_t) (a b : sfxcache_t) (count : Int)
    (pb : Int → samplepair_t) (off : Int) (hsf : sameFrames a b)
    (hwf : (a.width = 1 ∨ a.width = 2) ∧ (a.channels = 1 ∨ a.channels = 2))
    (hpos : 0 ≤ ch.pos) (hcnt : ch.pos + count ≤ a.length) :
    paintfuncs ((b.width - 1) * 2 + (b.channels - 1)) env ch b count pb off
      = paintfuncs ((a.width - 1) * 2 + (a.channels - 1)) env ch a count pb off := by
  obtain ⟨_, _, hw, hc, hdata⟩ := hsf
  rw [← hw, ← hc]
  rcases hwf with ⟨hw1 | hw1, hc1 | hc1⟩ <;> rw [hc1] at hdata <;> rw [hw1, hc1] <;>
    simp only [paintfuncs] <;> norm_num
  · unfold PaintMono8
    apply List.foldl_ext
    intro s i hi
    have hi' : i < count.toNat := List.mem_range.mp hi
    rw [hdata (ch.pos + (i : Int)) (by omega) (by omega)]
  · unfold PaintStereo8
    apply List.foldl_ext
    intro s i hi
    have hi' : i < count.toNat := List.mem_range.mp hi
    rw [hdata (ch.pos * 2 + 2 * (i : Int)) (by omega) (by omega),
      hdata (ch.pos * 2 + 2 * (i : Int) + 1) (by omega) (by omega)]
  · unfold PaintMono16
    apply List.foldl_ext
    intro s i hi
    have hi' : i < count.toNat := List.mem_range.mp hi
    rw [hdata (ch.pos + (i : Int)) (by omega) (by omega)]
  · unfold PaintStereo16
    apply List.foldl_ext
    intro s i hi
    have hi' : i < count.toNat := List.mem_range.mp hi
    rw [hdata (ch.pos * 2 + 2 * (i : Int)) (by omega) (by omega),
      hdata (ch.pos * 2 + 2 * (i : Int) + 1) (by omega) (by omega)]

theorem restart_same (ch : channel_t) (a b : sfxcache_t) (lt : Int) (hsf : sameFrames a b) :
    restart ch b lt = restart ch a lt := by
  obtain ⟨hl, hls, _, _, _⟩ := hsf
  unfold restart
  rw [hl, hls]

theorem dataLeft_of (env : env_t) (t : Int) (ch : channel_t) (s : Nat) (a : sfxcache_t)
    (hload : env.S_LoadSound s = some a)
    (h : ch.sfx = none ∨ (ch.sfx = some s ∧ 0 ≤ ch.pos ∧ ch.end_ - t ≤ a.length - ch.pos)) :
    dataLeft env t ch := by
  intro s' sc' hs' hl'
  rcases h with h | ⟨h1, h2, h3⟩
  · rw [h] at hs'; cases hs'
  · rw [h1] at hs'
    cases hs'
    rw [hload] at hl'
    cases hl'
    exact ⟨h2, h3⟩

theorem dataLeft_later (env : env_t) (t t' : Int) (ch : channel_t) (h : dataLeft env t ch)
    (hle : t ≤ t') : dataLeft env t' ch := by
  intro s sc hs hl
  have := h s sc hs hl
  exact ⟨this.1, by omega⟩

theorem restart_dataLeft (env : env_t) (lt : Int) (ch : channel_t) (s : Nat) (a : sfxcache_t)
    (hload : env.S_LoadSound s = some a) (hsfx : ch.sfx = some s) (hpos : 0 ≤ ch.pos)
    (hleft : ch.end_ - lt ≤ a.length - ch.pos) :
    dataLeft env lt (restart ch a lt) := by
  apply dataLeft_of env lt _ s a hload
  unfold restart
  split_ifs
  · right; exact ⟨hsfx, le_refl 0, by simp⟩
  · right; exact ⟨hsfx, by simpa using ‹a.loopstart ≥ 0›, by simp; omega⟩
  · left; rfl
  · right; exact ⟨hsfx, hpos, hleft⟩

theorem paintChannel_step_same (env : env_t) (l2 : Nat → Option sfxcache_t) (p e : Int)
    (hwf : ∀ s sc, env.S_LoadSound s = some sc →
      (sc.width = 1 ∨ sc.width = 2) ∧ (sc.channels = 1 ∨ sc.channels = 2))
    (hsame : sameLookup env.S_LoadSound l2) (ch : channel_t) (lt : Int)
    (pb : Int → samplepair_t) (hinv : dataLeft env lt ch) :
    paintChannel_step { env with S_LoadSound := l2 } p e ch lt pb
        = paintChannel_step env p e ch lt pb ∧
      (∀ r, paintChannel_step env p e ch lt pb = .exit r → r.1 = ch) ∧
      (∀ r, paintChannel_step env p e ch lt pb = .again r →
        dataLeft env r.2.1 r.1 ∧ (lt ≤ e → r.2.1 ≤ e)) := by
  obtain ⟨sfx, lv, rv, en, pos, mv, au⟩ := ch
  unfold paintChannel_step
  by_cases hlt : lt < e
  swap
  · rw [if_neg hlt, if_neg hlt]
    refine ⟨rfl, fun r hr => ?_, fun r hr => ?_⟩
    · cases hr; rfl
    · cases hr
  rw [if_pos hlt, if_pos hlt]
  cases sfx with
  | none =>
    refine ⟨rfl, fun r hr => ?_, fun r hr => ?_⟩
    · cases hr; rfl
    · cases hr
  | some s =>
    by_cases hz : lv = 0 ∧ rv = 0
    · refine ⟨?_, fun r hr => ?_, fun r hr => ?_⟩
      · simp only [if_pos hz]
      · simp only [if_pos hz] at hr
        cases hr; rfl
      · simp only [if_pos hz] at hr
        cases hr
    rcases hsame s with ⟨h1, h2⟩ | ⟨a, b, h1, h2, hsf⟩
    · refine ⟨?_, fun r hr => ?_, fun r hr => ?_⟩
      · simp only [if_neg hz, h1, h2]
      · simp only [if_neg hz, h1] at hr
        cases hr; rfl
      · simp only [if_neg hz, h1] at hr
        cases hr
    have hd := hinv s a rfl h1
    simp only [] at hd
    have hcnt : (if en - lt < e - lt then en - lt else e - lt) ≤ en - lt := by
      split_ifs <;> omega
    have hcnt2 : (if en - lt < e - lt then en - lt else e - lt) ≤ e - lt := by
      split_ifs <;> omega
    by_cases hc : (if en - lt < e - lt then en - lt else e - lt) > 0
    · refine ⟨?_, fun r hr => ?_, fun r hr => ?_⟩
      · simp only [if_neg hz, h1, h2, if_pos hc]
        rw [restart_same _ a b _ hsf]
        have := paintfuncs_same env ⟨some s, lv, rv, en, pos, mv, au⟩ a b
          (if en - lt < e - lt then en - lt else e - lt) pb (lt - p) hsf (hwf s a h1)
          hd.1 (by show pos + _ ≤ _; omega)
        rw [← this]
        rfl
      · simp only [if_neg hz, h1, if_pos hc] at hr
        cases hr
      · simp only [if_neg hz, h1, if_pos hc] at hr
        cases hr
        refine ⟨restart_dataLeft env _ _ s a h1 rfl ?_ ?_, fun _ => ?_⟩
        · show 0 ≤ pos + _
          omega
        · show en - (lt + _) ≤ a.length - (pos + _)
          omega
        · show lt + _ ≤ e
          omega
    · refine ⟨?_, fun r hr => ?_, fun r hr => ?_⟩
      · simp only [if_neg hz, h1, h2, if_neg hc]
        rw [restart_same _ a b _ hsf]
      · simp only [if_neg hz, h1, if_neg hc] at hr
        cases hr
      · simp only [if_neg hz, h1, if_neg hc] at hr
        cases hr
        exact ⟨restart_dataLeft env _ _ s a h1 rfl hd.1 hd.2, fun h => h⟩

theorem paintChannel_same (env : env_t) (l2 : Nat → Option sfxcache_t) (p e : Int)
    (hwf : ∀ s sc, env.S_LoadSound s = some sc →
      (sc.width = 1 ∨ sc.width = 2) ∧ (sc.channels = 1 ∨ sc.channels = 2))
    (hsame : sameLookup env.S_LoadSound l2) (fuel : Nat) :
    ∀ (ch : channel_t) (lt : Int) (pb : Int → samplepair_t), dataLeft env lt ch → lt ≤ e →
      paintChannel { env with S_LoadSound := l2 } p e fuel ch lt pb
          = paintChannel env p e fuel ch lt pb ∧
        ∀ r, paintChannel env p e fuel ch lt pb = some r → dataLeft env e r.1 := by
  induction fuel with
  | zero =>
    intro ch lt pb _ _
    exact ⟨rfl, fun r hr => by cases hr⟩
  | succ n ih =>
    intro ch lt pb hinv hle
    obtain ⟨h1, h2, h3⟩ := paintChannel_step_same env l2 p e hwf hsame ch lt pb hinv
    unfold paintChannel
    rw [h1]
    cases hstep : paintChannel_step env p e ch lt pb with
    | exit r =>
      refine ⟨rfl, fun r' hr' => ?_⟩
      cases hr'
      rw [h2 r hstep]
      exact dataLeft_later env lt e ch hinv hle
    | again r =>
      obtain ⟨ch', lt', pb'⟩ := r
      have := h3 _ hstep
      exact ih ch' lt' pb' this.1 (this.2 hle)

theorem paintAll_same (env : env_t) (l2 : Nat → Option sfxcache_t) (p e : Int)
    (hwf : ∀ s sc, env.S_LoadSound s = some sc →
      (sc.width = 1 ∨ sc.width = 2) ∧ (sc.channels = 1 ∨ sc.channels = 2))
    (hsame : sameLookup env.S_LoadSound l2) (hpe : p ≤ e) (fuel : Nat) :
    ∀ (chs : List channel_t) (pb : Int → samplepair_t), (∀ ch ∈ chs, dataLeft env p ch) →
      paintAll { env with S_LoadSound := l2 } p e fuel chs pb = paintAll env p e fuel chs pb ∧
        ∀ r, paintAll env p e fuel chs pb = some r → ∀ ch ∈ r.1, dataLeft env e ch := by
  intro chs
  induction chs with
  | nil =>
    intro pb _
    refine ⟨rfl, fun r hr => ?_⟩
    cases hr
    intro ch hch
    cases hch
  | cons c rest ih =>
    intro pb hinv
    obtain ⟨h1, h2⟩ := paintChannel_same env l2 p e hwf hsame fuel c p pb
      (hinv c (List.mem_cons_self _ _)) hpe
    unfold paintAll
    rw [h1]
    cases hc : paintChannel env p e fuel c p pb with
    | none => exact ⟨rfl, fun r hr => by cases hr⟩
    | some r1 =>
      obtain ⟨c', pb'⟩ := r1
      obtain ⟨h3, h4⟩ := ih pb' (fun ch hch => hinv ch (List.mem_cons_of_mem _ hch))
      simp only []
      rw [h3]
      cases hr : paintAll env p e fuel rest pb' with
      | none => exact ⟨rfl, fun r hr => by cases hr⟩
      | some r2 =>
        obtain ⟨rest', pb''⟩ := r2
        refine ⟨rfl, fun r hr' => ?_⟩
        cases hr'
        intro ch hch
        rcases List.mem_cons.mp hch with h | h
        · rw [h]; exact h2 _ hc
        · exact h4 _ hr ch h

theorem startPlaysounds_same (env : env_t) (l2 : Nat → Option sfxcache_t) (p : Int) :
    ∀ (q : List playsound_t) (chs : List channel_t) (e : Int),
      startPlaysounds { env with S_LoadSound := l2 } p q chs e = startPlaysounds env p q chs e := by
  intro q
  induction q with
  | nil => intro chs e; rfl
  | cons ps rest ih =>
    intro chs e
    simp only [startPlaysounds]
    by_cases h : ps.begin ≤ p
    · rw [if_pos h, if_pos h, ih]
    · rw [if_neg h, if_neg h]

theorem startPlaysounds_dataLeft (env : env_t) (p : Int)
    (hbind : ∀ (ps : playsound_t) (t : Int) (chs : List channel_t),
      (∀ ch ∈ chs, dataLeft env t ch) → ∀ ch ∈ env.bind ps t chs, dataLeft env t ch) :
    ∀ (q : List playsound_t) (chs : List channel_t) (e : Int),
      (∀ ch ∈ chs, dataLeft env p ch) →
      ∀ ch ∈ (startPlaysounds env p q chs e).2.1, dataLeft env p ch := by
  intro q
  induction q with
  | nil => intro chs e h; exact h
  | cons ps rest ih =>
    intro chs e h
    simp only [startPlaysounds]
    by_cases h1 : ps.begin ≤ p
    · rw [if_pos h1]
      exact ih _ e (hbind ps p chs h)
    · rw [if_neg h1]
      exact h

theorem S_PaintChannels_round_same (env : env_t) (l2 : Nat → Option sfxcache_t)
    (hwf : ∀ s sc, env.S_LoadSound s = some sc →
      (sc.width = 1 ∨ sc.width = 2) ∧ (sc.channels = 1 ∨ sc.channels = 2))
    (hsame : sameLookup env.S_LoadSound l2)
    (hbind : ∀ (ps : playsound_t) (t : Int) (chs : List channel_t),
      (∀ ch ∈ chs, dataLeft env t ch) → ∀ ch ∈ env.bind ps t chs, dataLeft env t ch)
    (endtime : Int) (inner : Nat) (pb : Int → samplepair_t) (st : mixer_t)
    (hlt : st.paintedtime < endtime) (hinv : ∀ ch ∈ st.channels, dataLeft env st.paintedtime ch) :
    S_PaintChannels_round { env with S_LoadSound := l2 } endtime inner pb st
        = S_PaintChannels_round env endtime inner pb st ∧
      ∀ r, S_PaintChannels_round env endtime inner pb st = some r →
        ∀ ch ∈ r.2.channels, dataLeft env r.2.paintedtime ch := by
  have hE : st.paintedtime < (if endtime - st.paintedtime > PAINTBUFFER_SIZE
      then st.paintedtime + PAINTBUFFER_SIZE else endtime) := by
    unfold PAINTBUFFER_SIZE
    split_ifs <;> omega
  have hend := (startPlaysounds_end env st.paintedtime st.s_pendingplays st.channels _ hE).1
  have hchs := startPlaysounds_dataLeft env st.paintedtime hbind st.s_pendingplays st.channels
    (if endtime - st.paintedtime > PAINTBUFFER_SIZE
      then st.paintedtime + PAINTBUFFER_SIZE else endtime) hinv
  unfold S_PaintChannels_round
  simp only []
  rw [startPlaysounds_same]
  revert hend hchs
  generalize startPlaysounds env st.paintedtime st.s_pendingplays st.channels
    (if endtime - st.paintedtime > PAINTBUFFER_SIZE
      then st.paintedtime + PAINTBUFFER_SIZE else endtime) = sp
  obtain ⟨q', chs', end_⟩ := sp
  intro hend hchs
  simp only [] at hend hchs ⊢
  obtain ⟨h1, h2⟩ := paintAll_same env l2 st.paintedtime end_ hwf hsame (le_of_lt hend) inner
    chs' (clearBuffer pb (end_ - st.paintedtime)) hchs
  rw [h1]
  cases hp : paintAll env st.paintedtime end_ inner chs'
      (clearBuffer pb (end_ - st.paintedtime)) with
  | none => exact ⟨rfl, fun r hr => by cases hr⟩
  | some r1 =>
    obtain ⟨chs'', pb'⟩ := r1
    simp only []
    have ht : TransferPaintBuffer inner { env with S_LoadSound := l2 } st.paintedtime st.dma pb' end_
        = TransferPaintBuffer inner env st.paintedtime st.dma pb' end_ := rfl
    rw [ht]
    cases hb : TransferPaintBuffer inner env st.paintedtime st.dma pb' end_ with
    | none => exact ⟨rfl, fun r hr => by cases hr⟩
    | some buffer =>
      refine ⟨rfl, fun r hr => ?_⟩
      cases hr
      exact h2 _ hp

theorem S_PaintChannels_loop_same (env : env_t) (l2 : Nat → Option sfxcache_t)
    (hwf : ∀ s sc, env.S_LoadSound s = some sc →
      (sc.width = 1 ∨ sc.width = 2) ∧ (sc.channels = 1 ∨ sc.channels = 2))
    (hsame : sameLookup env.S_LoadSound l2)
    (hbind : ∀ (ps : playsound_t) (t : Int) (chs : List channel_t),
      (∀ ch ∈ chs, dataLeft env t ch) → ∀ ch ∈ env.bind ps t chs, dataLeft env t ch)
    (endtime : Int) (inner : Nat) (fuel : Nat) :
    ∀ (pb : Int → samplepair_t) (st : mixer_t),
      (∀ ch ∈ st.channels, dataLeft env st.paintedtime ch) →
      S_PaintChannels_loop { env with S_LoadSound := l2 } endtime inner fuel pb st
          = S_PaintChannels_loop env endtime inner fuel pb st ∧
        ∀ final, S_PaintChannels_loop env endtime inner fuel pb st = some final →
          ∀ ch ∈ final.channels, dataLeft env final.paintedtime ch := by
  induction fuel with
  | zero =>
    intro pb st _
    exact ⟨rfl, fun r hr => by cases hr⟩
  | succ n ih =>
    intro pb st hinv
    unfold S_PaintChannels_loop
    by_cases hlt : st.paintedtime < endtime
    · rw [if_pos hlt, if_pos hlt]
      obtain ⟨h1, h2⟩ := S_PaintChannels_round_same env l2 hwf hsame hbind endtime inner pb st
        hlt hinv
      rw [h1]
      cases hr : S_PaintChannels_round env endtime inner pb st with
      | none => exact ⟨rfl, fun r hr => by cases hr⟩
      | some r =>
        obtain ⟨pb', st'⟩ := r
        exact ih pb' st' (h2 _ hr)
    · rw [if_neg hlt, if_neg hlt]
      refine ⟨rfl, fun r hr => ?_⟩
      cases hr
      exact hinv

/-- Claim C18: resource reads stay in bounds.  If on entry every active channel has
`0 ≤ pos` and `end - clock ≤ length - pos` for its resource (`dataLeft`), every resource has
1 or 2 bytes a sample and 1 or 2 channels, and an activation keeps `dataLeft`, then
`S_PaintChannels` gives the same result, and runs out of fuel the same way, when the samples
outside the frames `0 .. length - 1` of every resource are replaced by anything
(`sameLookup`): no paint routine reads a frame outside `[0, length)`.  On exit `dataLeft`
holds at the advanced clock for every channel.  `loopstart ≤ length` is not needed. -/
theorem resource_reads_in_bounds (env : env_t) (lookup2 : Nat → Option sfxcache_t) (fuel : Nat)
    (paintbuffer : Int → samplepair_t) (endtime : Int) (st : mixer_t)
    (hwf : ∀ s sc, env.S_LoadSound s = some sc →
      (sc.width = 1 ∨ sc.width = 2) ∧ (sc.channels = 1 ∨ sc.channels = 2))
    (hsame : sameLookup env.S_LoadSound lookup2)
    (hbind : ∀ (ps : playsound_t) (t : Int) (chs : List channel_t),
      (∀ ch ∈ chs, dataLeft env t ch) → ∀ ch ∈ env.bind ps t chs, dataLeft env t ch)
    (hentry : ∀ ch ∈ st.channels, dataLeft env st.paintedtime ch) :
    S_PaintChannels fuel { env with S_LoadSound := lookup2 } paintbuffer endtime st
        = S_PaintChannels fuel env paintbuffer endtime st ∧
      ∀ final, S_PaintChannels fuel env paintbuffer endtime st = some final →
        ∀ ch ∈ final.channels, dataLeft env final.paintedtime ch := by
  unfold S_PaintChannels
  exact S_PaintChannels_loop_same env lookup2 hwf hsame hbind endtime fuel fuel paintbuffer st
    hentry

/-- Witness of `resource_reads_in_bounds`: the three-frame scenario gives the same result
with `paddedSound`, whose samples outside the three frames are 9999, and the pass ends at
clock 3. -/
theorem resource_reads_in_bounds_witness :
    sameLookup (plainEnv tripleSound soloBind (fun _ => 0) (fun _ _ => 0)).S_LoadSound
      (fun _ => some paddedSound) ∧
    (∀ ch ∈ (plainState [plainChannel 255 3] (fun _ => 0)).channels,
      dataLeft (plainEnv tripleSound soloBind (fun _ => 0) (fun _ _ => 0)) 0 ch) ∧
    S_PaintChannels 5
        { plainEnv tripleSound soloBind (fun _ => 0) (fun _ _ => 0) with
          S_LoadSound := fun _ => some paddedSound }
        (fun _ => ⟨0, 0⟩) 3 (plainState [plainChannel 255 3] (fun _ => 0))
      = S_PaintChannels 5 (plainEnv tripleSound soloBind (fun _ => 0) (fun _ _ => 0))
        (fun _ => ⟨0, 0⟩) 3 (plainState [plainChannel 255 3] (fun _ => 0)) ∧
    (S_PaintChannels 5 (plainEnv tripleSound soloBind (fun _ => 0) (fun _ _ => 0))
        (fun _ => ⟨0, 0⟩) 3 (plainState [plainChannel 255 3] (fun _ => 0))).map
      (fun s => s.paintedtime) = some 3 := by
  have hsame : sameLookup (plainEnv tripleSound soloBind (fun _ => 0) (fun _ _ => 0)).S_LoadSound
      (fun _ => some paddedSound) := by
    intro s
    right
    refine ⟨tripleSound, paddedSound, rfl, rfl, rfl, rfl, rfl, rfl, fun k h0 h3 => ?_⟩
    have h3' : k < 3 := h3
    show tripleSound.data k = if 0 ≤ k ∧ k < 3 then tripleSound.data k else 9999
    rw [if_pos ⟨h0, h3'⟩]
  have hentry : ∀ ch ∈ (plainState [plainChannel 255 3] (fun _ => 0)).channels,
      dataLeft (plainEnv tripleSound soloBind (fun _ => 0) (fun _ _ => 0)) 0 ch := by
    intro ch hch
    have hch' : ch = plainChannel 255 3 := List.mem_singleton.mp hch
    subst hch'
    intro s sc _ hl
    have hsc : tripleSound = sc := Option.some.inj hl
    subst hsc
    exact ⟨by decide, by decide⟩
  refine ⟨hsame, hentry, (resource_reads_in_bounds
    (plainEnv tripleSound soloBind (fun _ => 0) (fun _ _ => 0)) (fun _ => some paddedSound) 5
    (fun _ => ⟨0, 0⟩) 3 (plainState [plainChannel 255 3] (fun _ => 0)) ?_ hsame ?_ hentry).1, rfl⟩
  · intro s sc hl
    have hsc : tripleSound = sc := Option.some.inj hl
    subst hsc
    exact ⟨Or.inr rfl, Or.inl rfl⟩
  · intro ps t chs _ ch hch
    have hch' : ch = _ := List.mem_singleton.mp hch
    subst hch'
    intro s sc _ hl
    have hsc : tripleSound = sc := Option.some.inj hl
    subst hsc
    refine ⟨le_refl 0, ?_⟩
    show t + 3 - t ≤ 3 - 0
    omega

/-! ## Painting is additive in the paint buffer -/

theorem paintfuncs_add (func : Int) (env : env_t) (ch : channel_t) (sc : sfxcache_t)
    (count : Int) (pb d : Int → samplepair_t) (off : Int) :
    paintfuncs func env ch sc count (addBuffers pb d) off
      = addBuffers (paintfuncs func env ch sc count pb off) d := by
  obtain ⟨f, g, h⟩ := paintfuncs_apply func env ch sc count
  funext j
  show paintfuncs func env ch sc count (addBuffers pb d) off j
    = ⟨(paintfuncs func env ch sc count pb off j).left + (d j).left,
       (paintfuncs func env ch sc count pb off j).right + (d j).right⟩
  rw [h (addBuffers pb d) off j, h pb off j]
  by_cases c : off ≤ j ∧ j < off + count.toNat
  · simp only [if_pos c, addBuffers, samplepair_t.mk.injEq]
    exact ⟨by ring, by ring⟩
  · simp only [if_neg c, addBuffers]

theorem paintChannel_step_add (env : env_t) (p e : Int) (ch : channel_t) (lt : Int)
    (pb d : Int → samplepair_t) :
    paintChannel_step env p e ch lt (addBuffers pb d)
      = match paintChannel_step env p e ch lt pb with
        | .exit r => .exit (r.1, addBuffers r.2 d)
        | .again r => .again (r.1, r.2.1, addBuffers r.2.2 d) := by
  obtain ⟨sfx, lv, rv, en, pos, mv, au⟩ := ch
  unfold paintChannel_step
  by_cases hlt : lt < e
  swap
  · simp only [if_neg hlt]
  simp only [if_pos hlt]
  cases sfx with
  | none => rfl
  | some s =>
    simp only []
    by_cases hz : lv = 0 ∧ rv = 0
    · simp only [if_pos hz]
    simp only [if_neg hz]
    cases hl : env.S_LoadSound s with
    | none => rfl
    | some sc =>
      simp only []
      by_cases hc : (if en - lt < e - lt then en - lt else e - lt) > 0
      · simp only [if_pos hc]
        rw [paintfuncs_add]
      · simp only [if_neg hc]

theorem paintChannel_add (env : env_t) (p e : Int) (d : Int → samplepair_t) (fuel : Nat) :
    ∀ (ch : channel_t) (lt : Int) (pb : Int → samplepair_t),
      paintChannel env p e fuel ch lt (addBuffers pb d)
        = (paintChannel env p e fuel ch lt pb).map (fun r => (r.1, addBuffers r.2 d)) := by
  induction fuel with
  | zero => intro ch lt pb; rfl
  | succ n ih =>
    intro ch lt pb
    simp only [paintChannel]
    rw [paintChannel_step_add]
    cases hs : paintChannel_step env p e ch lt pb with
    | exit r => rfl
    | again r =>
      obtain ⟨c, l, b⟩ := r
      exact ih c l b

theorem paintAll_add (env : env_t) (p e : Int) (d : Int → samplepair_t) (fuel : Nat) :
    ∀ (chs : List channel_t) (pb : Int → samplepair_t),
      paintAll env p e fuel chs (addBuffers pb d)
        = (paintAll env p e fuel chs pb).map (fun r => (r.1, addBuffers r.2 d)) := by
  intro chs
  induction chs with
  | nil => intro pb; rfl
  | cons c rest ih =>
    intro pb
    simp only [paintAll]
    rw [paintChannel_add]
    cases h1 : paintChannel env p e fuel c p pb with
    | none => rfl
    | some x =>
      obtain ⟨c', pb'⟩ := x
      simp only [Option.map_some']
      rw [ih pb']
      cases h2 : paintAll env p e fuel rest pb' with
      | none => rfl
      | some y => rfl

/-! ## The paint buffer stays inside its capacity: the sub-iteration (C15) -/

theorem clearBuffer_add (pb pb2 : Int → samplepair_t) (n : Int) :
    ∃ d : Int → samplepair_t, (∀ j, 0 ≤ j → j < n → d j = ⟨0, 0⟩) ∧
      clearBuffer pb2 n = addBuffers (clearBuffer pb n) d := by
  refine ⟨fun j => if 0 ≤ j ∧ j < n then ⟨0, 0⟩
    else ⟨(pb2 j).left - (pb j).left, (pb2 j).right - (pb j).right⟩,
    fun j h0 h1 => if_pos ⟨h0, h1⟩, ?_⟩
  funext j
  simp only [clearBuffer, addBuffers]
  by_cases h : 0 ≤ j ∧ j < n
  · simp only [if_pos h, add_zero]
  · simp only [if_neg h, add_sub_cancel]

/-- C15: a sub-iteration of `S_PaintChannels` (test tone off, clock not negative, device of
one or two channels and at least 2 samples) that starts with the clock below `endtime` and
returns.  The end that it chooses, the clock on return, satisfies
`clock < end ≤ min (clock + 2048) endtime`, so that `end - clock` is at most
`PAINTBUFFER_SIZE = 2048`.  The paint buffer is touched in the slots `0 .. end - clock - 1`
only: on return every other slot holds what it held on entry (nothing else is cleared or
painted); whatever the paint buffer holds on entry, the sub-iteration returns the same clock,
channels, queue and device buffer, and the same paint buffer in the slots
`0 .. end - clock - 1` (every slot that is painted or transferred has been cleared); and the
transfer, given any paint buffer that agrees with the painted one on these slots, gives the
device buffer of the sub-iteration (it reads no other slot). -/
theorem paint_buffer_bounded (env : env_t) (endtime : Int) (inner : Nat)
    (pb : Int → samplepair_t) (st : mixer_t) (r : (Int → samplepair_t) × mixer_t)
    (htest : env.s_testsound = false) (hclock : 0 ≤ st.paintedtime)
    (hlt : st.paintedtime < endtime)
    (hs : 2 ≤ st.dma.samples) (hch : st.dma.channels = 1 ∨ st.dma.channels = 2)
    (hr : S_PaintChannels_round env endtime inner pb st = some r) :
    (st.paintedtime < r.2.paintedtime ∧ r.2.paintedtime ≤ st.paintedtime + 2048 ∧
      r.2.paintedtime ≤ endtime ∧ r.2.paintedtime - st.paintedtime ≤ PAINTBUFFER_SIZE) ∧
    (∀ j, ¬ (0 ≤ j ∧ j < r.2.paintedtime - st.paintedtime) → r.1 j = pb j) ∧
    (∀ pb2 : Int → samplepair_t, ∃ r2, S_PaintChannels_round env endtime inner pb2 st = some r2 ∧
      r2.2 = r.2 ∧ ∀ j, 0 ≤ j → j < r.2.paintedtime - st.paintedtime → r2.1 j = r.1 j) ∧
    (∀ samp2 : Int → samplepair_t,
      (∀ j, 0 ≤ j → j < r.2.paintedtime - st.paintedtime → samp2 j = r.1 j) →
      TransferPaintBuffer inner env st.paintedtime st.dma samp2 r.2.paintedtime
        = some r.2.dma.buffer) := by
  have he0 : st.paintedtime < (if endtime - st.paintedtime > PAINTBUFFER_SIZE
        then st.paintedtime + PAINTBUFFER_SIZE else endtime) ∧
      (if endtime - st.paintedtime > PAINTBUFFER_SIZE
        then st.paintedtime + PAINTBUFFER_SIZE else endtime) ≤ endtime ∧
      (if endtime - st.paintedtime > PAINTBUFFER_SIZE
        then st.paintedtime + PAINTBUFFER_SIZE else endtime) ≤ st.paintedtime + 2048 := by
    unfold PAINTBUFFER_SIZE; split_ifs <;> omega
  have hsp := startPlaysounds_end env st.paintedtime st.s_pendingplays st.channels _ he0.1
  have hround : ∀ pbx : Int → samplepair_t, S_PaintChannels_round env endtime inner pbx st
      = match startPlaysounds env st.paintedtime st.s_pendingplays st.channels
          (if endtime - st.paintedtime > PAINTBUFFER_SIZE
            then st.paintedtime + PAINTBUFFER_SIZE else endtime) with
        | (pending, channels, end_) =>
          match paintAll env st.paintedtime end_ inner channels
              (clearBuffer pbx (end_ - st.paintedtime)) with
          | none => none
          | some (channels, paintbuffer) =>
            match TransferPaintBuffer inner env st.paintedtime st.dma paintbuffer end_ with
            | none => none
            | some buffer =>
              some (paintbuffer,
                { paintedtime := end_, channels := channels, s_pendingplays := pending,
                  dma := { st.dma with buffer := buffer } }) := fun _ => rfl
  rw [hround pb] at hr
  simp only [hround]
  revert hr hsp
  generalize startPlaysounds env st.paintedtime st.s_pendingplays st.channels
    (if endtime - st.paintedtime > PAINTBUFFER_SIZE
      then st.paintedtime + PAINTBUFFER_SIZE else endtime) = sp at he0 ⊢
  obtain ⟨q', chs', end_⟩ := sp
  intro hr hsp
  simp only [] at hr hsp ⊢
  cases hp : paintAll env st.paintedtime end_ inner chs'
      (clearBuffer pb (end_ - st.paintedtime)) with
  | none => rw [hp] at hr; simp at hr
  | some x =>
    obtain ⟨chs'', pb'⟩ := x
    rw [hp] at hr
    simp only [] at hr
    cases ht : TransferPaintBuffer inner env st.paintedtime st.dma pb' end_ with
    | none => rw [ht] at hr; simp at hr
    | some buf =>
      rw [ht] at hr
      simp only [Option.some.injEq] at hr
      subst hr
      simp only []
      have hext : ∀ samp2 : Int → samplepair_t,
          (∀ j, 0 ≤ j → j < end_ - st.paintedtime → samp2 j = pb' j) →
          TransferPaintBuffer inner env st.paintedtime st.dma samp2 end_ = some buf := by
        intro samp2 h
        rw [← ht]
        exact TransferPaintBuffer_ext env st.paintedtime end_ st.dma samp2 pb' inner htest
          hclock (by omega) hs hch h
      refine ⟨⟨by omega, by omega, by omega, by unfold PAINTBUFFER_SIZE; omega⟩, ?_, ?_, hext⟩
      · intro j hj
        have hfr := paintAll_frame env st.paintedtime end_ inner chs' _ _ hp j hj
        simp only [] at hfr
        rw [hfr]
        unfold clearBuffer
        rw [if_neg hj]
      · intro pb2
        obtain ⟨d, hd0, hd⟩ := clearBuffer_add pb pb2 (end_ - st.paintedtime)
        rw [hd, paintAll_add, hp]
        simp only [Option.map_some']
        have hin : ∀ j, 0 ≤ j → j < end_ - st.paintedtime → addBuffers pb' d j = pb' j := by
          intro j h0 h1
          simp only [addBuffers, hd0 j h0 h1, add_zero]
        rw [hext (addBuffers pb' d) hin]
        exact ⟨_, rfl, rfl, hin⟩

/-- Witness of `paint_buffer_bounded`: the three-frame scenario with a sound pending for time
2 and a request up to 5000: the sub-iteration returns, and ends at 2. -/
theorem paint_buffer_bounded_witness :
    ∃ r, S_PaintChannels_round
        (plainEnv tripleSound (fun _ _ chs => chs) (fun _ => 0) (fun _ _ => 0)) 5000 5
        (fun _ => ⟨7, 7⟩)
        { paintedtime := 0, channels := [plainChannel 255 3],
          s_pendingplays := [{ sfx := some 0, volume := 1, begin := 2 }],
          dma := { channels := 2, samples := 8, samplebits := 16, buffer := fun _ => 0 } }
        = some r ∧ r.2.paintedtime = 2 ∧
      ((0 : Int) < r.2.paintedtime ∧ r.2.paintedtime ≤ 0 + 2048 ∧ r.2.paintedtime ≤ 5000 ∧
        r.2.paintedtime - 0 ≤ PAINTBUFFER_SIZE) ∧
      ∀ j, ¬ (0 ≤ j ∧ j < r.2.paintedtime - 0) → r.1 j = ⟨7, 7⟩ := by
  have hview : Option.map (fun r => r.2.paintedtime) (S_PaintChannels_round
      (plainEnv tripleSound (fun _ _ chs => chs) (fun _ => 0) (fun _ _ => 0)) 5000 5
      (fun _ => ⟨7, 7⟩)
      { paintedtime := 0, channels := [plainChannel 255 3],
        s_pendingplays := [{ sfx := some 0, volume := 1, begin := 2 }],
        dma := { channels := 2, samples := 8, samplebits := 16, buffer := fun _ => 0 } })
      = some 2 := rfl
  obtain ⟨r, hr, hclock⟩ := Option.map_eq_some'.mp hview
  have hthm := paint_buffer_bounded
    (plainEnv tripleSound (fun _ _ chs => chs) (fun _ => 0) (fun _ _ => 0)) 5000 5
    (fun _ => ⟨7, 7⟩)
    { paintedtime := 0, channels := [plainChannel 255 3],
      s_pendingplays := [{ sfx := some 0, volume := 1, begin := 2 }],
      dma := { channels := 2, samples := 8, samplebits := 16, buffer := fun _ => 0 } }
    r rfl (by decide) (by decide) (by decide) (by decide) hr
  exact ⟨r, hr, hclock, hthm.1, hthm.2.1⟩

/-! ## The first frame of a channel -/

end Q2Mix
